import Mathlib

/-!
# Command segmentation of the shell (`command.c`, `command.h`)

A shallow embedding of `separator`, `fillCommandStructure`, `searchRedirection`,
`buildCommandArgumentArray` and `separateCommands`, followed by theorems about them. The
file then embeds the tokeniser, the command history, the pipeline executors, the redirection
handler and `executeCommand` of `simpleShell.c` (with `handlePipes` of `shell.c`).

Conventions of the embedding.

* A NULL-terminated `char *token[]` is a `List String`: the entries before the NULL.
  Reading `token[i]` is `tokenAt token i`, which is `none` outside the list.
* `int` values are `Int` (token counts are far below the machine range, so no wrap-around
  is modelled); loop counters that only count upwards from `0` are `Nat`.
* `Command command[]` is a function `Nat → Command` giving the contents of every slot.
* Every C loop is a recursive function with a step budget; the caller supplies a budget that
  is at least the number of iterations the loop can make.
* A C string is the `List Char` of its characters before the NUL.
* What the operating system answers (results of `pipe`, `fork`, `open`, `dup2`, `glob`, exit
  statuses) is a parameter of the function that asks; what a function does to processes and
  descriptors is returned as a list of calls.
-/

namespace Shell

/-! ## Constants of `command.h` -/

def MAX_NUM_COMMANDS : Nat := 1000
def MAX_TOKENS : Nat := 100
def MAX_TOKEN_LENGTH : Nat := 100

def pipeSep : String := "|"
def conSep : String := "&"
def seqSep : String := ";"

/-- The record `struct CommandStruct`. `sep`, `stdin_file`, `stdout_file` are pointers
(`none` is NULL). `argv` lists the slots `argv[0..k)` stored in front of the terminating
NULL; a slot holds the pointer that was stored in it. -/
structure Command where
  first : Int
  last : Int
  sep : Option String
  argv : List (Option String)
  stdin_file : Option String
  stdout_file : Option String
deriving DecidableEq

/-- The state `initialiseCommand` leaves in a record. The `MAX_TOKENS` freshly allocated
argument buffers have unspecified contents and are all overwritten or dropped by
`buildCommandArgumentArray`; they are represented by the empty list. -/
def initialiseCommand : Command :=
  { first := 0, last := 0, sep := none, argv := [], stdin_file := none, stdout_file := none }

/-- The read `token[i]`. -/
def tokenAt (token : List String) (i : Int) : Option String :=
  if i < 0 then none else token[i.toNat]?

/-- The function `separator`: the token is compared with `pipeSep`, `conSep`, `seqSep` in
turn; the C result `1`/`0` is `true`/`false`. -/
def separator (token : String) : Bool :=
  [pipeSep, conSep, seqSep].any (fun s => s == token)

/-- The test `separator(token[i])`. -/
def separatorAt (token : List String) (i : Int) : Bool :=
  match tokenAt token i with
  | some t => separator t
  | none => false

/-- The function `fillCommandStructure`. -/
def fillCommandStructure (cp : Command) (first last : Int) (sep : Option String) : Command :=
  { cp with first := first, last := last - 1, sep := sep }

/-- The loop of `searchRedirection`, entered with loop variable `i`. -/
def searchRedirectionLoop (token : List String) : Nat → Int → Command → Command
  | 0, _, cp => cp
  | fuel + 1, i, cp =>
    if i ≤ cp.last then
      if tokenAt token i = some "<" then
        searchRedirectionLoop token fuel (i + 1 + 1) { cp with stdin_file := tokenAt token (i + 1) }
      else if tokenAt token i = some ">" then
        searchRedirectionLoop token fuel (i + 1 + 1) { cp with stdout_file := tokenAt token (i + 1) }
      else
        searchRedirectionLoop token fuel (i + 1) cp
    else cp

/-- The function `searchRedirection`. The loop makes at most `last - first + 1` iterations. -/
def searchRedirection (token : List String) (cp : Command) : Command :=
  searchRedirectionLoop token (cp.last - cp.first + 1).toNat cp.first cp

/-- The element count `n` that `buildCommandArgumentArray` passes to `realloc`. -/
def argvCapacity (cp : Command) : Int :=
  let n := cp.last - cp.first + 1
  let n := if cp.stdin_file ≠ none then n - 2 else n
  let n := if cp.stdout_file ≠ none then n - 2 else n
  n + 1

/-- The loop of `buildCommandArgumentArray`, entered with loop variable `i` and the slots
`argv[0..k)` already stored in `argv`. -/
def buildArgvLoop (token : List String) (last : Int) : Nat → Int → List (Option String) →
    List (Option String)
  | 0, _, argv => argv
  | fuel + 1, i, argv =>
    if i ≤ last then
      if tokenAt token i = some ">" ∨ tokenAt token i = some "<" then
        buildArgvLoop token last fuel (i + 1 + 1) argv
      else
        buildArgvLoop token last fuel (i + 1) (argv ++ [tokenAt token i])
    else argv

/-- The function `buildCommandArgumentArray` on the path where `realloc` returns a block: the
statements after the NULL check. The size `realloc` is asked for is `argvCapacity`; the path
on which it returns NULL and the function calls `exit(1)` is added by
`buildCommandArgumentArrayRun`. -/
def buildCommandArgumentArray (token : List String) (cp : Command) : Command :=
  { cp with argv := buildArgvLoop token cp.last (cp.last - cp.first + 1).toNat cp.first [] }

/-- The assignment `command[c] = v`. -/
def setCommand (command : Nat → Command) (c : Nat) (v : Command) : Nat → Command :=
  fun k => if k = c then v else command k

/-- The local variables of `separateCommands` that its first loop updates. -/
structure ScanState where
  first : Nat
  last : Nat
  c : Nat
  command : Nat → Command

/-- The first loop of `separateCommands`, entered with loop variable `i`. The result is
`(some (-2), s)` when the loop executes `return -2`, and `(none, s)` when it runs to its end. -/
def scanLoop (token : List String) (nTokens : Nat) : Nat → Nat → ScanState →
    Option Int × ScanState
  | 0, _, s => (none, s)
  | fuel + 1, i, s =>
    if i < nTokens then
      if separatorAt token i then
        if s.first = i then (some (-2), { s with last := i })
        else
          scanLoop token nTokens fuel (i + 1)
            { first := i + 1, last := i, c := s.c + 1,
              command := setCommand s.command s.c
                (fillCommandStructure (s.command s.c) s.first i (tokenAt token i)) }
      else
        scanLoop token nTokens fuel (i + 1) { s with last := i }
    else (none, s)

/-- The second loop of `separateCommands`, entered with loop variable `i`. -/
def resolveLoop (token : List String) (nCommands : Nat) : Nat → Nat → (Nat → Command) →
    (Nat → Command)
  | 0, _, command => command
  | fuel + 1, i, command =>
    if i < nCommands then
      resolveLoop token nCommands fuel (i + 1)
        (setCommand command i
          (buildCommandArgumentArray token (searchRedirection token (command i))))
    else command

/-- What a call of `separateCommands` leaves behind: the returned `int`, the token array
(the call may store `seqSep` over its NULL) and the command array. -/
structure Outcome where
  code : Int
  token : List String
  command : Nat → Command

/-- The function `separateCommands`, as far as it returns: every call of
`buildCommandArgumentArray` in the second loop is taken on its returning path
(`separateCommandsRun` adds the path on which the process exits there, and agrees with this
function whenever the call returns). `last` is not assigned before the first loop; that loop
runs at least once and assigns it, so its starting value `0` is never read. -/
def separateCommands (token : List String) (command : Nat → Command) : Outcome :=
  let nTokens := token.length
  if nTokens = 0 then { code := 0, token := token, command := command }
  else if separatorAt token 0 then { code := -3, token := token, command := command }
  else
    let token1 := if separatorAt token (nTokens - 1 : Nat) then token else token ++ [seqSep]
    let nTokens1 := if separatorAt token (nTokens - 1 : Nat) then nTokens else nTokens + 1
    match scanLoop token1 nTokens1 nTokens1 0 { first := 0, last := 0, c := 0, command := command } with
    | (some r, s) => { code := r, token := token1, command := s.command }
    | (none, s) =>
      if tokenAt token1 s.last = some pipeSep then
        { code := -4, token := token1, command := s.command }
      else
        { code := s.c, token := token1,
          command := resolveLoop token1 s.c s.c 0 s.command }

/-- The stages `command[0..nCommands)` of a call that returned a stage count. -/
def stages (r : Outcome) : List Command :=
  (List.range r.code.toNat).map r.command

/-! ## The `exit(1)` path of `buildCommandArgumentArray` -/

/-- Whether `realloc(cp->argv, sizeof(char *) * n)` returns a block. `cp->argv` holds a block
(from `initialiseCommand` or from an earlier call). For `n = 0` the requested size is `0`: the
C library frees the block and returns NULL. For `n < 0` the product `sizeof(char *) * n`
wraps round to a size that no allocation satisfies, and the result is NULL as well. For
`n > 0` the allocation is taken to succeed. -/
def reallocArgv (n : Int) : Bool :=
  decide (0 < n)

/-- The function `buildCommandArgumentArray` with its `exit(1)` path: `none` when `realloc`
returns NULL (the function calls `perror` and `exit(1)`, the process ends), and otherwise the
command that the statements after the check leave, which is `buildCommandArgumentArray`. -/
def buildCommandArgumentArrayRun (token : List String) (cp : Command) : Option Command :=
  if reallocArgv (argvCapacity cp) then some (buildCommandArgumentArray token cp) else none

/-- The second loop of `separateCommands` with the `exit(1)` path, entered with loop
variable `i`: `none` when a call of `buildCommandArgumentArray` ends the process. -/
def resolveLoopRun (token : List String) (nCommands : Nat) : Nat → Nat → (Nat → Command) →
    Option (Nat → Command)
  | 0, _, command => some command
  | fuel + 1, i, command =>
    if i < nCommands then
      match buildCommandArgumentArrayRun token (searchRedirection token (command i)) with
      | none => none
      | some cp => resolveLoopRun token nCommands fuel (i + 1) (setCommand command i cp)
    else some command

/-- The function `separateCommands` with the `exit(1)` path of `buildCommandArgumentArray`:
`none` when the process exits inside the call, `some` of what the call leaves behind when it
returns. The statements are those of `separateCommands`; only its second loop can end the
process. -/
def separateCommandsRun (token : List String) (command : Nat → Command) : Option Outcome :=
  let nTokens := token.length
  if nTokens = 0 then some { code := 0, token := token, command := command }
  else if separatorAt token 0 then some { code := -3, token := token, command := command }
  else
    let token1 := if separatorAt token (nTokens - 1 : Nat) then token else token ++ [seqSep]
    let nTokens1 := if separatorAt token (nTokens - 1 : Nat) then nTokens else nTokens + 1
    match scanLoop token1 nTokens1 nTokens1 0 { first := 0, last := 0, c := 0, command := command } with
    | (some r, s) => some { code := r, token := token1, command := s.command }
    | (none, s) =>
      if tokenAt token1 s.last = some pipeSep then
        some { code := -4, token := token1, command := s.command }
      else
        (resolveLoopRun token1 s.c s.c 0 s.command).map
          (fun resolved => { code := s.c, token := token1, command := resolved })

/-! ## Notions used to state the properties -/

/-- Index `j` holds a control operator that closes an empty stage: it is the first token or
it directly follows another control operator. -/
def doubledAt (token : List String) (j : Nat) : Prop :=
  separatorAt token j = true ∧ (j = 0 ∨ separatorAt token ((j - 1 : Nat) : Int) = true)

/-- Two adjacent tokens of the sequence are both control operators. -/
def adjacentSeparators (token : List String) : Prop :=
  ∃ j, j + 1 < token.length ∧ separatorAt token j = true ∧ separatorAt token ((j + 1 : Nat) : Int) = true

/-- The indices below `i` that hold a control operator, in increasing order. -/
def sepsBelow (token : List String) (i : Nat) : List Nat :=
  (List.range i).filter (fun j => separatorAt token j)

/-- The indices of the control operators of the sequence, in increasing order: entry `k` is
the position of the `k`-th operator. -/
def sepIndices (token : List String) : List Nat :=
  sepsBelow token token.length

/-- The index just after the `(k-1)`-th operator of `ops`, and `0` for `k = 0`. -/
def stageStart (ops : List Nat) (k : Nat) : Nat :=
  if k = 0 then 0 else ops.getD (k - 1) 0 + 1

/-- What the first loop of `separateCommands` has established when it is about to examine
index `i`, having started from the command array `command0`. -/
structure ScanInv (token : List String) (command0 : Nat → Command) (i : Nat)
    (s : ScanState) : Prop where
  hc : s.c = (sepsBelow token i).length
  hfirst : s.first = stageStart (sepsBelow token i) s.c
  hle : s.first ≤ i
  hlast : i = 0 ∨ s.last + 1 = i
  hstage : ∀ k, k < s.c →
    (s.command k).first = (stageStart (sepsBelow token i) k : Nat) ∧
    (s.command k).last = (((sepsBelow token i).getD k 0 : Nat) : Int) - 1 ∧
    (s.command k).sep = tokenAt token ((sepsBelow token i).getD k 0 : Nat) ∧
    stageStart (sepsBelow token i) k < (sepsBelow token i).getD k 0
  hrest : ∀ k, s.c ≤ k → s.command k = command0 k
  hfiles : ∀ k, (s.command k).stdin_file = (command0 k).stdin_file ∧
    (s.command k).stdout_file = (command0 k).stdout_file

/-- The token array as the first loop of `separateCommands` sees it: `seqSep` is stored at
the end unless the last token is a control operator already. -/
def withTerminator (token : List String) : List String :=
  if separatorAt token ((token.length - 1 : Nat) : Int) then token else token ++ [seqSep]

instance (token : List String) : Decidable (adjacentSeparators token) :=
  decidable_of_iff
    (∃ j, j < token.length ∧ (j + 1 < token.length ∧ separatorAt token j = true ∧
      separatorAt token ((j + 1 : Nat) : Int) = true))
    ⟨fun ⟨j, _, h⟩ => ⟨j, h⟩, fun ⟨j, h⟩ => ⟨j, Nat.lt_of_succ_lt h.1, h⟩⟩

/-- Token index `j` lies in the range `first..last` recorded in the stage `c`. -/
def inStage (c : Command) (j : Nat) : Prop :=
  c.first ≤ (j : Int) ∧ (j : Int) ≤ c.last

/-- The stages of `r` are cut at the control operators of its token array: there are as many
stages as operators; stage `k` starts just after operator `k - 1` (at `0` for `k = 0`), ends
just before operator `k`, records that operator and is not empty; consecutive stages are in
input order and disjoint; and every token index is either an operator outside every stage
range or a non-operator inside exactly one. -/
def StagesCutAtOperators (r : Outcome) : Prop :=
  r.code = ((sepIndices r.token).length : Nat) ∧
  (∀ k, k < (sepIndices r.token).length →
    (r.command k).first = (stageStart (sepIndices r.token) k : Nat) ∧
    (r.command k).last = (((sepIndices r.token).getD k 0 : Nat) : Int) - 1 ∧
    (r.command k).sep = tokenAt r.token ((sepIndices r.token).getD k 0 : Nat) ∧
    separatorAt r.token ((sepIndices r.token).getD k 0 : Nat) = true ∧
    (r.command k).first ≤ (r.command k).last) ∧
  (∀ k, k + 1 < (sepIndices r.token).length →
    (r.command k).last + 1 < (r.command (k + 1)).first) ∧
  (∀ j, j < r.token.length →
    (separatorAt r.token j = true ∧
      ∀ k, k < (sepIndices r.token).length → ¬ inStage (r.command k) j) ∨
    (separatorAt r.token j = false ∧
      ∃! k, k < (sepIndices r.token).length ∧ inStage (r.command k) j))

/-- The tokens at the indices `first..last` of the array, in order. -/
def tokenRange (token : List String) (first last : Int) : List String :=
  (token.drop first.toNat).take (last - first + 1).toNat

/-- The tokens of the stage `c`: those at the indices `c.first..c.last`. -/
def stageTokens (token : List String) (c : Command) : List String :=
  tokenRange token c.first c.last

/-- The token is a redirection operator, `<` or `>`. -/
def isRedirection (t : String) : Bool :=
  t == "<" || t == ">"

/-- A left-to-right pass over the tokens of a stage: a redirection operator is dropped
together with the token after it (which is not examined), any other token is kept. -/
def stripRedirections : List String → List String
  | [] => []
  | [t] => if isRedirection t then [] else [t]
  | t :: u :: rest =>
    if isRedirection t then stripRedirections rest else t :: stripRedirections (u :: rest)

/-- The positional reading of "remove every `<` or `>` together with the token immediately
following it": a token is removed when it is a redirection operator or when the token
before it (`prevOp`) is one. -/
def removeOperatorsAndFollowers : Bool → List String → List String
  | _, [] => []
  | prevOp, t :: rest =>
    if isRedirection t || prevOp then removeOperatorsAndFollowers (isRedirection t) rest
    else t :: removeOperatorsAndFollowers false rest

/-- No redirection operator of the stage is immediately followed by another one. -/
def noOperatorAfterOperator (seg : List String) : Prop :=
  seg.Chain' (fun a b => ¬ (isRedirection a = true ∧ isRedirection b = true))

instance (seg : List String) : Decidable (noOperatorAfterOperator seg) := by
  unfold noOperatorAfterOperator
  infer_instance

/-- The stage consists of redirections only: operator and target pairs, possibly followed by
one more operator. -/
def onlyRedirections : List String → Bool
  | [] => true
  | [t] => isRedirection t
  | t :: _ :: rest => isRedirection t && onlyRedirections rest

/-- The token at index `j` is a redirection operator. -/
def redirectionAt (token : List String) (j : Int) : Prop :=
  tokenAt token j = some "<" ∨ tokenAt token j = some ">"

/-- The path `after` is what "the last occurrence wins" asks for the operator `op` on the
indices `lo..hi`: without an occurrence of `op` it is the earlier value `before`; when the
last occurrence of `op` has a token after it inside `lo..hi`, it is that token. Nothing is
said about a last occurrence at `hi` itself. -/
def RecordsLastOccurrence (token : List String) (lo hi : Int) (op : String)
    (before after : Option String) : Prop :=
  ((∀ j, lo ≤ j → j ≤ hi → tokenAt token j ≠ some op) → after = before) ∧
  (∀ j, lo ≤ j → j < hi → tokenAt token j = some op →
    (∀ j2, j < j2 → j2 ≤ hi → tokenAt token j2 ≠ some op) → after = tokenAt token (j + 1))

/-! ## The tokeniser of `simpleShell.c` -/

def MAX_ARGUMENT_LENGTH : Nat := 1000
def MAX_HISTORY_LENGTH : Nat := 100
def MAX_COMMAND_LENGTH : Nat := 100

/-- One call of the library function `strtok` with the delimiter set `delim`, on the text
`s` that its saved pointer refers to (a C string is the list of its characters before the
NUL). The result is `none` for a NULL return, and otherwise the token together with the text
the saved pointer refers to afterwards. -/
def strtok (delim : List Char) (s : List Char) : Option (List Char × List Char) :=
  match s.dropWhile (fun c => delim.contains c) with
  | [] => none
  | c :: cs =>
    some ((c :: cs).takeWhile (fun x => !delim.contains x),
      ((c :: cs).dropWhile (fun x => !delim.contains x)).drop 1)

/-- The loop of `tokenise_command`: `token` is the current result of `strtok`, `rest` the
text its saved pointer refers to, `tokens` the entries `tokens[0..num_arg)`. -/
def tokeniseLoop : Nat → Option (List Char) → List Char → Nat → List (List Char) →
    Nat × List (List Char)
  | 0, _, _, num_arg, tokens => (num_arg, tokens)
  | fuel + 1, token, rest, num_arg, tokens =>
    match token with
    | none => (num_arg, tokens)
    | some t =>
      if num_arg < MAX_ARGUMENT_LENGTH - 1 then
        tokeniseLoop fuel ((strtok [' '] rest).map Prod.fst)
          (match strtok [' '] rest with
            | some r => r.2
            | none => [])
          (num_arg + 1) (tokens ++ [t.take (MAX_TOKEN_LENGTH - 1)])
      else (num_arg, tokens)

/-- The function `tokenise_command`: the returned count and the entries of `tokens` in front
of the NULL it stores. `strdup` and `malloc` are taken to succeed. The loop runs fewer than
`MAX_ARGUMENT_LENGTH` times. -/
def tokenise_command (input : List Char) : Nat × List (List Char) :=
  tokeniseLoop MAX_ARGUMENT_LENGTH ((strtok [' '] input).map Prod.fst)
    (match strtok [' '] input with
      | some r => r.2
      | none => [])
    0 []

/-- The maximal runs of characters of the line that are neither a space nor a tab. -/
def whitespaceRuns (line : List Char) : List (List Char) :=
  (line.splitOnP (fun c => c == ' ' || c == '\t')).filter (fun t => !t.isEmpty)

/-- The maximal runs of characters of the line that are not a space. -/
def spaceRuns (line : List Char) : List (List Char) :=
  (line.splitOnP (fun c => c == ' ')).filter (fun t => !t.isEmpty)

/-! ## The command history of `simpleShell.c` -/

/-- The part of the program state the history functions use: the rows `command_history` of
the `Shell` record and the globals `total_history` and `history_index`. -/
structure ShellState where
  command_history : Nat → List Char
  total_history : Nat
  history_index : Nat

/-- The state at the start of `runShell`: both globals are `0`; `rows` stands for the
unspecified contents of the freshly allocated `command_history`. -/
def createShell (rows : Nat → List Char) : ShellState :=
  { command_history := rows, total_history := 0, history_index := 0 }

/-- The assignment of a row by `strcpy(shell->command_history[i], command)`. -/
def setRow (rows : Nat → List Char) (i : Nat) (command : List Char) : Nat → List Char :=
  fun j => if j = i then command else rows j

/-- The call `free(shell->command_history[0])` of `add_history`. Its argument is the address
of the first row, which lies inside the `Shell` record that `createShell` obtained from
`malloc`; it is not a pointer that `malloc` returned. The C library detects this and aborts
the process (`free(): invalid pointer`), so the statements after the call are never reached
and no state follows it: `none`. -/
def free_command_history (_shell : ShellState) : Option ShellState :=
  none

/-- The function `add_history`; `none` when the process is aborted inside the call. The
command is taken to fit a row (`runShell` passes lines of at most 99 characters). In the
branch for a full store the call of `free` comes first, then the `strcpy` into row
`history_index` and the update of `history_index`. -/
def add_history (shell : ShellState) (command : List Char) : Option ShellState :=
  if shell.total_history < MAX_HISTORY_LENGTH then
    some { shell with
      command_history := setRow shell.command_history shell.total_history command,
      total_history := shell.total_history + 1 }
  else
    (free_command_history shell).bind (fun shell =>
      some { shell with
        command_history := setRow shell.command_history shell.history_index command,
        history_index := (shell.history_index + 1) % MAX_HISTORY_LENGTH })

/-- The function `history_by_number`; `none` is the NULL result. -/
def history_by_number (shell : ShellState) (num : Int) : Option (List Char) :=
  if num > 0 ∧ num ≤ (shell.total_history : Int) then
    some (shell.command_history (num - 1).toNat)
  else none

/-- The test `strncmp(a, b, n) == 0` on C strings: the first `n` characters agree. -/
def strncmpEq (a b : List Char) (n : Nat) : Bool :=
  a.take n == b.take n

/-- The loop of `history_by_string`, about to examine row `i - 1` (so `i` is the C loop
variable plus one, and `0` ends the loop). -/
def historyByStringLoop (rows : Nat → List Char) (str : List Char) : Nat → Option (List Char)
  | 0 => none
  | i + 1 =>
    if strncmpEq (rows i) str str.length then some (rows i)
    else historyByStringLoop rows str i

/-- The function `history_by_string`; `none` is the NULL result. -/
def history_by_string (shell : ShellState) (str : List Char) : Option (List Char) :=
  historyByStringLoop shell.command_history str shell.total_history

/-- The loop of `execute_history_by_string`, about to examine row `i - 1`, with the current
value of `command_to_execute`. -/
def executeHistoryByStringLoop (rows : Nat → List Char) (str : List Char) :
    Nat → Option (List Char) → Option (List Char)
  | 0, command_to_execute => command_to_execute
  | i + 1, command_to_execute =>
    if strncmpEq (rows i) str str.length then
      executeHistoryByStringLoop rows str i (some (rows i))
    else executeHistoryByStringLoop rows str i command_to_execute

/-- The value of `command_to_execute` when the loop of `execute_history_by_string` ends. -/
def commandToExecute (shell : ShellState) (str : List Char) : Option (List Char) :=
  executeHistoryByStringLoop shell.command_history str shell.total_history none

/-- The function `execute_history_by_string`: the argument vector it hands to
`execute_history_command`, or `none` when it executes nothing. -/
def execute_history_by_string (shell : ShellState) (str : List Char) :
    Option (List (List Char)) :=
  (commandToExecute shell str).map (fun c => (tokenise_command c).2)

/-- The state after the lines `ls` have been recorded with `add_history`, in order; `none`
when one of the calls aborts the process. -/
def recordAll (rows : Nat → List Char) (ls : List (List Char)) : Option ShellState :=
  ls.foldl (fun state command => state.bind (fun shell => add_history shell command))
    (some (createShell rows))

/-- The rows `command_history[0..total_history)`, in row order. -/
def historyRows (shell : ShellState) : List (List Char) :=
  (List.range shell.total_history).map shell.command_history

/-- The retained entries from the oldest to the newest: the rows in row order while the
store is not full, and from row `history_index` round to the row before it once it is. -/
def retained (shell : ShellState) : List (List Char) :=
  if shell.total_history < MAX_HISTORY_LENGTH then historyRows shell
  else (historyRows shell).rotate shell.history_index

/-- The store that holds the lines `ls` in its rows `0 .. ls.length - 1`, with the rows
behind them as in `rows` and the write index at `0`. -/
def storeOf (rows : Nat → List Char) (ls : List (List Char)) : ShellState :=
  { command_history := fun j => (ls[j]?).getD (rows j),
    total_history := ls.length,
    history_index := 0 }

/-- The text of `line` starts with `s`. -/
def startsWith (line s : List Char) : Bool :=
  s.isPrefixOf line

/-- The most recently recorded retained line whose text starts with `s`, if there is one. -/
def mostRecentMatch (shell : ShellState) (s : List Char) : Option (List Char) :=
  (retained shell).reverse.find? (fun line => startsWith line s)

/-! ## One pass of the loop of `runShell` -/

/-- The test `isdigit(c)`. -/
def isdigit (c : Char) : Bool :=
  decide ('0'.toNat ≤ c.toNat ∧ c.toNat ≤ '9'.toNat)

/-- The call `atoi(s)` for a string that starts with a digit, which is how `runShell` calls
it: `(int) strtol(s, NULL, 10)`. `strtol` reads the leading digits and answers `LONG_MAX`
when their value exceeds it; the conversion to `int` keeps the low 32 bits. -/
def atoi (s : List Char) : Int :=
  let value : Nat :=
    (s.takeWhile isdigit).foldl (fun acc c => 10 * acc + (c.toNat - '0'.toNat)) 0
  let long : Nat := min value (2 ^ 63 - 1)
  (((long + 2 ^ 31) % 2 ^ 32 : Nat) : Int) - 2 ^ 31

/-- The function `execute_history`: the numbered entries it prints. -/
def execute_history (shell : ShellState) : List (Nat × List Char) :=
  (List.range shell.total_history).map (fun i => (i + 1, shell.command_history i))

/-- The function `execute_history_by_number`: the argument vector it hands to
`execute_history_command`. `runShell` calls it only with a number that `history_by_number`
has accepted. -/
def execute_history_by_number (shell : ShellState) (num : Int) : List (List Char) :=
  (tokenise_command (shell.command_history (num - 1).toNat)).2

/-- The branches of the `if` chain in the loop of `runShell`. -/
inductive Branch where
  | prompt
  | cd
  | pwd
  | exit
  | history
  | replay
  | pipeline
  | command
deriving DecidableEq

/-- The branch that the `if` chain of `runShell` takes for the line `input`; the tests are
made in the order of the source. -/
def runShell_branch (input : List Char) : Branch :=
  if strncmpEq input "prompt".toList 6 then Branch.prompt
  else if strncmpEq input "cd".toList 2 then Branch.cd
  else if input = "pwd".toList then Branch.pwd
  else if input = "exit".toList then Branch.exit
  else if input = "history".toList then Branch.history
  else if input.head? = some '!' then Branch.replay
  else if input = "|".toList then Branch.pipeline
  else Branch.command

/-- What one pass of the loop of `runShell` leaves: the history store, the branch taken, the
history entries the pass printed, and the argument vector that a replay handed to
`execute_history_command`. -/
structure PassRun where
  shell : ShellState
  branch : Branch
  printed : List (List Char)
  executed : Option (List (List Char))

/-- The branch `input[0] == '!'` of `runShell`. `forkOk` tells whether the `fork` in
`execute_history_command` succeeds; when it fails that function calls `exit(0)` and the
process ends: `none`. The tokeniser works on a copy made with `strdup`, so the row that is
replayed is only read. -/
def runShell_replay (forkOk : Bool) (shell : ShellState) (input : List Char) :
    Option PassRun :=
  if ((input[1]?).map isdigit).getD false then
    match history_by_number shell (atoi (input.drop 1)) with
    | some commands =>
      if forkOk then
        some { shell := shell, branch := Branch.replay, printed := [commands],
               executed := some (execute_history_by_number shell (atoi (input.drop 1))) }
      else none
    | none =>
      some { shell := shell, branch := Branch.replay, printed := [], executed := none }
  else
    match history_by_string shell (input.drop 1) with
    | some commands =>
      match execute_history_by_string shell (input.drop 1) with
      | some argv =>
        if forkOk then
          some { shell := shell, branch := Branch.replay, printed := [commands],
                 executed := some argv }
        else none
      | none =>
        some { shell := shell, branch := Branch.replay, printed := [commands],
               executed := none }
    | none =>
      some { shell := shell, branch := Branch.replay, printed := [], executed := none }

/-- One pass of the loop of `runShell` on the line `input` (the line as read, without its
newline); `none` when the process ends inside the pass. The test at the top guards the call
of `add_history`; `tokenise_command` works on a copy of the line. Of the branches
`changePrompt`, `changeDirectory`, `printCurrentDirectory`, `exit` and `executeCommand` only
the fact that they are taken is recorded: they write `shell->prompt` and
`shell->currentDirectory` with bounded `snprintf` and `getcwd` and read nothing of the
history. The branch `strcmp(input, "|") == 0` evaluates `strcmp(input[num_commands], "|")`,
which passes the character `input[0]` (the value 124) where a pointer is expected; reading
through that address is a memory fault that kills the process. -/
def runShell_pass (forkOk : Bool) (shell : ShellState) (input : List Char) : Option PassRun :=
  (if input.head? ≠ some '!' ∧ input ≠ "history".toList then add_history shell input
    else some shell).bind (fun shell =>
    match runShell_branch input with
    | Branch.history =>
      some { shell := shell, branch := Branch.history,
             printed := (execute_history shell).map Prod.snd, executed := none }
    | Branch.replay => runShell_replay forkOk shell input
    | Branch.pipeline => none
    | b => some { shell := shell, branch := b, printed := [], executed := none })

/-! ## Pipelines: `execute_piped_commands` of `simpleShell.c`, `handlePipes` of `shell.c` -/

/-- A system call as one process issues it, in program order. Descriptors are `int`s. -/
inductive Syscall where
  | pipe (readEnd writeEnd : Int)
  | pipeFailed
  | fork (child : Nat)
  | forkFailed
  | dup2 (oldfd newfd : Int)
  | close (fd : Int)
  | wait
  | execvp (args : List (List Char))
deriving DecidableEq

/-- What the operating system answers during one pipeline: the descriptors the `i`-th call
of `pipe` stores (`none` when it fails), whether the `i`-th call of `fork` succeeds, and the
exit status child `i` terminates with. -/
structure PipeEnv where
  pipeFds : Nat → Option (Int × Int)
  forkOk : Nat → Bool
  exitStatus : Nat → Int

/-- What a call of `execute_piped_commands` amounts to: the returned `int`, the system calls
of the calling process, and for every child created the system calls it makes up to and
including `execvp`. -/
structure PipedRun where
  ret : Int
  parent : List Syscall
  children : List (List Syscall)

/-- The first loop of `execute_piped_commands`, entered with loop variable `i` and the rows
`pipes[0..i)` filled: `(false, _)` when it executes `return -1`. -/
def pipeLoop (env : PipeEnv) (num_commands : Int) : Nat → Nat → List (Int × Int) →
    Bool × List (Int × Int)
  | 0, _, pipes => (true, pipes)
  | fuel + 1, i, pipes =>
    if (i : Int) < num_commands - 1 then
      match env.pipeFds i with
      | none => (false, pipes)
      | some p => pipeLoop env num_commands fuel (i + 1) (pipes ++ [p])
    else (true, pipes)

/-- The descriptor `pipes[j][0]`. -/
def readEnd (pipes : List (Int × Int)) (j : Nat) : Int :=
  (pipes.getD j (0, 0)).1

/-- The descriptor `pipes[j][1]`. -/
def writeEnd (pipes : List (Int × Int)) (j : Nat) : Int :=
  (pipes.getD j (0, 0)).2

/-- The calls of the iterations `j = 0 .. m - 1` of the loop "close all the other pipes" in
child `i`. -/
def closeOthersLoop (pipes : List (Int × Int)) (i : Int) : Nat → List Syscall
  | 0 => []
  | m + 1 =>
    closeOthersLoop pipes i m ++
      (if (m : Int) ≠ i - 1 then [Syscall.close (readEnd pipes m)] else []) ++
      (if (m : Int) ≠ i then [Syscall.close (writeEnd pipes m)] else [])

/-- The calls child `i` makes before `execvp`. -/
def childSetup (pipes : List (Int × Int)) (num_commands : Int) (i : Nat) : List Syscall :=
  (if i > 0 then
      [Syscall.dup2 (readEnd pipes (i - 1)) 0, Syscall.close (readEnd pipes (i - 1))]
    else []) ++
  (if (i : Int) < num_commands - 1 then
      [Syscall.dup2 (writeEnd pipes i) 1, Syscall.close (writeEnd pipes i)]
    else []) ++
  closeOthersLoop pipes i (num_commands - 1).toNat

/-- The calls of child `i`: its setup, then `execvp` on the tokens of `commands[i]`. What
follows a failed `execvp` (`perror`, `exit(1)`) is not recorded. -/
def childCalls (pipes : List (Int × Int)) (num_commands : Int) (commands : List (List Char))
    (i : Nat) : List Syscall :=
  childSetup pipes num_commands i ++
    [Syscall.execvp (tokenise_command (commands.getD i [])).2]

/-- The second loop of `execute_piped_commands`, entered with loop variable `i` and the
children created so far: `(false, _)` when it executes `return -1`. -/
def forkLoop (env : PipeEnv) (pipes : List (Int × Int)) (num_commands : Int)
    (commands : List (List Char)) : Nat → Nat → List (List Syscall) →
    Bool × List (List Syscall)
  | 0, _, children => (true, children)
  | fuel + 1, i, children =>
    if (i : Int) < num_commands then
      if env.forkOk i then
        forkLoop env pipes num_commands commands fuel (i + 1)
          (children ++ [childCalls pipes num_commands commands i])
      else (false, children)
    else (true, children)

/-- The calls of the iterations `i = 0 .. m - 1` of the loop "close all pipes" of the
calling process. -/
def closeAllLoop (pipes : List (Int × Int)) : Nat → List Syscall
  | 0 => []
  | m + 1 =>
    closeAllLoop pipes m ++
      [Syscall.close (readEnd pipes m), Syscall.close (writeEnd pipes m)]

/-- The function `execute_piped_commands`. `wait(NULL)` discards the status of the child it
collects, so `env.exitStatus` is not read. -/
def execute_piped_commands (env : PipeEnv) (commands : List (List Char))
    (num_commands : Int) : PipedRun :=
  if num_commands < 2 then { ret := -1, parent := [], children := [] }
  else
    match pipeLoop env num_commands (num_commands - 1).toNat 0 [] with
    | (false, pipes) =>
      { ret := -1,
        parent := pipes.map (fun p => Syscall.pipe p.1 p.2) ++ [Syscall.pipeFailed],
        children := [] }
    | (true, pipes) =>
      match forkLoop env pipes num_commands commands num_commands.toNat 0 [] with
      | (false, children) =>
        { ret := -1,
          parent := pipes.map (fun p => Syscall.pipe p.1 p.2) ++
            (List.range children.length).map Syscall.fork ++ [Syscall.forkFailed],
          children := children }
      | (true, children) =>
        { ret := 0,
          parent := pipes.map (fun p => Syscall.pipe p.1 p.2) ++
            (List.range children.length).map Syscall.fork ++
            closeAllLoop pipes (num_commands - 1).toNat ++
            List.replicate num_commands.toNat Syscall.wait,
          children := children }

def MAX_PIPED_COMMANDS : Nat := 10

/-- The loop of `handlePipes` of `shell.c`, with the current `strtok_r` token, the text its
saved pointer refers to, `num_childs`, and the stage texts handed to children so far. The
result is the returned `int` and those stage texts. The descriptor bookkeeping of the loop
(`prev_fd`, `fd`) does not influence either and is not recorded. The loop variable
`num_childs` bounds the number of passes by `MAX_PIPED_COMMANDS`. -/
def handlePipesLoop (env : PipeEnv) : Nat → Option (List Char) → List Char → Nat →
    List (List Char) → Int × List (List Char)
  | 0, _, _, _, spawned => (0, spawned)
  | fuel + 1, token, rest, num_childs, spawned =>
    match token with
    | none => (0, spawned)
    | some t =>
      if num_childs < MAX_PIPED_COMMANDS then
        match env.pipeFds num_childs with
        | none => (-1, spawned)
        | some _ =>
          if env.forkOk num_childs then
            handlePipesLoop env fuel ((strtok ['|'] rest).map Prod.fst)
              (match strtok ['|'] rest with
                | some r => r.2
                | none => [])
              (num_childs + 1) (spawned ++ [t])
          else (-1, spawned)
      else (0, spawned)

/-- The function `handlePipes` of `shell.c`: after the loop it waits for every child with
`waitpid(child_pids[i], &status, 0)` and executes `return 0`; `status` is not used. -/
def handlePipes (env : PipeEnv) (command : List Char) : Int × List (List Char) :=
  handlePipesLoop env MAX_PIPED_COMMANDS ((strtok ['|'] command).map Prod.fst)
    (match strtok ['|'] command with
      | some r => r.2
      | none => [])
    0 []

/-- What an open descriptor of a pipeline child refers to. -/
inductive Stream where
  | inheritedInput
  | inheritedOutput
  | pipeRead (j : Nat)
  | pipeWrite (j : Nat)
deriving DecidableEq

/-- The effect of one system call on the descriptor table of the process that makes it:
`dup2` makes `newfd` refer to what `oldfd` refers to (and does nothing when `oldfd` is not
open), `close` releases the descriptor; the other calls leave the table of the caller as it
is. -/
def applyCall (t : Int → Option Stream) : Syscall → (Int → Option Stream)
  | Syscall.dup2 oldfd newfd =>
    match t oldfd with
    | none => t
    | some r => fun fd => if fd = newfd then some r else t fd
  | Syscall.close fd0 => fun fd => if fd = fd0 then none else t fd
  | _ => t

/-- The descriptor table after a sequence of system calls. -/
def applyCalls (t : Int → Option Stream) (calls : List Syscall) : Int → Option Stream :=
  calls.foldl applyCall t

/-- The descriptor table a child of an `N`-stage pipeline starts with: descriptors 0 and 1
are the inherited input and output, and the ends of every pipe are open. -/
def ChildStart (pipes : List (Int × Int)) (N : Nat) (t : Int → Option Stream) : Prop :=
  t 0 = some Stream.inheritedInput ∧ t 1 = some Stream.inheritedOutput ∧
  ∀ j, j + 1 < N →
    t (readEnd pipes j) = some (Stream.pipeRead j) ∧
    t (writeEnd pipes j) = some (Stream.pipeWrite j)

/-- The rows `pipes[0..m)` when the first `m` calls of `pipe` succeed. -/
def pipesOf (env : PipeEnv) (m : Nat) : List (Int × Int) :=
  (List.range m).map (fun j => (env.pipeFds j).getD (0, 0))

/-- The descriptors of the pipes of an `N`-stage pipeline are pairwise different and
different from 0 and 1. -/
structure FreshEnds (pipes : List (Int × Int)) (N : Nat) : Prop where
  rd_inj : ∀ j k, j + 1 < N → k + 1 < N → readEnd pipes j = readEnd pipes k → j = k
  wr_inj : ∀ j k, j + 1 < N → k + 1 < N → writeEnd pipes j = writeEnd pipes k → j = k
  rd_ne_wr : ∀ j k, j + 1 < N → k + 1 < N → readEnd pipes j ≠ writeEnd pipes k
  rd_ne_std : ∀ j, j + 1 < N → readEnd pipes j ≠ 0 ∧ readEnd pipes j ≠ 1
  wr_ne_std : ∀ j, j + 1 < N → writeEnd pipes j ≠ 0 ∧ writeEnd pipes j ≠ 1

/-- The call is a successful `pipe`. -/
def isPipeCall : Syscall → Bool
  | Syscall.pipe _ _ => true
  | _ => false

/-- Child `i` of an `N`-stage pipeline is wired as the pipeline asks: after the `calls`,
descriptor 0 is the read end of pipe `i - 1` (the inherited input for `i = 0`), descriptor 1
is the write end of pipe `i` (the inherited output for the last child), and every descriptor
that `pipe` stored is closed, by exactly one `close` call each. -/
def ChildWired (pipes : List (Int × Int)) (N i : Nat) (t0 : Int → Option Stream)
    (calls : List Syscall) : Prop :=
  applyCalls t0 calls 0 =
      some (if i > 0 then Stream.pipeRead (i - 1) else Stream.inheritedInput) ∧
  applyCalls t0 calls 1 =
      some (if i + 1 < N then Stream.pipeWrite i else Stream.inheritedOutput) ∧
  ∀ j, j + 1 < N →
    applyCalls t0 calls (readEnd pipes j) = none ∧
    applyCalls t0 calls (writeEnd pipes j) = none ∧
    calls.count (Syscall.close (readEnd pipes j)) = 1 ∧
    calls.count (Syscall.close (writeEnd pipes j)) = 1

/-! ## Redirection and command execution of `simpleShell.c` -/

/-- What a standard stream of the shell process refers to: the stream it had when the
function was entered, or a file opened by path. -/
inductive Target where
  | inherited
  | file (path : List Char)
deriving DecidableEq

/-- What descriptors 1 and 2 of the shell process refer to. -/
structure Streams where
  out : Target
  err : Target
deriving DecidableEq

/-- What the operating system answers during one call of `handleRedirection`: the results of
the two `dup` calls, the result of `open` for a path (`-1` when it fails), and whether the
`k`-th call of `dup2` (counted from 0) succeeds. -/
structure RedirEnv where
  stdout_backup : Int
  stderr_backup : Int
  openFd : List Char → Int
  dup2Ok : Nat → Bool

/-- The variables of `handleRedirection` that its loop updates, the streams, and the number
of `dup2` calls made so far. -/
structure RedirState where
  streams : Streams
  output_redirect : Bool
  error_redirect : Bool
  dup2Calls : Nat

/-- A call `dup2(fd, fileno(stdout))`, where `fd` refers to `source`: the result says whether
it succeeded. -/
def dup2Out (env : RedirEnv) (st : RedirState) (source : Target) : Bool × RedirState :=
  if env.dup2Ok st.dup2Calls then
    (true, { st with streams := { st.streams with out := source },
                     dup2Calls := st.dup2Calls + 1 })
  else (false, { st with dup2Calls := st.dup2Calls + 1 })

/-- A call `dup2(fd, fileno(stderr))`, where `fd` refers to `source`. -/
def dup2Err (env : RedirEnv) (st : RedirState) (source : Target) : Bool × RedirState :=
  if env.dup2Ok st.dup2Calls then
    (true, { st with streams := { st.streams with err := source },
                     dup2Calls := st.dup2Calls + 1 })
  else (false, { st with dup2Calls := st.dup2Calls + 1 })

/-- The loop of `handleRedirection`, with the current `strtok` token and the text the saved
pointer refers to. The result is `(some (-1), st)` when the loop executes `return -1` and
`(none, st)` when it runs to its end. Every pass consumes a token, so the number of passes
is at most the length of the command. -/
def redirectionLoop (env : RedirEnv) : Nat → Option (List Char) → List Char → RedirState →
    Option Int × RedirState
  | 0, _, _, st => (none, st)
  | fuel + 1, token, rest, st =>
    match token with
    | none => (none, st)
    | some t =>
      if t = ">".toList then
        match strtok [' '] rest with
        | none => redirectionLoop env fuel none [] st
        | some (path, rest1) =>
          if env.openFd path = -1 then (some (-1), { st with output_redirect := true })
          else
            if (dup2Out env (dup2Out env { st with output_redirect := true }
                (Target.file path)).2 (Target.file path)).1 then
              redirectionLoop env fuel ((strtok [' '] rest1).map Prod.fst)
                (match strtok [' '] rest1 with
                  | some r => r.2
                  | none => [])
                (dup2Out env (dup2Out env { st with output_redirect := true }
                  (Target.file path)).2 (Target.file path)).2
            else
              (some (-1), (dup2Out env (dup2Out env { st with output_redirect := true }
                (Target.file path)).2 (Target.file path)).2)
      else if t = "2>".toList then
        match strtok [' '] rest with
        | none => redirectionLoop env fuel none [] st
        | some (path, rest1) =>
          if env.openFd path = -1 then (some (-1), { st with error_redirect := true })
          else
            if (dup2Err env (dup2Err env { st with error_redirect := true }
                (Target.file path)).2 (Target.file path)).1 then
              redirectionLoop env fuel ((strtok [' '] rest1).map Prod.fst)
                (match strtok [' '] rest1 with
                  | some r => r.2
                  | none => [])
                (dup2Err env (dup2Err env { st with error_redirect := true }
                  (Target.file path)).2 (Target.file path)).2
            else
              (some (-1), (dup2Err env (dup2Err env { st with error_redirect := true }
                (Target.file path)).2 (Target.file path)).2)
      else
        redirectionLoop env fuel ((strtok [' '] rest).map Prod.fst)
          (match strtok [' '] rest with
            | some r => r.2
            | none => [])
          st

/-- What a call of `handleRedirection` leaves behind: the returned `int` and what the two
standard streams refer to. -/
structure RedirRun where
  ret : Int
  streams : Streams

/-- The function `handleRedirection` of `simpleShell.c`, entered with the streams `streams`.
`strdup` is taken to succeed. A successful `dup2` onto a standard stream from an opened file
makes the stream refer to that file; from a backup descriptor it makes the stream refer to
the inherited stream again. -/
def handleRedirection (env : RedirEnv) (streams : Streams) (command : List Char) : RedirRun :=
  if env.stdout_backup = -1 ∨ env.stderr_backup = -1 then { ret := -1, streams := streams }
  else
    match redirectionLoop env (command.length + 1) ((strtok [' '] command).map Prod.fst)
        (match strtok [' '] command with
          | some r => r.2
          | none => [])
        { streams := streams, output_redirect := false, error_redirect := false,
          dup2Calls := 0 } with
    | (some r, st) => { ret := r, streams := st.streams }
    | (none, st) =>
      if st.output_redirect || st.error_redirect then
        -- the two unchecked restoring calls
        if (dup2Out env (dup2Err env (dup2Out env st Target.inherited).2 Target.inherited).2
            Target.inherited).1 then
          if (dup2Err env (dup2Out env (dup2Err env (dup2Out env st Target.inherited).2
              Target.inherited).2 Target.inherited).2 Target.inherited).1 then
            { ret := Int.lor env.stdout_backup (env.stderr_backup * 65536),
              streams := (dup2Err env (dup2Out env (dup2Err env (dup2Out env st
                Target.inherited).2 Target.inherited).2 Target.inherited).2
                Target.inherited).2.streams }
          else
            { ret := -1,
              streams := (dup2Err env (dup2Out env (dup2Err env (dup2Out env st
                Target.inherited).2 Target.inherited).2 Target.inherited).2
                Target.inherited).2.streams }
        else
          { ret := -1,
            streams := (dup2Out env (dup2Err env (dup2Out env st Target.inherited).2
              Target.inherited).2 Target.inherited).2.streams }
      else { ret := 0, streams := st.streams }

/-- What the operating system answers during one call of `executeCommand`, and the address
of the string literal `"&"` that the program compares a character with. -/
structure ExecEnv where
  ampLiteral : Int
  forkOk : Nat → Bool
  exitStatus : Nat → Int
  glob : List Char → Option (List (List Char))
  redir : RedirEnv

/-- What `executeCommand` does to processes: it creates a child that runs `sh -c command`,
it waits for the `k`-th child it created, or a `fork` fails. -/
inductive ExecEvent where
  | spawn (command : List Char)
  | wait (child : Nat)
  | forkFailed
deriving DecidableEq

/-- The function `expandWildcards`: the array it returns (`none` for NULL) and the value it
stores in `*numExpanded`. `env.glob pattern` is the path list of a `glob` call that returns
0, and `none` when it returns something else. `strdup` and `malloc` are taken to succeed. -/
def expandWildcards (env : ExecEnv) (command : List Char) : Option (List (List Char)) × Nat :=
  if ' ' ∈ command then
    if (((command.dropWhile (fun c => !(c == ' '))).drop 1).any
        (fun c => c == '*' || c == '?')) then
      match env.glob ((command.dropWhile (fun c => !(c == ' '))).drop 1) with
      | some paths =>
        (some (paths.map (fun path => command.takeWhile (fun c => !(c == ' ')) ++ [' '] ++ path)),
          paths.length)
      | none => (none, 0)
    else (none, 0)
  else (none, 0)

/-- The loop of `executeCommand` over the expanded commands still to run, with the number of
`fork` calls made, the current `exitCode` and the events so far. -/
def expandedLoop (env : ExecEnv) : List (List Char) → Nat → Int → List ExecEvent →
    Int × List ExecEvent
  | [], _, exitCode, events => (exitCode, events)
  | c :: cs, k, _, events =>
    if env.forkOk k then
      expandedLoop env cs (k + 1) (env.exitStatus k)
        (events ++ [ExecEvent.spawn c, ExecEvent.wait k])
    else (-1, events ++ [ExecEvent.forkFailed])

/-- What a call of `executeCommand` amounts to: the returned `int`, the process events, and
what the standard streams refer to afterwards. -/
structure ExecRun where
  ret : Int
  events : List ExecEvent
  streams : Streams

/-- The test `modifiedCommand[strlen(modifiedCommand) - 1] == "&"` of `executeCommand`: the
last character, converted to `int`, is compared with the address of the string literal
`"&"`. For the empty command the character read lies in front of the string; the test is
taken to fail then. -/
def backgroundTest (env : ExecEnv) (command : List Char) : Bool :=
  match command.getLast? with
  | some c => decide ((c.toNat : Int) = env.ampLiteral)
  | none => false

/-- The function `executeCommand` of `simpleShell.c`. In the background branch the last
character is removed and the child is not waited for. -/
def executeCommand (env : ExecEnv) (streams : Streams) (command : List Char) : ExecRun :=
  if backgroundTest env command then
    if env.forkOk 0 then
      { ret := 0, events := [ExecEvent.spawn command.dropLast], streams := streams }
    else { ret := -1, events := [ExecEvent.forkFailed], streams := streams }
  else
    match (expandWildcards env command).1 with
    | some expanded =>
      { ret := (expandedLoop env (expanded.take (expandWildcards env command).2) 0 0 []).1,
        events := (expandedLoop env (expanded.take (expandWildcards env command).2) 0 0 []).2,
        streams := (handleRedirection env.redir streams command).streams }
    | none =>
      if env.forkOk 0 then
        { ret := env.exitStatus 0,
          events := [ExecEvent.spawn command, ExecEvent.wait 0],
          streams := (handleRedirection env.redir streams command).streams }
      else
        { ret := -1, events := [ExecEvent.forkFailed],
          streams := (handleRedirection env.redir streams command).streams }

/-- A token sequence of `n` one-word commands, each followed by `;`:
`a ; a ; ... a ;` with `2 * n` tokens. -/
def manyCommands (n : Nat) : List String :=
  (List.range (2 * n)).map (fun j => if j % 2 = 0 then "a" else seqSep)

/-! ## Reading tokens -/

theorem tokenAt_natCast (token : List String) (i : Nat) : tokenAt token (i : Int) = token[i]? := by
  simp [tokenAt]

theorem separator_iff (t : String) : separator t = true ↔ t = "|" ∨ t = "&" ∨ t = ";" := by
  simp only [separator, pipeSep, conSep, seqSep, List.any_cons, List.any_nil, Bool.or_false,
    Bool.or_eq_true, beq_iff_eq]
  constructor <;> rintro (h | h | h) <;> simp [h]

theorem separatorAt_iff (token : List String) (i : Nat) :
    separatorAt token i = true ↔ ∃ t, token[i]? = some t ∧ separator t = true := by
  unfold separatorAt
  rw [tokenAt_natCast]
  cases h : token[i]? <;> simp

theorem separatorAt_lt (token : List String) (i : Nat) (h : separatorAt token i = true) :
    i < token.length := by
  obtain ⟨t, ht, -⟩ := (separatorAt_iff token i).1 h
  by_contra hlt
  rw [List.getElem?_eq_none (by omega)] at ht
  cases ht

/-! ## The first loop of `separateCommands` -/

theorem scanLoop_code (token : List String) (nTokens : Nat) :
    ∀ (fuel i : Nat) (s : ScanState), nTokens ≤ i + fuel → s.first ≤ i →
      (s.first = i ↔ (i = 0 ∨ separatorAt token ((i - 1 : Nat) : Int) = true)) →
      (((scanLoop token nTokens fuel i s).1 = some (-2) ↔
          ∃ j, i ≤ j ∧ j < nTokens ∧ doubledAt token j) ∧
        ((scanLoop token nTokens fuel i s).1 = none ∨
          (scanLoop token nTokens fuel i s).1 = some (-2))) := by
  intro fuel
  induction fuel with
  | zero =>
    intro i s hf _ _
    have hno : ¬ ∃ j, i ≤ j ∧ j < nTokens ∧ doubledAt token j := by
      rintro ⟨j, h1, h2, -⟩
      omega
    simp [scanLoop, hno]
  | succ fuel ih =>
    intro i s hf hle hiff
    simp only [scanLoop]
    by_cases hi : i < nTokens
    · rw [if_pos hi]
      by_cases hs : separatorAt token (i : Int) = true
      · rw [if_pos hs]
        by_cases hfi : s.first = i
        · rw [if_pos hfi]
          exact ⟨⟨fun _ => ⟨i, le_refl _, hi, hs, hiff.1 hfi⟩, fun _ => rfl⟩, Or.inr rfl⟩
        · rw [if_neg hfi]
          have h := ih (i + 1)
            { first := i + 1, last := i, c := s.c + 1,
              command := setCommand s.command s.c
                (fillCommandStructure (s.command s.c) s.first i (tokenAt token i)) }
            (by omega) (le_refl _) (by simp [hs])
          refine ⟨h.1.trans ⟨?_, ?_⟩, h.2⟩
          · rintro ⟨j, h1, h2, h3⟩
            exact ⟨j, by omega, h2, h3⟩
          · rintro ⟨j, h1, h2, h3⟩
            refine ⟨j, ?_, h2, h3⟩
            rcases Nat.lt_or_ge i j with h4 | h4
            · omega
            · have : j = i := by omega
              subst this
              exact absurd (hiff.2 h3.2) hfi
      · rw [if_neg hs]
        have h := ih (i + 1) { s with last := i } (by omega) (by simp; omega)
          (by simp [hs]; omega)
        refine ⟨h.1.trans ⟨?_, ?_⟩, h.2⟩
        · rintro ⟨j, h1, h2, h3⟩
          exact ⟨j, by omega, h2, h3⟩
        · rintro ⟨j, h1, h2, h3⟩
          refine ⟨j, ?_, h2, h3⟩
          rcases Nat.lt_or_ge i j with h4 | h4
          · omega
          · have : j = i := by omega
            subst this
            exact absurd h3.1 hs
    · have hno : ¬ ∃ j, i ≤ j ∧ j < nTokens ∧ doubledAt token j := by
        rintro ⟨j, h1, h2, -⟩
        omega
      simp [hi, hno]

theorem sepsBelow_succ (token : List String) (i : Nat) :
    sepsBelow token (i + 1) =
      if separatorAt token i = true then sepsBelow token i ++ [i] else sepsBelow token i := by
  unfold sepsBelow
  rw [List.range_succ, List.filter_append]
  by_cases h : separatorAt token (i : Int) = true
  · simp [h]
  · simp [h]

theorem mem_sepsBelow (token : List String) (i j : Nat) :
    j ∈ sepsBelow token i ↔ j < i ∧ separatorAt token j = true := by
  simp [sepsBelow]

theorem stageStart_append (ops : List Nat) (a k : Nat) (hk : k ≤ ops.length) :
    stageStart (ops ++ [a]) k = stageStart ops k := by
  unfold stageStart
  by_cases h0 : k = 0
  · simp [h0]
  · rw [if_neg h0, if_neg h0, List.getD_append _ _ _ _ (by omega)]

theorem stageStart_length (ops : List Nat) (a : Nat) :
    stageStart (ops ++ [a]) (ops.length + 1) = a + 1 := by
  unfold stageStart
  rw [if_neg (by omega), List.getD_append_right _ _ _ _ (by simp)]
  simp

theorem scanInv_start (token : List String) (command0 : Nat → Command) :
    ScanInv token command0 0 { first := 0, last := 0, c := 0, command := command0 } where
  hc := by simp [sepsBelow]
  hfirst := by simp [stageStart]
  hle := le_refl _
  hlast := Or.inl rfl
  hstage := by intro k hk; simp at hk
  hrest := by intro k _; rfl
  hfiles := by intro k; exact ⟨rfl, rfl⟩

theorem scanInv_skip (token : List String) (command0 : Nat → Command) (i : Nat)
    (s : ScanState) (h : ScanInv token command0 i s) (hs : ¬ separatorAt token i = true) :
    ScanInv token command0 (i + 1) { s with last := i } := by
  have hb : sepsBelow token (i + 1) = sepsBelow token i := by
    rw [sepsBelow_succ, if_neg hs]
  constructor
  · rw [hb]; exact h.hc
  · rw [hb]; exact h.hfirst
  · exact Nat.le_succ_of_le h.hle
  · exact Or.inr rfl
  · rw [hb]; exact h.hstage
  · exact h.hrest
  · exact h.hfiles

theorem scanInv_close (token : List String) (command0 : Nat → Command) (i : Nat)
    (s : ScanState) (h : ScanInv token command0 i s) (hs : separatorAt token i = true)
    (hne : s.first ≠ i) :
    ScanInv token command0 (i + 1)
      { first := i + 1, last := i, c := s.c + 1,
        command := setCommand s.command s.c
          (fillCommandStructure (s.command s.c) s.first i (tokenAt token i)) } := by
  have hb : sepsBelow token (i + 1) = sepsBelow token i ++ [i] := by
    rw [sepsBelow_succ, if_pos hs]
  have hc := h.hc
  constructor
  · simp [hb, hc]
  · show i + 1 = stageStart (sepsBelow token (i + 1)) (s.c + 1)
    rw [hb, hc, stageStart_length]
  · exact le_refl _
  · exact Or.inr rfl
  · intro k hk
    show ((setCommand s.command s.c _) k).first = _ ∧ ((setCommand s.command s.c _) k).last = _
      ∧ ((setCommand s.command s.c _) k).sep = _ ∧ _
    rw [hb]
    by_cases hkc : k = s.c
    · subst hkc
      have hg : (sepsBelow token i ++ [i]).getD s.c 0 = i := by
        rw [List.getD_append_right _ _ _ _ (by omega), hc]
        simp
      rw [hg, stageStart_append _ _ _ (by omega), ← h.hfirst]
      have := h.hle
      refine ⟨?_, ?_, ?_, by omega⟩ <;> simp [setCommand, fillCommandStructure]
    · have hlt : k < s.c := by
        have : k < s.c + 1 := hk
        omega
      have hg : (sepsBelow token i ++ [i]).getD k 0 = (sepsBelow token i).getD k 0 :=
        List.getD_append _ _ _ _ (by omega)
      rw [hg, stageStart_append _ _ _ (by omega)]
      have := h.hstage k hlt
      simpa [setCommand, hkc] using this
  · intro k hk
    have hk1 : s.c + 1 ≤ k := hk
    have : k ≠ s.c := by omega
    simp only [setCommand, if_neg this]
    exact h.hrest k (by omega)
  · intro k
    show ((setCommand s.command s.c _) k).stdin_file = _ ∧
      ((setCommand s.command s.c _) k).stdout_file = _
    by_cases hkc : k = s.c
    · subst hkc
      simpa [setCommand, fillCommandStructure] using h.hfiles s.c
    · simpa [setCommand, hkc] using h.hfiles k

theorem scanLoop_inv (token : List String) (nTokens : Nat) (command0 : Nat → Command) :
    ∀ (fuel i : Nat) (s : ScanState), nTokens ≤ i + fuel → i ≤ nTokens →
      ScanInv token command0 i s → (scanLoop token nTokens fuel i s).1 = none →
      ScanInv token command0 nTokens (scanLoop token nTokens fuel i s).2 := by
  intro fuel
  induction fuel with
  | zero =>
    intro i s hf hi hinv _
    have : i = nTokens := by omega
    subst this
    simpa [scanLoop] using hinv
  | succ fuel ih =>
    intro i s hf hi hinv
    simp only [scanLoop]
    by_cases hlt : i < nTokens
    · rw [if_pos hlt]
      by_cases hs : separatorAt token (i : Int) = true
      · rw [if_pos hs]
        by_cases hfi : s.first = i
        · rw [if_pos hfi]
          intro h
          cases h
        · rw [if_neg hfi]
          exact ih (i + 1) _ (by omega) (by omega) (scanInv_close token command0 i s hinv hs hfi)
      · rw [if_neg hs]
        exact ih (i + 1) _ (by omega) (by omega) (scanInv_skip token command0 i s hinv hs)
    · rw [if_neg hlt]
      intro _
      have : i = nTokens := by omega
      subst this
      exact hinv

/-! ## The second loop of `separateCommands` -/

theorem resolveLoop_apply (token : List String) (nCommands : Nat) :
    ∀ (fuel i : Nat) (command : Nat → Command) (k : Nat), nCommands ≤ i + fuel →
      resolveLoop token nCommands fuel i command k =
        if i ≤ k ∧ k < nCommands then
          buildCommandArgumentArray token (searchRedirection token (command k))
        else command k := by
  intro fuel
  induction fuel with
  | zero =>
    intro i command k hf
    have : ¬ (i ≤ k ∧ k < nCommands) := by omega
    simp [resolveLoop, this]
  | succ fuel ih =>
    intro i command k hf
    simp only [resolveLoop]
    by_cases hi : i < nCommands
    · rw [if_pos hi, ih (i + 1) _ k (by omega)]
      by_cases hk : k = i
      · subst hk
        have h1 : ¬ (k + 1 ≤ k ∧ k < nCommands) := by omega
        have h2 : k ≤ k ∧ k < nCommands := ⟨le_refl _, hi⟩
        simp [h1, h2, setCommand]
      · by_cases h3 : i + 1 ≤ k ∧ k < nCommands
        · have h4 : i ≤ k ∧ k < nCommands := ⟨by omega, h3.2⟩
          simp [h3, h4, setCommand, hk]
        · have h4 : ¬ (i ≤ k ∧ k < nCommands) := by omega
          simp [h3, h4, setCommand, hk]
    · have : ¬ (i ≤ k ∧ k < nCommands) := by omega
      simp [hi, this]

/-! ## The stored terminator -/

theorem withTerminator_length_pos (token : List String) (hne : token ≠ []) :
    0 < (withTerminator token).length := by
  have := List.length_pos.2 hne
  unfold withTerminator
  split
  · exact this
  · simp

theorem separatorAt_append (token : List String) (x : String) (j : Nat) (hj : j < token.length) :
    separatorAt (token ++ [x]) j = separatorAt token j := by
  unfold separatorAt
  rw [tokenAt_natCast, tokenAt_natCast, List.getElem?_append_left hj]

theorem separatorAt_withTerminator (token : List String) (j : Nat) (hj : j < token.length) :
    separatorAt (withTerminator token) j = separatorAt token j := by
  unfold withTerminator
  split
  · rfl
  · exact separatorAt_append token _ j hj

theorem separatorAt_withTerminator_last (token : List String) :
    separatorAt (withTerminator token) (((withTerminator token).length - 1 : Nat) : Int) = true := by
  unfold withTerminator
  split
  · assumption
  · unfold separatorAt
    rw [tokenAt_natCast]
    simp [seqSep, separator]

theorem adjacentSeparators_withTerminator (token : List String) :
    adjacentSeparators (withTerminator token) ↔ adjacentSeparators token := by
  unfold withTerminator
  split
  · rfl
  · rename_i hlast
    constructor
    · rintro ⟨j, hj, h1, h2⟩
      rw [List.length_append, List.length_singleton] at hj
      have hj1 : j < token.length := by omega
      rw [separatorAt_append token _ j hj1] at h1
      by_cases hj2 : j + 1 < token.length
      · rw [separatorAt_append token _ (j + 1) hj2] at h2
        exact ⟨j, hj2, h1, h2⟩
      · have : j = token.length - 1 := by omega
        subst this
        exact absurd h1 hlast
    · rintro ⟨j, hj, h1, h2⟩
      refine ⟨j, by simp; omega, ?_, ?_⟩
      · rw [separatorAt_append token _ j (by omega)]; exact h1
      · rw [separatorAt_append token _ (j + 1) hj]; exact h2

theorem doubled_iff_adjacent (token : List String) (h0 : separatorAt token 0 = false) :
    (∃ j, 0 ≤ j ∧ j < token.length ∧ doubledAt token j) ↔ adjacentSeparators token := by
  constructor
  · rintro ⟨j, -, hj, h1, h2⟩
    rcases h2 with h2 | h2
    · subst h2
      simp [h0] at h1
    · rcases j with _ | j
      · simp [h0] at h1
      · exact ⟨j, hj, by simpa using h2, h1⟩
  · rintro ⟨j, hj, h1, h2⟩
    exact ⟨j + 1, Nat.zero_le _, hj, h2, Or.inr (by simpa using h1)⟩

theorem getLast?_withTerminator (token : List String) :
    (withTerminator token).getLast? = some pipeSep ↔ token.getLast? = some pipeSep := by
  unfold withTerminator
  split
  · rfl
  · rename_i hlast
    rw [List.getLast?_concat]
    constructor
    · intro h
      simp [seqSep, pipeSep] at h
    · intro h
      exfalso
      apply hlast
      rw [separatorAt_iff]
      exact ⟨pipeSep, by rw [← List.getLast?_eq_getElem?]; exact h, by simp [separator]⟩

/-! ## The result of `separateCommands` by cases -/

theorem separateCommands_nil (command : Nat → Command) :
    separateCommands [] command = { code := 0, token := [], command := command } := by
  simp [separateCommands]

theorem separateCommands_leading (token : List String) (command : Nat → Command)
    (hne : token ≠ []) (h0 : separatorAt token 0 = true) :
    separateCommands token command = { code := -3, token := token, command := command } := by
  have : token.length ≠ 0 := by
    intro h
    exact hne (List.length_eq_zero.1 h)
  simp [separateCommands, this, h0]

theorem separateCommands_scan (token : List String) (command : Nat → Command)
    (hne : token ≠ []) (h0 : separatorAt token 0 = false) :
    separateCommands token command =
      match scanLoop (withTerminator token) (withTerminator token).length
          (withTerminator token).length 0
          { first := 0, last := 0, c := 0, command := command } with
      | (some r, s) => { code := r, token := withTerminator token, command := s.command }
      | (none, s) =>
        if tokenAt (withTerminator token) s.last = some pipeSep then
          { code := -4, token := withTerminator token, command := s.command }
        else
          { code := s.c, token := withTerminator token,
            command := resolveLoop (withTerminator token) s.c s.c 0 s.command } := by
  have hlen : token.length ≠ 0 := by
    intro h
    exact hne (List.length_eq_zero.1 h)
  unfold separateCommands withTerminator
  simp only [hlen, if_false, h0, Bool.false_eq_true]
  by_cases hl : separatorAt token ((token.length - 1 : Nat) : Int) = true
  · simp only [hl, if_true]
  · simp only [hl, if_false, List.length_append, List.length_singleton, Bool.false_eq_true]

/-- The three ways a call can end once the sequence is non-empty and does not start with a
control operator. -/
theorem separateCommands_cases (token : List String) (command : Nat → Command)
    (hne : token ≠ []) (h0 : separatorAt token 0 = false) :
    (adjacentSeparators token ∧ (separateCommands token command).code = -2) ∨
    (¬ adjacentSeparators token ∧ token.getLast? = some pipeSep ∧
      (separateCommands token command).code = -4) ∨
    (¬ adjacentSeparators token ∧ token.getLast? ≠ some pipeSep ∧
      ∃ s : ScanState,
        ScanInv (withTerminator token) command (withTerminator token).length s ∧
        (separateCommands token command).code = s.c ∧
        (separateCommands token command).token = withTerminator token ∧
        (separateCommands token command).command =
          resolveLoop (withTerminator token) s.c s.c 0 s.command) := by
  have hpos := withTerminator_length_pos token hne
  have h01 : separatorAt (withTerminator token) 0 = false := by
    have := separatorAt_withTerminator token 0 (List.length_pos.2 hne)
    simpa [h0] using this
  have hcode := scanLoop_code (withTerminator token) (withTerminator token).length
    (withTerminator token).length 0 { first := 0, last := 0, c := 0, command := command }
    (by omega) (le_refl _) (by simp)
  have hinv := scanLoop_inv (withTerminator token) (withTerminator token).length command
    (withTerminator token).length 0 { first := 0, last := 0, c := 0, command := command }
    (by omega) (by omega) (scanInv_start _ _)
  rw [doubled_iff_adjacent _ h01, adjacentSeparators_withTerminator] at hcode
  rw [separateCommands_scan token command hne h0]
  generalize scanLoop (withTerminator token) (withTerminator token).length
    (withTerminator token).length 0 { first := 0, last := 0, c := 0, command := command } = sc
    at hcode hinv
  obtain ⟨r, s⟩ := sc
  rcases hcode.2 with hr | hr
  · have hr1 : r = none := hr
    subst hr1
    have hadj : ¬ adjacentSeparators token := by
      intro h
      have := hcode.1.2 h
      cases this
    have hs := hinv rfl
    have hlast : (s.last : Int) = (((withTerminator token).length - 1 : Nat) : Int) := by
      have hl : (withTerminator token).length = 0 ∨ s.last + 1 = (withTerminator token).length :=
        hs.hlast
      have : s.last = (withTerminator token).length - 1 := by omega
      rw [this]
    right
    simp only
    rw [hlast, tokenAt_natCast, ← List.getLast?_eq_getElem?]
    by_cases hp : token.getLast? = some pipeSep
    · left
      rw [if_pos ((getLast?_withTerminator token).2 hp)]
      exact ⟨hadj, hp, rfl⟩
    · right
      rw [if_neg (fun h => hp ((getLast?_withTerminator token).1 h))]
      exact ⟨hadj, hp, s, hs, rfl, rfl, rfl⟩
  · have hr1 : r = some (-2) := hr
    subst hr1
    left
    exact ⟨hcode.1.1 rfl, rfl⟩

/-! ## What the redirection pass keeps -/

theorem searchRedirectionLoop_frame (token : List String) :
    ∀ (fuel : Nat) (i : Int) (cp : Command),
      (searchRedirectionLoop token fuel i cp).first = cp.first ∧
      (searchRedirectionLoop token fuel i cp).last = cp.last ∧
      (searchRedirectionLoop token fuel i cp).sep = cp.sep ∧
      (searchRedirectionLoop token fuel i cp).argv = cp.argv := by
  intro fuel
  induction fuel with
  | zero => intro i cp; simp [searchRedirectionLoop]
  | succ fuel ih =>
    intro i cp
    simp only [searchRedirectionLoop]
    split_ifs
    · exact ih _ _
    · exact ih _ _
    · exact ih _ _
    · exact ⟨rfl, rfl, rfl, rfl⟩

theorem resolved_frame (token : List String) (cp : Command) :
    (buildCommandArgumentArray token (searchRedirection token cp)).first = cp.first ∧
    (buildCommandArgumentArray token (searchRedirection token cp)).last = cp.last ∧
    (buildCommandArgumentArray token (searchRedirection token cp)).sep = cp.sep := by
  have h := searchRedirectionLoop_frame token (cp.last - cp.first + 1).toNat cp.first cp
  exact ⟨h.1, h.2.1, h.2.2.1⟩

/-! ## The operator positions -/

theorem sepIndices_pairwise (token : List String) :
    (sepIndices token).Pairwise (fun a b => a < b) :=
  (List.pairwise_lt_range token.length).filter _

theorem mem_sepIndices (token : List String) (j : Nat) :
    j ∈ sepIndices token ↔ separatorAt token j = true := by
  unfold sepIndices
  rw [mem_sepsBelow]
  exact ⟨fun h => h.2, fun h => ⟨separatorAt_lt token j h, h⟩⟩

theorem sepIndices_getD_mem (token : List String) (k : Nat)
    (hk : k < (sepIndices token).length) : (sepIndices token).getD k 0 ∈ sepIndices token := by
  rw [List.getD_eq_getElem _ _ hk]
  exact List.getElem_mem hk

theorem sepIndices_strictMono (token : List String) (a b : Nat) (hab : a < b)
    (hb : b < (sepIndices token).length) :
    (sepIndices token).getD a 0 < (sepIndices token).getD b 0 := by
  rw [List.getD_eq_getElem _ _ hb, List.getD_eq_getElem _ _ (by omega)]
  exact List.pairwise_iff_getElem.1 (sepIndices_pairwise token) a b (by omega) hb hab

theorem sepIndices_mono (token : List String) (a b : Nat) (hab : a ≤ b)
    (hb : b < (sepIndices token).length) :
    (sepIndices token).getD a 0 ≤ (sepIndices token).getD b 0 := by
  rcases Nat.eq_or_lt_of_le hab with h | h
  · rw [h]
  · exact Nat.le_of_lt (sepIndices_strictMono token a b h hb)

theorem sepIndices_index_of_separator (token : List String) (j : Nat)
    (h : separatorAt token j = true) :
    ∃ m, m < (sepIndices token).length ∧ (sepIndices token).getD m 0 = j := by
  obtain ⟨m, hm, hj⟩ := List.getElem_of_mem ((mem_sepIndices token j).2 h)
  exact ⟨m, hm, by rw [List.getD_eq_getElem _ _ hm]; exact hj⟩

/-- Every index of a sequence that ends in a control operator is either an operator, lying
in no stage range, or a non-operator lying in exactly one stage range. Stage `k` ranges from
`stageStart ops k` to just before operator `k`. -/
theorem sepIndices_cover (token : List String)
    (hlast : separatorAt token ((token.length - 1 : Nat) : Int) = true) (j : Nat)
    (hj : j < token.length) :
    (separatorAt token j = true ∧ ∀ k, k < (sepIndices token).length →
        ¬ (stageStart (sepIndices token) k ≤ j ∧ j < (sepIndices token).getD k 0)) ∨
    (separatorAt token j = false ∧ ∃! k, k < (sepIndices token).length ∧
        stageStart (sepIndices token) k ≤ j ∧ j < (sepIndices token).getD k 0) := by
  by_cases hs : separatorAt token (j : Int) = true
  · left
    refine ⟨hs, ?_⟩
    obtain ⟨m, hm, hmj⟩ := sepIndices_index_of_separator token j hs
    rintro k hk ⟨h1, h2⟩
    rcases Nat.lt_or_ge m k with hmk | hmk
    · have h3 := sepIndices_mono token m (k - 1) (by omega) (by omega)
      unfold stageStart at h1
      rw [if_neg (by omega)] at h1
      omega
    · have h3 := sepIndices_mono token k m hmk hm
      omega
  · right
    have hsf : separatorAt token (j : Int) = false := by simpa using hs
    refine ⟨hsf, ?_⟩
    have hex : ∃ k, k < (sepIndices token).length ∧ j < (sepIndices token).getD k 0 := by
      obtain ⟨m, hm, hmj⟩ := sepIndices_index_of_separator token _ hlast
      refine ⟨m, hm, ?_⟩
      have hne : j ≠ token.length - 1 := by
        intro h
        rw [h] at hs
        exact hs hlast
      omega
    have hfind := Nat.find_spec hex
    have hmin := fun k (hk : k < Nat.find hex) => Nat.find_min hex hk
    generalize Nat.find hex = k0 at hfind hmin
    have hstart : stageStart (sepIndices token) k0 ≤ j := by
      unfold stageStart
      by_cases hk0 : k0 = 0
      · simp [hk0]
      · rw [if_neg hk0]
        have h1 := hmin (k0 - 1) (by omega)
        have h2 : (sepIndices token).getD (k0 - 1) 0 ≤ j := by
          by_contra h
          exact h1 ⟨by omega, by omega⟩
        have h3 := (mem_sepIndices token _).1 (sepIndices_getD_mem token (k0 - 1) (by omega))
        have h4 : (sepIndices token).getD (k0 - 1) 0 ≠ j := by
          intro h
          rw [h] at h3
          exact hs h3
        omega
    refine ⟨k0, ⟨hfind.1, hstart, hfind.2⟩, ?_⟩
    rintro k ⟨hk, h1, h2⟩
    by_contra hne
    rcases Nat.lt_or_ge k k0 with hlt | hge
    · exact hmin k hlt ⟨hk, h2⟩
    · have hgt : k0 < k := by omega
      have h3 := sepIndices_mono token k0 (k - 1) (by omega) (by omega)
      unfold stageStart at h1
      rw [if_neg (by omega)] at h1
      omega

/-! ## Successful calls -/

/-- A call that returns a positive count has run both loops: the first one ends in a state
`s` described by `ScanInv`, the second one resolves the stages `0..s.c`. -/
theorem separateCommands_success (token : List String) (command : Nat → Command)
    (hpos : 0 < (separateCommands token command).code) :
    token ≠ [] ∧ ∃ s : ScanState,
      ScanInv (withTerminator token) command (withTerminator token).length s ∧
      (separateCommands token command).code = s.c ∧
      (separateCommands token command).token = withTerminator token ∧
      ∀ k, (separateCommands token command).command k =
        if k < s.c then
          buildCommandArgumentArray (withTerminator token)
            (searchRedirection (withTerminator token) (s.command k))
        else command k := by
  by_cases hne : token = []
  · subst hne
    rw [separateCommands_nil] at hpos
    simp at hpos
  by_cases h0 : separatorAt token 0 = true
  · rw [separateCommands_leading token command hne h0] at hpos
    simp at hpos
  have h0f : separatorAt token 0 = false := by simpa using h0
  rcases separateCommands_cases token command hne h0f with h | h | h
  · rw [h.2] at hpos
    simp at hpos
  · rw [h.2.2] at hpos
    simp at hpos
  · obtain ⟨-, -, s, hs, hcode, htok, hcmd⟩ := h
    refine ⟨hne, s, hs, hcode, htok, ?_⟩
    intro k
    rw [hcmd, resolveLoop_apply _ _ _ _ _ _ (by omega)]
    by_cases hk : k < s.c
    · simp [hk]
    · simp only [hk, and_false, if_false]
      exact hs.hrest k (by omega)

/-! ## Result codes of `separateCommands` -/

/-- C1: a token sequence whose first token is a control operator makes `separateCommands`
return `-3`, whatever the remaining tokens and the command array are. -/
theorem separateCommands_leadingSeparator (t : String) (rest : List String)
    (command : Nat → Command) (h : separator t = true) :
    (separateCommands (t :: rest) command).code = -3 := by
  rw [separateCommands_leading (t :: rest) command (List.cons_ne_nil _ _)]
  exact (separatorAt_iff (t :: rest) 0).2 ⟨t, List.getElem?_cons_zero, h⟩

theorem separateCommands_leadingSeparator_witness :
    separator "&" = true ∧
      (separateCommands ("&" :: ["ls", "|", "|"]) (fun _ => initialiseCommand)).code = -3 :=
  ⟨by decide, separateCommands_leadingSeparator "&" ["ls", "|", "|"] _ (by decide)⟩

/-- C2, as stated, fails: `; ; a` has two adjacent control operators, yet the call returns
`-3` and not `-2`, because the test of the first token comes first. -/
theorem separateCommands_doubled_counterexample :
    adjacentSeparators [";", ";", "a"] ∧
      (separateCommands [";", ";", "a"] (fun _ => initialiseCommand)).code = -3 ∧
      (separateCommands [";", ";", "a"] (fun _ => initialiseCommand)).code ≠ -2 := by
  decide

/-- C2, amended: a token sequence whose first token is not a control operator and that
contains two adjacent control operators makes `separateCommands` return `-2`. -/
theorem separateCommands_doubledSeparator (token : List String) (command : Nat → Command)
    (h0 : separatorAt token 0 = false) (hadj : adjacentSeparators token) :
    (separateCommands token command).code = -2 := by
  have hne : token ≠ [] := by
    rintro rfl
    obtain ⟨j, hj, -⟩ := hadj
    simp at hj
  rcases separateCommands_cases token command hne h0 with h | h | h
  · exact h.2
  · exact absurd hadj h.1
  · exact absurd hadj h.1

theorem separateCommands_doubledSeparator_witness :
    separatorAt ["a", "|", ";", "b"] 0 = false ∧ adjacentSeparators ["a", "|", ";", "b"] ∧
      (separateCommands ["a", "|", ";", "b"] (fun _ => initialiseCommand)).code = -2 :=
  ⟨by decide, by decide,
    separateCommands_doubledSeparator ["a", "|", ";", "b"] _ (by decide) (by decide)⟩

/-- C3: a token sequence whose first token is not a control operator, that has no two
adjacent control operators and whose last token is `|` makes `separateCommands` return `-4`. -/
theorem separateCommands_danglingPipe (token : List String) (command : Nat → Command)
    (h0 : separatorAt token 0 = false) (hadj : ¬ adjacentSeparators token)
    (hlast : token.getLast? = some "|") :
    (separateCommands token command).code = -4 := by
  have hne : token ≠ [] := by
    rintro rfl
    simp at hlast
  rcases separateCommands_cases token command hne h0 with h | h | h
  · exact absurd h.1 hadj
  · exact h.2.2
  · exact absurd hlast h.2.1

theorem separateCommands_danglingPipe_witness :
    separatorAt ["a", "|", "b", "|"] 0 = false ∧ ¬ adjacentSeparators ["a", "|", "b", "|"] ∧
      ["a", "|", "b", "|"].getLast? = some "|" ∧
      (separateCommands ["a", "|", "b", "|"] (fun _ => initialiseCommand)).code = -4 :=
  ⟨by decide, by decide, by decide,
    separateCommands_danglingPipe ["a", "|", "b", "|"] _ (by decide) (by decide) (by decide)⟩

/-- C4: for a sequence ending in a token that is not a control operator, the call on the
sequence and the call on the sequence followed by an explicit `;` return the same code and
leave the same command array, hence the same stages (ranges, operators, argument lists,
redirection paths). -/
theorem separateCommands_implicitTerminator (front : List String) (t : String)
    (command : Nat → Command) (ht : separator t = false) :
    (separateCommands (front ++ [t]) command).code =
        (separateCommands (front ++ [t] ++ [";"]) command).code ∧
      (separateCommands (front ++ [t]) command).command =
        (separateCommands (front ++ [t] ++ [";"]) command).command ∧
      stages (separateCommands (front ++ [t]) command) =
        stages (separateCommands (front ++ [t] ++ [";"]) command) := by
  have hne : front ++ [t] ≠ [] := by simp
  have hne2 : front ++ [t] ++ [";"] ≠ [] := by simp
  have hpos : 0 < (front ++ [t]).length := List.length_pos.2 hne
  have hl1 : separatorAt (front ++ [t]) (((front ++ [t]).length - 1 : Nat) : Int) = false := by
    unfold separatorAt
    rw [tokenAt_natCast]
    simp [ht]
  have hl2 : separatorAt (front ++ [t] ++ [";"])
      (((front ++ [t] ++ [";"]).length - 1 : Nat) : Int) = true := by
    have hlen : (front ++ [t] ++ [";"]).length - 1 = (front ++ [t]).length := by simp
    rw [hlen, separatorAt_iff]
    exact ⟨";", List.getElem?_concat_length _ _, by decide⟩
  have hw1 : withTerminator (front ++ [t]) = front ++ [t] ++ [";"] := by
    unfold withTerminator
    rw [hl1]
    rfl
  have hw2 : withTerminator (front ++ [t] ++ [";"]) = front ++ [t] ++ [";"] := by
    unfold withTerminator
    rw [hl2]
    rfl
  have h00 : separatorAt (front ++ [t] ++ [";"]) 0 = separatorAt (front ++ [t]) 0 :=
    separatorAt_append (front ++ [t]) ";" 0 hpos
  have key : (separateCommands (front ++ [t]) command).code =
        (separateCommands (front ++ [t] ++ [";"]) command).code ∧
      (separateCommands (front ++ [t]) command).command =
        (separateCommands (front ++ [t] ++ [";"]) command).command := by
    by_cases h0 : separatorAt (front ++ [t]) 0 = true
    · rw [separateCommands_leading _ command hne h0,
        separateCommands_leading _ command hne2 (h00.trans h0)]
      exact ⟨rfl, rfl⟩
    · have h0f : separatorAt (front ++ [t]) 0 = false := by simpa using h0
      rw [separateCommands_scan _ command hne h0f,
        separateCommands_scan _ command hne2 (h00.trans h0f), hw1, hw2]
      exact ⟨rfl, rfl⟩
  refine ⟨key.1, key.2, ?_⟩
  unfold stages
  rw [key.1, key.2]

theorem separateCommands_implicitTerminator_witness :
    separator "out" = false ∧
      (separateCommands (["ls", "|", "wc", ">"] ++ ["out"]) (fun _ => initialiseCommand)).code =
        (separateCommands (["ls", "|", "wc", ">"] ++ ["out"] ++ [";"])
          (fun _ => initialiseCommand)).code ∧
      (separateCommands (["ls", "|", "wc", ">"] ++ ["out"]) (fun _ => initialiseCommand)).command =
        (separateCommands (["ls", "|", "wc", ">"] ++ ["out"] ++ [";"])
          (fun _ => initialiseCommand)).command ∧
      stages (separateCommands (["ls", "|", "wc", ">"] ++ ["out"]) (fun _ => initialiseCommand)) =
        stages (separateCommands (["ls", "|", "wc", ">"] ++ ["out"] ++ [";"])
          (fun _ => initialiseCommand)) :=
  ⟨by decide, separateCommands_implicitTerminator ["ls", "|", "wc", ">"] "out" _ (by decide)⟩

/-- The code on the returning path classifies the sequence. It is `0` exactly for the empty
sequence; it is positive exactly when the sequence is non-empty, does not start with a
control operator, has no two adjacent control operators and does not end in `|`; and it is
always `0`, positive, or one of `-2`, `-3`, `-4`. Whether a run reaches its `return` is the
subject of `separateCommandsRun_spec`. -/
theorem separateCommands_code_classifies (token : List String) (command : Nat → Command) :
    ((separateCommands token command).code = 0 ↔ token = []) ∧
    (0 < (separateCommands token command).code ↔
      (token ≠ [] ∧ separatorAt token 0 = false ∧ ¬ adjacentSeparators token ∧
        token.getLast? ≠ some "|")) ∧
    ((separateCommands token command).code = 0 ∨ 0 < (separateCommands token command).code ∨
      (separateCommands token command).code = -2 ∨ (separateCommands token command).code = -3 ∨
      (separateCommands token command).code = -4) := by
  by_cases hne : token = []
  · subst hne
    rw [separateCommands_nil]
    simp
  by_cases h0 : separatorAt token 0 = true
  · rw [separateCommands_leading token command hne h0]
    simp [hne, h0]
  have h0f : separatorAt token 0 = false := by simpa using h0
  rcases separateCommands_cases token command hne h0f with h | h | h
  · rw [h.2]
    simp [hne, h.1]
  · rw [h.2.2]
    have : token.getLast? = some "|" := h.2.1
    simp [hne, this]
  · obtain ⟨hadj, hlast, s, hs, hcode, -, -⟩ := h
    have hlast1 : token.getLast? ≠ some "|" := hlast
    have hcpos : 0 < s.c := by
      rw [hs.hc]
      apply List.length_pos.2
      intro hnil
      have hmem : (withTerminator token).length - 1 ∈
          sepsBelow (withTerminator token) (withTerminator token).length := by
        rw [mem_sepsBelow]
        exact ⟨Nat.sub_lt (withTerminator_length_pos token hne) Nat.one_pos,
          separatorAt_withTerminator_last token⟩
      rw [hnil] at hmem
      cases hmem
    rw [hcode]
    have hpos : (0 : Int) < (s.c : Int) := by exact_mod_cast hcpos
    refine ⟨?_, ?_, Or.inr (Or.inl hpos)⟩
    · constructor
      · intro h
        omega
      · intro h
        exact absurd h hne
    · constructor
      · intro _
        exact ⟨hne, h0f, hadj, hlast1⟩
      · intro _
        exact hpos

/-! ## Stage ranges -/

/-- The fields a successful call leaves in stage `k`, in terms of the operator positions. -/
theorem separateCommands_stage_fields (token : List String) (command : Nat → Command)
    (hpos : 0 < (separateCommands token command).code) (k : Nat)
    (hk : k < (sepIndices (withTerminator token)).length) :
    ((separateCommands token command).command k).first =
        (stageStart (sepIndices (withTerminator token)) k : Nat) ∧
    ((separateCommands token command).command k).last =
        (((sepIndices (withTerminator token)).getD k 0 : Nat) : Int) - 1 ∧
    ((separateCommands token command).command k).sep =
        tokenAt (withTerminator token) ((sepIndices (withTerminator token)).getD k 0 : Nat) ∧
    stageStart (sepIndices (withTerminator token)) k <
        (sepIndices (withTerminator token)).getD k 0 := by
  obtain ⟨-, s, hs, -, -, hcmd⟩ := separateCommands_success token command hpos
  have hkc : k < s.c := by
    rw [hs.hc]
    exact hk
  have hst := hs.hstage k hkc
  have hfr := resolved_frame (withTerminator token) (s.command k)
  rw [hcmd k, if_pos hkc, hfr.1, hfr.2.1, hfr.2.2]
  exact hst

/-- C6: a successful call returns as many stages as its token array (with the implicit `;`
stored) has control operators; stage `k` starts just after operator `k - 1` (at `0` for
`k = 0`), ends just before operator `k`, records operator `k`, and has `first <= last`; the
ranges are in input order, disjoint, and with the operators cover every index once. -/
theorem separateCommands_stagesCutAtOperators (token : List String) (command : Nat → Command)
    (hpos : 0 < (separateCommands token command).code) :
    StagesCutAtOperators (separateCommands token command) := by
  obtain ⟨hne, s, hs, hcode, htok, -⟩ := separateCommands_success token command hpos
  have hf := separateCommands_stage_fields token command hpos
  unfold StagesCutAtOperators
  rw [htok]
  refine ⟨?_, ?_, ?_, ?_⟩
  · rw [hcode, hs.hc]
    rfl
  · intro k hk
    obtain ⟨h1, h2, h3, h4⟩ := hf k hk
    refine ⟨h1, h2, h3, ?_, ?_⟩
    · exact (mem_sepIndices _ _).1 (sepIndices_getD_mem _ k hk)
    · rw [h1, h2]
      omega
  · intro k hk
    obtain ⟨-, h2, -, -⟩ := hf k (by omega)
    obtain ⟨h1, -, -, -⟩ := hf (k + 1) hk
    rw [h1, h2]
    unfold stageStart
    rw [if_neg (by omega)]
    simp
  · intro j hj
    have hiff : ∀ k, k < (sepIndices (withTerminator token)).length →
        (inStage ((separateCommands token command).command k) j ↔
          (stageStart (sepIndices (withTerminator token)) k ≤ j ∧
            j < (sepIndices (withTerminator token)).getD k 0)) := by
      intro k hk
      obtain ⟨h1, h2, -, h4⟩ := hf k hk
      unfold inStage
      rw [h1, h2]
      omega
    rcases sepIndices_cover (withTerminator token) (separatorAt_withTerminator_last token) j hj
      with h | h
    · left
      refine ⟨h.1, ?_⟩
      intro k hk hin
      exact h.2 k hk ((hiff k hk).1 hin)
    · right
      refine ⟨h.1, ?_⟩
      obtain ⟨k0, hk0, huniq⟩ := h.2
      refine ⟨k0, ⟨hk0.1, (hiff k0 hk0.1).2 hk0.2⟩, ?_⟩
      rintro k ⟨hk, hin⟩
      exact huniq k ⟨hk, (hiff k hk).1 hin⟩

theorem separateCommands_stagesCutAtOperators_witness :
    0 < (separateCommands ["ls", "-l", "|", "wc", "&", "date"] (fun _ => initialiseCommand)).code ∧
      StagesCutAtOperators
        (separateCommands ["ls", "-l", "|", "wc", "&", "date"] (fun _ => initialiseCommand)) :=
  ⟨by decide, separateCommands_stagesCutAtOperators _ _ (by decide)⟩

/-! ## Token ranges -/

theorem tokenAt_of_nonneg (token : List String) (i : Int) (hi : 0 ≤ i) :
    tokenAt token i = token[i.toNat]? := by
  unfold tokenAt
  rw [if_neg (by omega)]

theorem tokenRange_empty (token : List String) (i last : Int) (h : last < i) :
    tokenRange token i last = [] := by
  unfold tokenRange
  have : (last - i + 1).toNat = 0 := by omega
  rw [this, List.take_zero]

theorem tokenRange_cons (token : List String) (i last : Int) (h0 : 0 ≤ i) (hi : i ≤ last)
    (t : String) (ht : tokenAt token i = some t) :
    tokenRange token i last = t :: tokenRange token (i + 1) last := by
  rw [tokenAt_of_nonneg token i h0] at ht
  obtain ⟨hlt, hget⟩ := List.getElem?_eq_some.1 ht
  unfold tokenRange
  have h1 : (last - i + 1).toNat = (last - (i + 1) + 1).toNat + 1 := by omega
  have h2 : (i + 1).toNat = i.toNat + 1 := by omega
  rw [List.drop_eq_getElem_cons hlt, h1, List.take_succ_cons, h2, hget]

theorem tokenRange_tail (token : List String) (i last : Int) (h0 : 0 ≤ i) :
    (tokenRange token i last).tail = tokenRange token (i + 1) last := by
  by_cases hi : i ≤ last
  · cases ht : tokenAt token i with
    | some t => rw [tokenRange_cons token i last h0 hi t ht]; rfl
    | none =>
      rw [tokenAt_of_nonneg token i h0] at ht
      have hlen : token.length ≤ i.toNat := by
        by_contra h
        rw [List.getElem?_eq_getElem (by omega)] at ht
        cases ht
      unfold tokenRange
      rw [List.drop_eq_nil_of_le hlen, List.drop_eq_nil_of_le (by omega)]
      simp
  · rw [tokenRange_empty token i last (by omega), tokenRange_empty token (i + 1) last (by omega)]
    rfl

/-! ## The argument vector -/

theorem isRedirection_iff (t : String) : isRedirection t = true ↔ t = ">" ∨ t = "<" := by
  simp [isRedirection, or_comm]

theorem stripRedirections_cons (t : String) (l : List String) :
    stripRedirections (t :: l) =
      if isRedirection t then stripRedirections l.tail else t :: stripRedirections l := by
  cases l with
  | nil => simp [stripRedirections]
  | cons u rest => simp [stripRedirections]

/-- The loop of `buildCommandArgumentArray` appends to the slots already stored the tokens
that the left-to-right pass keeps. -/
theorem buildArgvLoop_eq (token : List String) (last : Int) :
    ∀ (fuel : Nat) (i : Int) (argv : List (Option String)), 0 ≤ i →
      last + 1 < token.length → (last + 1 - i).toNat ≤ fuel →
      buildArgvLoop token last fuel i argv =
        argv ++ (stripRedirections (tokenRange token i last)).map some := by
  intro fuel
  induction fuel with
  | zero =>
    intro i argv h0 hl hf
    rw [tokenRange_empty token i last (by omega)]
    simp [buildArgvLoop, stripRedirections]
  | succ fuel ih =>
    intro i argv h0 hl hf
    simp only [buildArgvLoop]
    by_cases hi : i ≤ last
    · rw [if_pos hi]
      have hlt : i.toNat < token.length := by omega
      have ht : tokenAt token i = some token[i.toNat] := by
        rw [tokenAt_of_nonneg token i h0, List.getElem?_eq_getElem hlt]
      rw [tokenRange_cons token i last h0 hi _ ht, stripRedirections_cons, ht]
      by_cases hop : isRedirection token[i.toNat] = true
      · have hop1 := (isRedirection_iff _).1 hop
        rw [if_pos (by simpa using hop1), if_pos hop, tokenRange_tail token (i + 1) last (by omega)]
        exact ih (i + 1 + 1) argv (by omega) hl (by omega)
      · have hop1 : ¬ (token[i.toNat] = ">" ∨ token[i.toNat] = "<") :=
          fun h => hop ((isRedirection_iff _).2 h)
        rw [if_neg (by simpa using hop1), if_neg hop, ih (i + 1) _ (by omega) hl (by omega)]
        simp
    · rw [if_neg hi, tokenRange_empty token i last (by omega)]
      simp [stripRedirections]

theorem stripRedirections_no_operator :
    ∀ (seg : List String) (t : String), t ∈ stripRedirections seg → isRedirection t = false
  | [], t, h => by simp [stripRedirections] at h
  | [a], t, h => by
    by_cases ha : isRedirection a = true
    · simp [stripRedirections, ha] at h
    · simp [stripRedirections, ha] at h
      subst h
      simpa using ha
  | a :: u :: rest, t, h => by
    by_cases ha : isRedirection a = true
    · simp only [stripRedirections, ha, if_true] at h
      exact stripRedirections_no_operator rest t h
    · simp only [stripRedirections, ha, if_false, Bool.false_eq_true, List.mem_cons] at h
      rcases h with h | h
      · subst h
        simpa using ha
      · exact stripRedirections_no_operator (u :: rest) t h

theorem stripRedirections_of_no_operator :
    ∀ (seg : List String), (∀ t ∈ seg, isRedirection t = false) → stripRedirections seg = seg
  | [], _ => rfl
  | [a], h => by
    have := h a (by simp)
    simp [stripRedirections, this]
  | a :: u :: rest, h => by
    have ha := h a (by simp)
    have ih := stripRedirections_of_no_operator (u :: rest)
      (fun t ht => h t (List.mem_cons_of_mem _ ht))
    simp only [stripRedirections, ha, if_false, Bool.false_eq_true]
    rw [ih]

theorem stripRedirections_eq_positional :
    ∀ (seg : List String), noOperatorAfterOperator seg →
      stripRedirections seg = removeOperatorsAndFollowers false seg
  | [], _ => rfl
  | [a], _ => by
    by_cases ha : isRedirection a = true
    · simp [stripRedirections, removeOperatorsAndFollowers, ha]
    · simp [stripRedirections, removeOperatorsAndFollowers, ha]
  | a :: u :: rest, h => by
    have hch := List.chain'_cons.1 h
    by_cases ha : isRedirection a = true
    · have hu : isRedirection u = false := by
        have := hch.1
        simpa [ha] using this
      have hrest : noOperatorAfterOperator rest := (List.Chain'.tail hch.2 : _)
      simp only [stripRedirections, removeOperatorsAndFollowers, ha, hu, if_true,
        Bool.true_or, Bool.or_true, Bool.false_or]
      exact stripRedirections_eq_positional rest hrest
    · have ih := stripRedirections_eq_positional (u :: rest) hch.2
      simp only [stripRedirections, ha, if_false, Bool.false_eq_true]
      rw [ih]
      simp [removeOperatorsAndFollowers, ha]

theorem stripRedirections_eq_nil :
    ∀ (seg : List String), stripRedirections seg = [] ↔ onlyRedirections seg = true
  | [] => by simp [stripRedirections, onlyRedirections]
  | [a] => by
    by_cases ha : isRedirection a = true
    · simp [stripRedirections, onlyRedirections, ha]
    · simp [stripRedirections, onlyRedirections, ha]
  | a :: u :: rest => by
    by_cases ha : isRedirection a = true
    · simp only [stripRedirections, onlyRedirections, ha, if_true, Bool.true_and]
      exact stripRedirections_eq_nil rest
    · simp [stripRedirections, onlyRedirections, ha]

/-- The argument list a successful call leaves in stage `k` is what the left-to-right pass
keeps of the stage's tokens; the stage's first token exists. -/
theorem separateCommands_stage_argv (token : List String) (command : Nat → Command)
    (hpos : 0 < (separateCommands token command).code) (k : Nat)
    (hk : (k : Int) < (separateCommands token command).code) :
    ((separateCommands token command).command k).argv =
        (stripRedirections (stageTokens (separateCommands token command).token
          ((separateCommands token command).command k))).map some ∧
      ∃ t rest, tokenAt (separateCommands token command).token
          ((separateCommands token command).command k).first = some t ∧
        stageTokens (separateCommands token command).token
          ((separateCommands token command).command k) = t :: rest := by
  obtain ⟨-, s, hs, hcode, htok, hcmd⟩ := separateCommands_success token command hpos
  have hkc : k < s.c := by
    rw [hcode] at hk
    exact_mod_cast hk
  have hkl : k < (sepIndices (withTerminator token)).length := by
    rw [hs.hc] at hkc
    exact hkc
  obtain ⟨h1, h2, -, h4⟩ := separateCommands_stage_fields token command hpos k hkl
  have hin := separatorAt_lt _ _
    ((mem_sepIndices _ _).1 (sepIndices_getD_mem (withTerminator token) k hkl))
  have hargv : ((separateCommands token command).command k).argv =
      buildArgvLoop (withTerminator token) ((separateCommands token command).command k).last
        (((separateCommands token command).command k).last -
          ((separateCommands token command).command k).first + 1).toNat
        ((separateCommands token command).command k).first [] := by
    rw [hcmd k, if_pos hkc]
    rfl
  refine ⟨?_, ?_⟩
  · have hb := buildArgvLoop_eq (withTerminator token)
      ((separateCommands token command).command k).last
      (((separateCommands token command).command k).last -
        ((separateCommands token command).command k).first + 1).toNat
      ((separateCommands token command).command k).first []
      (by rw [h1]; omega) (by rw [h2]; omega) (by omega)
    rw [hargv, hb, htok]
    rfl
  · rw [htok]
    have hlt : stageStart (sepIndices (withTerminator token)) k < (withTerminator token).length := by
      omega
    have ht : tokenAt (withTerminator token) ((separateCommands token command).command k).first =
        some (withTerminator token)[stageStart (sepIndices (withTerminator token)) k] := by
      rw [h1, tokenAt_natCast, List.getElem?_eq_getElem hlt]
    exact ⟨_, _, ht,
      tokenRange_cons _ _ _ (by rw [h1]; omega) (by rw [h1, h2]; omega) _ ht⟩

/-- C7, as stated, fails: in the stage `a < < b` the second `<` is the target of the first
and `b` is kept, so `argv` is `a b`, while removing every `<` together with the token
following it leaves `a` only. -/
theorem separateCommands_argv_counterexample :
    0 < (separateCommands ["a", "<", "<", "b"] (fun _ => initialiseCommand)).code ∧
      stageTokens (separateCommands ["a", "<", "<", "b"] (fun _ => initialiseCommand)).token
        ((separateCommands ["a", "<", "<", "b"] (fun _ => initialiseCommand)).command 0) =
          ["a", "<", "<", "b"] ∧
      ((separateCommands ["a", "<", "<", "b"] (fun _ => initialiseCommand)).command 0).argv =
        [some "a", some "b"] ∧
      (removeOperatorsAndFollowers false ["a", "<", "<", "b"]).map some = [some "a"] ∧
      ((separateCommands ["a", "<", "<", "b"] (fun _ => initialiseCommand)).command 0).argv ≠
        (removeOperatorsAndFollowers false
          (stageTokens (separateCommands ["a", "<", "<", "b"] (fun _ => initialiseCommand)).token
            ((separateCommands ["a", "<", "<", "b"]
              (fun _ => initialiseCommand)).command 0))).map some := by
  decide

/-- C7, amended: for every stage of a successful call, `argv` is the stage's tokens, in
order, with every `<` or `>` that is not itself the target of the operator before it removed
together with the token immediately following it. So `argv` never holds `<` or `>`; a stage
without redirection operator has `argv` equal to its tokens; and when no operator directly
follows another, `argv` is the stage's tokens without the operators and their followers. -/
theorem separateCommands_argv (token : List String) (command : Nat → Command)
    (hpos : 0 < (separateCommands token command).code) (k : Nat)
    (hk : (k : Int) < (separateCommands token command).code) :
    ((separateCommands token command).command k).argv =
        (stripRedirections (stageTokens (separateCommands token command).token
          ((separateCommands token command).command k))).map some ∧
    (∀ a ∈ ((separateCommands token command).command k).argv, a ≠ some "<" ∧ a ≠ some ">") ∧
    ((∀ t ∈ stageTokens (separateCommands token command).token
          ((separateCommands token command).command k), isRedirection t = false) →
      ((separateCommands token command).command k).argv =
        (stageTokens (separateCommands token command).token
          ((separateCommands token command).command k)).map some) ∧
    (noOperatorAfterOperator (stageTokens (separateCommands token command).token
          ((separateCommands token command).command k)) →
      ((separateCommands token command).command k).argv =
        (removeOperatorsAndFollowers false (stageTokens (separateCommands token command).token
          ((separateCommands token command).command k))).map some) := by
  have h := (separateCommands_stage_argv token command hpos k hk).1
  refine ⟨h, ?_, ?_, ?_⟩
  · intro a ha
    rw [h, List.mem_map] at ha
    obtain ⟨t, ht, rfl⟩ := ha
    have hno := stripRedirections_no_operator _ t ht
    constructor
    · intro heq
      have : t = "<" := Option.some.inj heq
      rw [this] at hno
      exact absurd hno (by decide)
    · intro heq
      have : t = ">" := Option.some.inj heq
      rw [this] at hno
      exact absurd hno (by decide)
  · intro hno
    rw [h, stripRedirections_of_no_operator _ hno]
  · intro hch
    rw [h, stripRedirections_eq_positional _ hch]

theorem separateCommands_argv_witness :
    0 < (separateCommands ["sort", "<", "in", "-r", "|", "wc"] (fun _ => initialiseCommand)).code ∧
      ((0 : Nat) : Int) <
        (separateCommands ["sort", "<", "in", "-r", "|", "wc"] (fun _ => initialiseCommand)).code ∧
      ((separateCommands ["sort", "<", "in", "-r", "|", "wc"]
          (fun _ => initialiseCommand)).command 0).argv = [some "sort", some "-r"] :=
  ⟨by decide, by decide,
    (separateCommands_argv ["sort", "<", "in", "-r", "|", "wc"] (fun _ => initialiseCommand)
      (by decide) 0 (by decide)).1.trans (by decide)⟩

/-- C9, as stated, fails: the line `< file` is accepted with one stage, and that stage has an
empty argument list, so there is no `argv[0]`. -/
theorem separateCommands_argv_empty_counterexample :
    (separateCommands ["<", "file"] (fun _ => initialiseCommand)).code = 1 ∧
      ((separateCommands ["<", "file"] (fun _ => initialiseCommand)).command 0).argv = [] := by
  decide

/-- C9, amended: for every stage of a successful call, the argument list is empty exactly
when the stage consists of redirections only (operator and target pairs, possibly followed
by one more operator); and when the first token of the stage is not `<` or `>`, `argv[0]`
exists and is that token. -/
theorem separateCommands_argv_nonempty (token : List String) (command : Nat → Command)
    (hpos : 0 < (separateCommands token command).code) (k : Nat)
    (hk : (k : Int) < (separateCommands token command).code) :
    (((separateCommands token command).command k).argv = [] ↔
      onlyRedirections (stageTokens (separateCommands token command).token
        ((separateCommands token command).command k)) = true) ∧
    (∀ t, tokenAt (separateCommands token command).token
          ((separateCommands token command).command k).first = some t →
        isRedirection t = false →
        ((separateCommands token command).command k).argv.head? = some (some t)) := by
  obtain ⟨h, t0, rest, ht0, hseg⟩ := separateCommands_stage_argv token command hpos k hk
  constructor
  · rw [h, List.map_eq_nil_iff]
    exact stripRedirections_eq_nil _
  · intro t ht hno
    rw [ht0] at ht
    cases ht
    rw [h, hseg, stripRedirections_cons, hno]
    simp

theorem separateCommands_argv_nonempty_witness :
    0 < (separateCommands ["ls", ">", "out", ";", "<", "in"] (fun _ => initialiseCommand)).code ∧
      ((1 : Nat) : Int) <
        (separateCommands ["ls", ">", "out", ";", "<", "in"] (fun _ => initialiseCommand)).code ∧
      (((separateCommands ["ls", ">", "out", ";", "<", "in"]
          (fun _ => initialiseCommand)).command 1).argv = [] ↔
        onlyRedirections (stageTokens
          (separateCommands ["ls", ">", "out", ";", "<", "in"] (fun _ => initialiseCommand)).token
          ((separateCommands ["ls", ">", "out", ";", "<", "in"]
            (fun _ => initialiseCommand)).command 1)) = true) :=
  ⟨by decide, by decide,
    (separateCommands_argv_nonempty ["ls", ">", "out", ";", "<", "in"]
      (fun _ => initialiseCommand) (by decide) 1 (by decide)).1⟩

/-! ## Redirection paths -/

theorem recordsLast_empty (token : List String) (lo hi : Int) (op : String)
    (b : Option String) (h : hi < lo) : RecordsLastOccurrence token lo hi op b b := by
  refine ⟨fun _ => rfl, ?_⟩
  intro j h1 h2
  omega

theorem recordsLast_skip (token : List String) (lo hi : Int) (op : String)
    (b a : Option String) (hne : tokenAt token lo ≠ some op)
    (h : RecordsLastOccurrence token (lo + 1) hi op b a) :
    RecordsLastOccurrence token lo hi op b a := by
  refine ⟨fun hno => h.1 (fun j h1 h2 => hno j (by omega) h2), ?_⟩
  intro j h1 h2 hj hlast
  have hj0 : j ≠ lo := by
    rintro rfl
    exact hne hj
  exact h.2 j (by omega) h2 hj hlast

theorem recordsLast_skip_two (token : List String) (lo hi : Int) (op : String)
    (b a : Option String) (hne : tokenAt token lo ≠ some op)
    (hne1 : lo < hi → tokenAt token (lo + 1) ≠ some op)
    (h : RecordsLastOccurrence token (lo + 1 + 1) hi op b a) :
    RecordsLastOccurrence token lo hi op b a := by
  refine ⟨fun hno => h.1 (fun j h1 h2 => hno j (by omega) h2), ?_⟩
  intro j h1 h2 hj hlast
  have hj0 : j ≠ lo := by
    rintro rfl
    exact hne hj
  have hj1 : j ≠ lo + 1 := by
    rintro rfl
    exact hne1 (by omega) hj
  exact h.2 j (by omega) h2 hj hlast

theorem recordsLast_hit (token : List String) (lo hi : Int) (op : String)
    (b a : Option String) (hop : tokenAt token lo = some op) (hlo : lo ≤ hi)
    (hne1 : lo < hi → tokenAt token (lo + 1) ≠ some op)
    (h : RecordsLastOccurrence token (lo + 1 + 1) hi op (tokenAt token (lo + 1)) a) :
    RecordsLastOccurrence token lo hi op b a := by
  refine ⟨fun hno => absurd hop (hno lo (le_refl _) hlo), ?_⟩
  intro j h1 h2 hj hlast
  by_cases hj0 : j = lo
  · subst hj0
    exact h.1 (fun j2 h3 h4 => hlast j2 (by omega) h4)
  · have hj1 : j ≠ lo + 1 := by
      rintro rfl
      exact hne1 (by omega) hj
    exact h.2 j (by omega) h2 hj hlast

/-- The loop of `searchRedirection`, over a range in which no redirection operator directly
follows another, records for each operator the token after its last occurrence. -/
theorem searchRedirectionLoop_records (token : List String) :
    ∀ (fuel : Nat) (i : Int) (cp : Command), (cp.last + 1 - i).toNat ≤ fuel →
      (∀ j, i ≤ j → j < cp.last → redirectionAt token j → ¬ redirectionAt token (j + 1)) →
      RecordsLastOccurrence token i cp.last "<" cp.stdin_file
          (searchRedirectionLoop token fuel i cp).stdin_file ∧
        RecordsLastOccurrence token i cp.last ">" cp.stdout_file
          (searchRedirectionLoop token fuel i cp).stdout_file := by
  intro fuel
  induction fuel with
  | zero =>
    intro i cp hf _
    simp only [searchRedirectionLoop]
    exact ⟨recordsLast_empty _ _ _ _ _ (by omega), recordsLast_empty _ _ _ _ _ (by omega)⟩
  | succ fuel ih =>
    intro i cp hf hch
    simp only [searchRedirectionLoop]
    by_cases hi : i ≤ cp.last
    · rw [if_pos hi]
      by_cases hlt : tokenAt token i = some "<"
      · rw [if_pos hlt]
        have hnext : i < cp.last → ¬ redirectionAt token (i + 1) :=
          fun h => hch i (le_refl _) h (Or.inl hlt)
        have h := ih (i + 1 + 1) { cp with stdin_file := tokenAt token (i + 1) }
          (by simp only; omega) (fun j h1 h2 => hch j (by omega) h2)
        refine ⟨recordsLast_hit _ _ _ _ _ _ hlt hi (fun h1 h2 => hnext h1 (Or.inl h2)) h.1,
          recordsLast_skip_two _ _ _ _ _ _ ?_ (fun h1 h2 => hnext h1 (Or.inr h2)) h.2⟩
        rw [hlt]
        decide
      · rw [if_neg hlt]
        by_cases hgt : tokenAt token i = some ">"
        · rw [if_pos hgt]
          have hnext : i < cp.last → ¬ redirectionAt token (i + 1) :=
            fun h => hch i (le_refl _) h (Or.inr hgt)
          have h := ih (i + 1 + 1) { cp with stdout_file := tokenAt token (i + 1) }
            (by simp only; omega) (fun j h1 h2 => hch j (by omega) h2)
          exact ⟨recordsLast_skip_two _ _ _ _ _ _ hlt (fun h1 h2 => hnext h1 (Or.inl h2)) h.1,
            recordsLast_hit _ _ _ _ _ _ hgt hi (fun h1 h2 => hnext h1 (Or.inr h2)) h.2⟩
        · rw [if_neg hgt]
          have h := ih (i + 1) cp (by omega) (fun j h1 h2 => hch j (by omega) h2)
          exact ⟨recordsLast_skip _ _ _ _ _ _ hlt h.1, recordsLast_skip _ _ _ _ _ _ hgt h.2⟩
    · rw [if_neg hi]
      exact ⟨recordsLast_empty _ _ _ _ _ (by omega), recordsLast_empty _ _ _ _ _ (by omega)⟩

/-- C8: evaluation of the code on the line `cat <`. The stage is `cat <`, its last token is
`<` with no token after it inside the stage, and `searchRedirection` stores the stage's
terminating `;` as the input path instead of leaving it unset. -/
theorem separateCommands_trailingOperator_path :
    (separateCommands ["cat", "<"] (fun _ => initialiseCommand)).code = 1 ∧
      stageTokens (separateCommands ["cat", "<"] (fun _ => initialiseCommand)).token
        ((separateCommands ["cat", "<"] (fun _ => initialiseCommand)).command 0) = ["cat", "<"] ∧
      (initialiseCommand).stdin_file = none ∧
      ((separateCommands ["cat", "<"] (fun _ => initialiseCommand)).command 0).stdin_file =
        some ";" := by
  decide

/-- C10, as stated, fails: in the stage `cat < < f` the last `<` is at index 2 and is
followed by `f`, but `searchRedirection` takes that `<` as the target of the first one and
records `<` as the input path. -/
theorem searchRedirection_lastOccurrence_counterexample :
    ¬ RecordsLastOccurrence ["cat", "<", "<", "f", ";"] 0 3 "<" none
      (searchRedirection ["cat", "<", "<", "f", ";"]
        { initialiseCommand with first := 0, last := 3, sep := some ";" }).stdin_file := by
  intro h
  have h2 := h.2 2 (by decide) (by decide) (by decide)
    (by
      intro j2 h3 h4
      have : j2 = 3 := by omega
      subst this
      decide)
  revert h2
  decide

/-- C10, amended: for every stage in which no redirection operator is immediately followed
by another redirection operator, the input path (respectively output path) that
`searchRedirection` leaves is the token following the last `<` (respectively `>`) of the
stage, when that occurrence is not the last token of the stage; and without an occurrence
the path keeps its value (NULL after `initialiseCommand`). -/
theorem searchRedirection_lastOccurrence (token : List String) (cp : Command)
    (hch : ∀ j, cp.first ≤ j → j < cp.last → redirectionAt token j →
      ¬ redirectionAt token (j + 1)) :
    RecordsLastOccurrence token cp.first cp.last "<" cp.stdin_file
        (searchRedirection token cp).stdin_file ∧
      RecordsLastOccurrence token cp.first cp.last ">" cp.stdout_file
        (searchRedirection token cp).stdout_file :=
  searchRedirectionLoop_records token (cp.last - cp.first + 1).toNat cp.first cp (by omega) hch

theorem searchRedirection_lastOccurrence_witness :
    (∀ j : Int, (0 : Int) ≤ j → j < 6 →
        redirectionAt ["sort", "<", "a", "<", "b", ">", "o", ";"] j →
        ¬ redirectionAt ["sort", "<", "a", "<", "b", ">", "o", ";"] (j + 1)) ∧
      (searchRedirection ["sort", "<", "a", "<", "b", ">", "o", ";"]
        { initialiseCommand with first := 0, last := 6, sep := some ";" }).stdin_file = some "b" ∧
      RecordsLastOccurrence ["sort", "<", "a", "<", "b", ">", "o", ";"] 0 6 "<" none
        (searchRedirection ["sort", "<", "a", "<", "b", ">", "o", ";"]
          { initialiseCommand with first := 0, last := 6, sep := some ";" }).stdin_file :=
  have hch : ∀ j : Int, (0 : Int) ≤ j → j < 6 →
      redirectionAt ["sort", "<", "a", "<", "b", ">", "o", ";"] j →
      ¬ redirectionAt ["sort", "<", "a", "<", "b", ">", "o", ";"] (j + 1) := by
    intro j h0 h6
    unfold redirectionAt
    interval_cases j <;> decide
  ⟨hch, by decide,
    (searchRedirection_lastOccurrence ["sort", "<", "a", "<", "b", ">", "o", ";"]
      { initialiseCommand with first := 0, last := 6, sep := some ";" } hch).1⟩

/-! ## The step budgets are enough -/

theorem searchRedirectionLoop_fuel (token : List String) :
    ∀ (fuel1 fuel2 : Nat) (i : Int) (cp : Command), (cp.last + 1 - i).toNat ≤ fuel1 →
      (cp.last + 1 - i).toNat ≤ fuel2 →
      searchRedirectionLoop token fuel1 i cp = searchRedirectionLoop token fuel2 i cp := by
  intro fuel1
  induction fuel1 with
  | zero =>
    intro fuel2 i cp h1 _
    have hi : ¬ i ≤ cp.last := by omega
    cases fuel2 <;> simp [searchRedirectionLoop, hi]
  | succ fuel1 ih =>
    intro fuel2 i cp h1 h2
    cases fuel2 with
    | zero =>
      have hi : ¬ i ≤ cp.last := by omega
      simp [searchRedirectionLoop, hi]
    | succ fuel2 =>
      simp only [searchRedirectionLoop]
      split_ifs
      · exact ih _ _ _ (by simp only; omega) (by simp only; omega)
      · exact ih _ _ _ (by simp only; omega) (by simp only; omega)
      · exact ih _ _ _ (by omega) (by omega)
      · rfl

theorem buildArgvLoop_fuel (token : List String) (last : Int) :
    ∀ (fuel1 fuel2 : Nat) (i : Int) (argv : List (Option String)),
      (last + 1 - i).toNat ≤ fuel1 → (last + 1 - i).toNat ≤ fuel2 →
      buildArgvLoop token last fuel1 i argv = buildArgvLoop token last fuel2 i argv := by
  intro fuel1
  induction fuel1 with
  | zero =>
    intro fuel2 i argv h1 _
    have hi : ¬ i ≤ last := by omega
    cases fuel2 <;> simp [buildArgvLoop, hi]
  | succ fuel1 ih =>
    intro fuel2 i argv h1 h2
    cases fuel2 with
    | zero =>
      have hi : ¬ i ≤ last := by omega
      simp [buildArgvLoop, hi]
    | succ fuel2 =>
      simp only [buildArgvLoop]
      split_ifs
      · exact ih _ _ _ (by omega) (by omega)
      · exact ih _ _ _ (by omega) (by omega)
      · rfl

theorem scanLoop_fuel (token : List String) (nTokens : Nat) :
    ∀ (fuel1 fuel2 i : Nat) (s : ScanState), nTokens ≤ i + fuel1 → nTokens ≤ i + fuel2 →
      scanLoop token nTokens fuel1 i s = scanLoop token nTokens fuel2 i s := by
  intro fuel1
  induction fuel1 with
  | zero =>
    intro fuel2 i s h1 _
    have hi : ¬ i < nTokens := by omega
    cases fuel2 <;> simp [scanLoop, hi]
  | succ fuel1 ih =>
    intro fuel2 i s h1 h2
    cases fuel2 with
    | zero =>
      have hi : ¬ i < nTokens := by omega
      simp [scanLoop, hi]
    | succ fuel2 =>
      simp only [scanLoop]
      split_ifs
      · rfl
      · exact ih _ _ _ (by omega) (by omega)
      · exact ih _ _ _ (by omega) (by omega)
      · rfl

theorem resolveLoop_fuel (token : List String) (nCommands : Nat) (fuel1 fuel2 i : Nat)
    (command : Nat → Command) (h1 : nCommands ≤ i + fuel1) (h2 : nCommands ≤ i + fuel2) :
    resolveLoop token nCommands fuel1 i command = resolveLoop token nCommands fuel2 i command := by
  funext k
  rw [resolveLoop_apply token nCommands fuel1 i command k h1,
    resolveLoop_apply token nCommands fuel2 i command k h2]

/-! ## The tokeniser -/

theorem contains_space (c : Char) : [' '].contains c = (c == ' ') := by
  simp only [List.contains_cons, List.contains_nil, Bool.or_false]

theorem not_contains_space :
    (fun x : Char => !([' '].contains x)) = (fun x : Char => !(x == ' ')) := by
  funext x
  rw [contains_space]

theorem spaceRuns_nil : spaceRuns [] = [] := by
  simp [spaceRuns, List.splitOnP_nil]

theorem spaceRuns_cons_space (l : List Char) : spaceRuns (' ' :: l) = spaceRuns l := by
  unfold spaceRuns
  rw [List.splitOnP_cons]
  simp

theorem strtok_cons_space (l : List Char) : strtok [' '] (' ' :: l) = strtok [' '] l := by
  unfold strtok
  rw [List.dropWhile_cons_of_pos (by decide)]

/-- A text that starts with a character other than a space splits into its first run and
the runs of what follows the space that ends it. -/
theorem spaceRuns_cons_other (c : Char) (l : List Char) (hc : c ≠ ' ') :
    spaceRuns (c :: l) =
      (c :: l).takeWhile (fun x => !(x == ' ')) ::
        spaceRuns (((c :: l).dropWhile (fun x => !(x == ' '))).drop 1) := by
  have hcb : (!(c == ' ')) = true := by simpa using hc
  have hsplit := List.takeWhile_append_dropWhile (fun x : Char => !(x == ' ')) (c :: l)
  have hrun : ∀ x ∈ (c :: l).takeWhile (fun x => !(x == ' ')),
      ¬ ((fun c : Char => c == ' ') x = true) := by
    intro x hx
    have := List.mem_takeWhile_imp hx
    simpa using this
  have hne : (c :: l).takeWhile (fun x => !(x == ' ')) ≠ [] := by
    rw [List.takeWhile_cons_of_pos (p := fun x : Char => !(x == ' ')) hcb]
    exact List.cons_ne_nil _ _
  have hkeep : (!((c :: l).takeWhile (fun x => !(x == ' '))).isEmpty) = true := by
    cases ht : (c :: l).takeWhile (fun x => !(x == ' ')) with
    | nil => exact absurd ht hne
    | cons a b => rfl
  cases hd : (c :: l).dropWhile (fun x => !(x == ' ')) with
  | nil =>
    rw [hd, List.append_nil] at hsplit
    unfold spaceRuns
    rw [List.splitOnP_eq_single (fun c : Char => c == ' ') (c :: l) (by rw [← hsplit]; exact hrun)]
    rw [hsplit] at hkeep ⊢
    rw [List.filter_cons_of_pos (p := fun t : List Char => !t.isEmpty) hkeep]
    simp [List.splitOnP_nil]
  | cons d rest =>
    have hdsp : (fun c : Char => c == ' ') d = true := by
      have := List.head_dropWhile_not (fun x : Char => !(x == ' ')) (c :: l) (by rw [hd]; simp)
      simpa [hd] using this
    rw [hd] at hsplit
    unfold spaceRuns
    conv_lhs => rw [← hsplit, List.splitOnP_first (fun c : Char => c == ' ') _ hrun d hdsp]
    rw [List.filter_cons_of_pos (p := fun t : List Char => !t.isEmpty) hkeep]
    rfl

theorem strtok_cons_other (c : Char) (l : List Char) (hc : c ≠ ' ') :
    strtok [' '] (c :: l) =
      some ((c :: l).takeWhile (fun x => !(x == ' ')),
        ((c :: l).dropWhile (fun x => !(x == ' '))).drop 1) := by
  have hcb : ¬ ([' '].contains c = true) := by
    rw [contains_space]
    simpa using hc
  unfold strtok
  rw [List.dropWhile_cons_of_neg (p := fun x : Char => [' '].contains x) hcb]
  simp only
  rw [not_contains_space]

/-- What one call of `strtok` with the delimiter `" "` finds. -/
theorem strtok_space_spec (s : List Char) :
    (strtok [' '] s = none ∧ spaceRuns s = []) ∨
    (∃ t rest, strtok [' '] s = some (t, rest) ∧ spaceRuns s = t :: spaceRuns rest ∧
      rest.length < s.length ∧ t.length ≤ s.length ∧ t ≠ [] ∧ ∀ x ∈ t, x ≠ ' ') := by
  induction s with
  | nil => left; exact ⟨by simp [strtok], spaceRuns_nil⟩
  | cons c l ih =>
    by_cases hc : c = ' '
    · subst hc
      rw [strtok_cons_space, spaceRuns_cons_space]
      rcases ih with h | ⟨t, rest, h1, h2, h3, h4, h5⟩
      · left; exact h
      · right
        exact ⟨t, rest, h1, h2, by simp; omega, by simp; omega, h5⟩
    · right
      have hcb : (!(c == ' ')) = true := by simpa using hc
      refine ⟨_, _, strtok_cons_other c l hc, spaceRuns_cons_other c l hc, ?_, ?_, ?_, ?_⟩
      · rw [List.dropWhile_cons_of_pos (p := fun x : Char => !(x == ' ')) hcb, List.length_drop,
          List.length_cons]
        have h2 := (List.dropWhile_sublist (fun x : Char => !(x == ' ')) (l := l)).length_le
        omega
      · exact (List.takeWhile_sublist (fun x : Char => !(x == ' ')) (l := c :: l)).length_le
      · rw [List.takeWhile_cons_of_pos (p := fun x : Char => !(x == ' ')) hcb]
        exact List.cons_ne_nil _ _
      · intro x hx
        have := List.mem_takeWhile_imp hx
        simpa using this

theorem spaceRuns_forall :
    ∀ (n : Nat) (s : List Char), s.length ≤ n →
      ∀ t ∈ spaceRuns s, t ≠ [] ∧ (∀ x ∈ t, x ≠ ' ') ∧ t.length ≤ s.length := by
  intro n
  induction n with
  | zero =>
    intro s hs t ht
    have : s = [] := List.length_eq_zero.1 (by omega)
    subst this
    rw [spaceRuns_nil] at ht
    cases ht
  | succ n ih =>
    intro s hs t ht
    rcases strtok_space_spec s with h | ⟨t1, rest, -, h2, h3, h4, h5, h6⟩
    · rw [h.2] at ht
      cases ht
    · rw [h2, List.mem_cons] at ht
      rcases ht with ht | ht
      · subst ht
        exact ⟨h5, h6, h4⟩
      · obtain ⟨a, b, c⟩ := ih rest (by omega) t ht
        exact ⟨a, b, by omega⟩

theorem tokeniseLoop_none (fuel : Nat) (rest : List Char) (num_arg : Nat)
    (tokens : List (List Char)) :
    tokeniseLoop fuel none rest num_arg tokens = (num_arg, tokens) := by
  cases fuel <;> rfl

/-- The loop of `tokenise_command`, entered with a token in hand and with room left in the
budget and below the argument limit, stores that token and then the runs of the rest. -/
theorem tokeniseLoop_runs :
    ∀ (n fuel : Nat) (rest t : List Char) (num_arg : Nat) (tokens : List (List Char)),
      rest.length ≤ n → n < fuel → num_arg + n < MAX_ARGUMENT_LENGTH - 1 →
      tokeniseLoop fuel (some t) rest num_arg tokens =
        (num_arg + 1 + (spaceRuns rest).length,
          tokens ++ [t.take (MAX_TOKEN_LENGTH - 1)] ++
            (spaceRuns rest).map (List.take (MAX_TOKEN_LENGTH - 1))) := by
  intro n
  induction n with
  | zero =>
    intro fuel rest t num_arg tokens hr hf hn
    have hrest : rest = [] := List.length_eq_zero.1 (by omega)
    subst hrest
    obtain ⟨f, rfl⟩ : ∃ f, fuel = f + 1 := ⟨fuel - 1, by omega⟩
    have hlt : num_arg < MAX_ARGUMENT_LENGTH - 1 := by omega
    simp only [tokeniseLoop, if_pos hlt]
    have hs : strtok [' '] [] = none := by simp [strtok]
    rw [hs, spaceRuns_nil]
    simp [tokeniseLoop_none]
  | succ n ih =>
    intro fuel rest t num_arg tokens hr hf hn
    obtain ⟨f, rfl⟩ : ∃ f, fuel = f + 1 := ⟨fuel - 1, by omega⟩
    have hlt : num_arg < MAX_ARGUMENT_LENGTH - 1 := by omega
    simp only [tokeniseLoop, if_pos hlt]
    rcases strtok_space_spec rest with h | ⟨t1, rest1, h1, h2, h3, -⟩
    · rw [h.1, h.2]
      simp [tokeniseLoop_none]
    · rw [h1, h2]
      simp only [Option.map_some']
      rw [ih f rest1 t1 (num_arg + 1) _ (by omega) (by omega) (by omega)]
      simp only [List.length_cons, List.map_cons, List.append_assoc, List.cons_append,
        List.nil_append, Prod.mk.injEq, and_true]
      omega

/-- On a text shorter than the argument limit, `tokenise_command` returns the runs of
non-space characters, each cut to `MAX_TOKEN_LENGTH - 1` characters, and their number. -/
theorem tokenise_command_eq (input : List Char) (h : input.length < MAX_ARGUMENT_LENGTH - 1) :
    tokenise_command input =
      ((spaceRuns input).length, (spaceRuns input).map (List.take (MAX_TOKEN_LENGTH - 1))) := by
  unfold tokenise_command
  rcases strtok_space_spec input with h0 | ⟨t1, rest1, h1, h2, h3, -⟩
  · rw [h0.1, h0.2]
    simp [tokeniseLoop_none]
  · rw [h1, h2]
    simp only [Option.map_some']
    rw [tokeniseLoop_runs rest1.length MAX_ARGUMENT_LENGTH rest1 t1 0 [] (le_refl _)
      (by unfold MAX_ARGUMENT_LENGTH at *; omega) (by omega)]
    simp only [List.length_cons, List.map_cons, List.nil_append, List.cons_append,
      Prod.mk.injEq, and_true]
    omega

/-- C11, as stated, fails: `strtok` is called with the delimiter `" "` only, so the line
`a<TAB>b` is one token, which contains a tab, while its runs of non-whitespace characters
are `a` and `b`. -/
theorem tokenise_command_tab_counterexample :
    "a\tb".toList.length < MAX_TOKEN_LENGTH ∧
      tokenise_command "a\tb".toList = (1, ["a\tb".toList]) ∧
      '\t' ∈ "a\tb".toList ∧
      whitespaceRuns "a\tb".toList = ["a".toList, "b".toList] ∧
      (tokenise_command "a\tb".toList).2 ≠ whitespaceRuns "a\tb".toList := by
  decide

/-- C11, amended: for every line shorter than the 100-character token limit,
`tokenise_command` returns exactly the maximal runs of non-space characters of the line, in
input order; every token is non-empty and contains no space, the returned count is the
number of tokens, and the empty line yields zero tokens. -/
theorem tokenise_command_spaceRuns (line : List Char) (h : line.length < MAX_TOKEN_LENGTH) :
    tokenise_command line = ((spaceRuns line).length, spaceRuns line) ∧
    (∀ t ∈ (tokenise_command line).2, t ≠ [] ∧ ' ' ∉ t) ∧
    (tokenise_command line).1 = (tokenise_command line).2.length ∧
    (line = [] → tokenise_command line = (0, [])) := by
  have hlen : line.length < 100 := h
  have hall := spaceRuns_forall line.length line (le_refl _)
  have hmap : (spaceRuns line).map (List.take (MAX_TOKEN_LENGTH - 1)) = spaceRuns line := by
    conv_rhs => rw [← List.map_id (spaceRuns line)]
    apply List.map_congr_left
    intro t ht
    have := (hall t ht).2.2
    exact List.take_of_length_le (by unfold MAX_TOKEN_LENGTH; omega)
  have heq : tokenise_command line = ((spaceRuns line).length, spaceRuns line) := by
    rw [tokenise_command_eq line (by unfold MAX_ARGUMENT_LENGTH; omega), hmap]
  refine ⟨heq, ?_, ?_, ?_⟩
  · intro t ht
    rw [heq] at ht
    obtain ⟨h1, h2, -⟩ := hall t ht
    exact ⟨h1, fun hmem => h2 ' ' hmem rfl⟩
  · rw [heq]
  · intro hnil
    rw [heq, hnil, spaceRuns_nil]
    rfl

theorem tokenise_command_spaceRuns_witness :
    "ls  -l /tmp ".toList.length < MAX_TOKEN_LENGTH ∧
      tokenise_command "ls  -l /tmp ".toList =
        (3, ["ls".toList, "-l".toList, "/tmp".toList]) :=
  ⟨by decide,
    (tokenise_command_spaceRuns "ls  -l /tmp ".toList (by decide)).1.trans (by decide)⟩

/-! ## The command history -/

theorem recordAll_append (rows : Nat → List Char) (ls : List (List Char)) (x : List Char) :
    recordAll rows (ls ++ [x]) = (recordAll rows ls).bind (fun shell => add_history shell x) := by
  simp [recordAll, List.foldl_append]

/-- An insertion into a full store ends in the `free` of a row: the process is aborted. -/
theorem add_history_full (shell : ShellState) (x : List Char)
    (h : ¬ shell.total_history < MAX_HISTORY_LENGTH) : add_history shell x = none := by
  unfold add_history
  rw [if_neg h]
  rfl

theorem add_history_storeOf (rows : Nat → List Char) (ls : List (List Char)) (x : List Char)
    (h : ls.length < 100) : add_history (storeOf rows ls) x = some (storeOf rows (ls ++ [x])) := by
  unfold add_history
  have hlt : (storeOf rows ls).total_history < MAX_HISTORY_LENGTH := h
  rw [if_pos hlt]
  congr 1
  unfold storeOf
  simp only [List.length_append, List.length_singleton, ShellState.mk.injEq, and_true]
  funext j
  simp only [setRow]
  by_cases hj : j = ls.length
  · rw [if_pos hj, hj]
    simp
  · rw [if_neg hj]
    by_cases hlt2 : j < ls.length
    · rw [List.getElem?_append_left hlt2]
    · rw [List.getElem?_eq_none (by omega), List.getElem?_eq_none (by simp; omega)]

/-- Up to `100` lines are recorded in the rows in order. -/
theorem recordAll_of_le (rows : Nat → List Char) (ls : List (List Char))
    (h : ls.length ≤ 100) : recordAll rows ls = some (storeOf rows ls) := by
  induction ls using List.reverseRecOn with
  | nil => rfl
  | append_singleton l a ih =>
    simp only [List.length_append, List.length_singleton] at h
    rw [recordAll_append, ih (by omega)]
    exact add_history_storeOf rows l a (by omega)

/-- Recording more than `100` lines aborts the process. -/
theorem recordAll_of_gt (rows : Nat → List Char) (ls : List (List Char))
    (h : 100 < ls.length) : recordAll rows ls = none := by
  induction ls using List.reverseRecOn with
  | nil => simp at h
  | append_singleton l a ih =>
    simp only [List.length_append, List.length_singleton] at h
    rw [recordAll_append]
    by_cases hl : 100 < l.length
    · rw [ih hl]
      rfl
    · rw [recordAll_of_le rows l (by omega)]
      apply add_history_full
      unfold storeOf MAX_HISTORY_LENGTH
      simp only
      omega

theorem historyRows_getElem? (shell : ShellState) (j : Nat) :
    (historyRows shell)[j]? =
      if j < shell.total_history then some (shell.command_history j) else none := by
  unfold historyRows
  rw [List.getElem?_map]
  by_cases hj : j < shell.total_history
  · rw [List.getElem?_range hj, if_pos hj]
    rfl
  · rw [List.getElem?_eq_none (by simpa using hj), if_neg hj]
    rfl

theorem historyRows_length (shell : ShellState) :
    (historyRows shell).length = shell.total_history := by
  simp [historyRows]

theorem historyRows_storeOf (rows : Nat → List Char) (ls : List (List Char)) :
    historyRows (storeOf rows ls) = ls := by
  apply List.ext_getElem?
  intro n
  rw [historyRows_getElem?]
  by_cases hn : n < ls.length
  · have hn1 : n < (storeOf rows ls).total_history := hn
    rw [if_pos hn1]
    simp [storeOf, List.getElem?_eq_getElem hn]
  · have hn1 : ¬ n < (storeOf rows ls).total_history := hn
    rw [if_neg hn1, List.getElem?_eq_none (by omega)]

theorem retained_storeOf (rows : Nat → List Char) (ls : List (List Char)) :
    retained (storeOf rows ls) = ls := by
  unfold retained
  split
  · exact historyRows_storeOf rows ls
  · rw [historyRows_storeOf]
    exact List.rotate_zero ls

theorem history_by_number_storeOf (rows : Nat → List Char) (ls : List (List Char)) (n : Int) :
    history_by_number (storeOf rows ls) n =
      if 0 < n ∧ n ≤ (ls.length : Int) then ls[(n - 1).toNat]? else none := by
  unfold history_by_number
  by_cases hn : 0 < n ∧ n ≤ (ls.length : Int)
  · have hn1 : n > 0 ∧ n ≤ ((storeOf rows ls).total_history : Int) := hn
    rw [if_pos hn1, if_pos hn]
    have hlt : (n - 1).toNat < ls.length := by omega
    show some ((ls[(n - 1).toNat]?).getD (rows (n - 1).toNat)) = ls[(n - 1).toNat]?
    rw [List.getElem?_eq_getElem hlt]
    rfl
  · have hn1 : ¬ (n > 0 ∧ n ≤ ((storeOf rows ls).total_history : Int)) := hn
    rw [if_neg hn1, if_neg hn]

theorem strncmpEq_iff (line str : List Char) :
    strncmpEq line str str.length = true ↔ str <+: line := by
  unfold strncmpEq
  rw [List.take_length, beq_iff_eq, List.prefix_iff_eq_take]
  exact eq_comm

theorem historyByStringLoop_eq (rows : Nat → List Char) (str : List Char) :
    ∀ n, historyByStringLoop rows str n =
      ((List.range n).map rows).reverse.find? (fun line => strncmpEq line str str.length) := by
  intro n
  induction n with
  | zero => rfl
  | succ n ih =>
    rw [List.range_succ, List.map_append, List.reverse_append]
    simp only [List.map_cons, List.map_nil, List.reverse_cons, List.reverse_nil,
      List.nil_append, List.singleton_append, historyByStringLoop, List.find?_cons]
    by_cases h : strncmpEq (rows n) str str.length = true
    · rw [if_pos h, h]
    · rw [if_neg h]
      have hf : strncmpEq (rows n) str str.length = false := by simpa using h
      rw [hf]
      exact ih

theorem history_by_string_eq (shell : ShellState) (str : List Char) :
    history_by_string shell str =
      (historyRows shell).reverse.find? (fun line => strncmpEq line str str.length) :=
  historyByStringLoop_eq shell.command_history str shell.total_history

theorem strncmpEq_eq_startsWith (line str : List Char) :
    strncmpEq line str str.length = startsWith line str := by
  have h := strncmpEq_iff line str
  unfold startsWith
  cases h1 : strncmpEq line str str.length
  · cases h2 : str.isPrefixOf line
    · rfl
    · have := h.2 (List.isPrefixOf_iff_prefix.1 h2)
      rw [h1] at this
      cases this
  · exact (List.isPrefixOf_iff_prefix.2 (h.1 h1)).symm

theorem history_by_string_storeOf (rows : Nat → List Char) (ls : List (List Char))
    (s : List Char) :
    history_by_string (storeOf rows ls) s = mostRecentMatch (storeOf rows ls) s := by
  rw [history_by_string_eq]
  unfold mostRecentMatch
  rw [retained_storeOf, historyRows_storeOf]
  congr 1
  funext line
  exact strncmpEq_eq_startsWith line s

theorem mostRecentMatch_eq_none (shell : ShellState) (s : List Char) :
    mostRecentMatch shell s = none ↔ ∀ line ∈ retained shell, ¬ s <+: line := by
  unfold mostRecentMatch
  rw [List.find?_eq_none]
  constructor
  · intro h line hline hpre
    have := h line (List.mem_reverse.2 hline)
    rw [← strncmpEq_eq_startsWith] at this
    exact this ((strncmpEq_iff line s).2 hpre)
  · intro h line hline hcmp
    rw [← strncmpEq_eq_startsWith] at hcmp
    exact h line (List.mem_reverse.1 hline) ((strncmpEq_iff line s).1 hcmp)

/-- C12: as long as at most `100` lines have been recorded, `history_by_number(n)` is the
`n`-th recorded line for `0 < n <= K` and not found for every other `n`. What the claim says
for `K > 100` has no state to hold in: recording the 101st line aborts the process in
`free(shell->command_history[0])`, here for `100` times `a` followed by `b`. -/
theorem history_by_number_upto_capacity :
    (∀ (rows : Nat → List Char) (ls : List (List Char)) (n : Int), ls.length ≤ 100 →
      ∃ shell, recordAll rows ls = some shell ∧
        history_by_number shell n =
          if 0 < n ∧ n ≤ (ls.length : Int) then ls[(n - 1).toNat]? else none) ∧
    (∀ (rows : Nat → List Char) (ls : List (List Char)), 100 < ls.length →
      recordAll rows ls = none) ∧
    recordAll (fun _ => []) (List.replicate 100 "a".toList ++ ["b".toList]) = none := by
  refine ⟨?_, recordAll_of_gt, recordAll_of_gt _ _ (by simp)⟩
  intro rows ls n hK
  exact ⟨storeOf rows ls, recordAll_of_le rows ls hK, history_by_number_storeOf rows ls n⟩

/-- C13: as long as at most `100` lines have been recorded, the retained lines are the
recorded ones, `history_by_string(s)` is the most recently recorded line that starts with
`s`, and it is not found exactly when no retained line starts with `s`. A sequence of more
than `100` lines is never recorded: the 101st call of `add_history` aborts the process in
`free(shell->command_history[0])`, here for `99` times `x`, then `abX`, then `abY`. -/
theorem history_by_string_upto_capacity :
    (∀ (rows : Nat → List Char) (ls : List (List Char)) (s : List Char), ls.length ≤ 100 →
      ∃ shell, recordAll rows ls = some shell ∧ retained shell = ls ∧
        history_by_string shell s = mostRecentMatch shell s ∧
        history_by_string shell s = ls.reverse.find? (fun line => startsWith line s) ∧
        (history_by_string shell s = none ↔ ∀ line ∈ retained shell, ¬ s <+: line)) ∧
    recordAll (fun _ => [])
      (List.replicate 99 "x".toList ++ ["abX".toList, "abY".toList]) = none := by
  refine ⟨?_, recordAll_of_gt _ _ (by simp)⟩
  intro rows ls s hK
  refine ⟨storeOf rows ls, recordAll_of_le rows ls hK, retained_storeOf rows ls,
    history_by_string_storeOf rows ls s, ?_, ?_⟩
  · rw [history_by_string_storeOf]
    unfold mostRecentMatch
    rw [retained_storeOf]
  · rw [history_by_string_storeOf]
    exact mostRecentMatch_eq_none _ s

/-- C14: evaluation of the code on the history `ls -l`, `ls -a` and the string `ls`. The
lookup `history_by_string` returns (and `runShell` prints) `ls -a`, the first match of its
downward scan, while the loop of `execute_history_by_string` has no `break`, keeps scanning
and executes the last match of the scan, `ls -l`. -/
theorem execute_history_by_string_differs :
    (recordAll (fun _ => []) ["ls -l".toList, "ls -a".toList]).map
        (fun shell => history_by_string shell "ls".toList) = some (some "ls -a".toList) ∧
    (recordAll (fun _ => []) ["ls -l".toList, "ls -a".toList]).map
        (fun shell => commandToExecute shell "ls".toList) = some (some "ls -l".toList) ∧
    (recordAll (fun _ => []) ["ls -l".toList, "ls -a".toList]).map
        (fun shell => execute_history_by_string shell "ls".toList) =
      some (some ["ls".toList, "-l".toList]) := by
  decide

/-- C15: as long as at most `100` lines have been recorded the store holds them all, in
order. An insertion into a full store does not overwrite the oldest entry: `add_history`
first calls `free(shell->command_history[0])`, which aborts the process, so after `100`
recorded lines the next call leaves no store at all. -/
theorem add_history_full_store :
    (∀ (rows : Nat → List Char) (ls : List (List Char)), ls.length ≤ 100 →
      ∃ shell, recordAll rows ls = some shell ∧ shell.total_history = min ls.length 100 ∧
        retained shell = ls.drop (ls.length - 100)) ∧
    (∀ (shell : ShellState) (x : List Char), ¬ shell.total_history < MAX_HISTORY_LENGTH →
      add_history shell x = none) ∧
    (∀ (rows : Nat → List Char) (ls : List (List Char)) (x : List Char), ls.length = 100 →
      (recordAll rows ls).bind (fun shell => add_history shell x) = none) ∧
    (recordAll (fun _ => []) (List.replicate 100 "a".toList)).bind
      (fun shell => add_history shell "b".toList) = none := by
  have hfull : ∀ (rows : Nat → List Char) (ls : List (List Char)) (x : List Char),
      ls.length = 100 → (recordAll rows ls).bind (fun shell => add_history shell x) = none := by
    intro rows ls x hK
    rw [← recordAll_append]
    exact recordAll_of_gt _ _ (by simp [hK])
  refine ⟨?_, add_history_full, hfull, hfull _ _ _ (by simp)⟩
  intro rows ls hK
  refine ⟨storeOf rows ls, recordAll_of_le rows ls hK, ?_, ?_⟩
  · show ls.length = min ls.length 100
    omega
  · rw [retained_storeOf]
    have h0 : ls.length - 100 = 0 := by omega
    rw [h0, List.drop_zero]

/-! ## The history in a pass of `runShell` -/

theorem runShell_branch_replay (rest : List Char) :
    runShell_branch ('!' :: rest) = Branch.replay := by
  simp [runShell_branch, strncmpEq]

theorem runShell_replay_shell (shell : ShellState) (input : List Char) :
    (runShell_replay true shell input).map PassRun.shell = some shell := by
  unfold runShell_replay
  split
  · split <;> rfl
  · split
    · split <;> rfl
    · rfl

theorem runShell_branch_other (input : List Char) (h1 : input.head? ≠ some '!')
    (h2 : input ≠ "history".toList) (h3 : input ≠ "|".toList) :
    runShell_branch input ≠ Branch.history ∧ runShell_branch input ≠ Branch.replay ∧
      runShell_branch input ≠ Branch.pipeline := by
  unfold runShell_branch
  split_ifs <;> simp

/-- A line that is neither a replay, nor `history`, nor `|` leaves the store as its call of
`add_history` leaves it. -/
theorem runShell_pass_records (forkOk : Bool) (shell : ShellState) (input : List Char)
    (h1 : input.head? ≠ some '!') (h2 : input ≠ "history".toList) (h3 : input ≠ "|".toList) :
    (runShell_pass forkOk shell input).map PassRun.shell = add_history shell input := by
  obtain ⟨hb1, hb2, hb3⟩ := runShell_branch_other input h1 h2 h3
  unfold runShell_pass
  rw [if_pos ⟨h1, h2⟩]
  cases add_history shell input with
  | none => rfl
  | some shell1 =>
    simp only [Option.some_bind]
    cases hb : runShell_branch input
    · rfl
    · rfl
    · rfl
    · rfl
    · exact absurd hb hb1
    · exact absurd hb hb2
    · exact absurd hb hb3
    · rfl

/-- C16: a line that begins with `!` (the replay's `fork` succeeding) or is exactly `history`
leaves the store as it was, and a line that is neither of them nor `|` leaves it as its call
of `add_history` does, which below the capacity appends the line as the newest entry. But a
line is not always appended: when `100` lines are recorded the call of `add_history` aborts
the process in `free(shell->command_history[0])`, and the line `|` ends the process in the
pipeline branch. -/
theorem runShell_pass_history :
    (∀ (shell : ShellState) (rest : List Char),
      (runShell_pass true shell ('!' :: rest)).map PassRun.shell = some shell) ∧
    (∀ (forkOk : Bool) (shell : ShellState),
      (runShell_pass forkOk shell "history".toList).map PassRun.shell = some shell) ∧
    (∀ (forkOk : Bool) (shell : ShellState) (input : List Char),
      input.head? ≠ some '!' → input ≠ "history".toList → input ≠ "|".toList →
        (runShell_pass forkOk shell input).map PassRun.shell = add_history shell input) ∧
    (∀ (forkOk : Bool) (rows : Nat → List Char) (ls : List (List Char)) (input : List Char),
      input.head? ≠ some '!' → input ≠ "history".toList → input ≠ "|".toList →
      ls.length < 100 →
        ∃ shell, recordAll rows ls = some shell ∧
          (runShell_pass forkOk shell input).map PassRun.shell =
            recordAll rows (ls ++ [input]) ∧
          (recordAll rows (ls ++ [input])).map retained = some (ls ++ [input])) ∧
    (∀ (forkOk : Bool) (rows : Nat → List Char) (ls : List (List Char)) (input : List Char),
      input.head? ≠ some '!' → input ≠ "history".toList → ls.length = 100 →
        (recordAll rows ls).bind (fun shell => runShell_pass forkOk shell input) = none) ∧
    (∀ (forkOk : Bool) (shell : ShellState),
      runShell_pass forkOk shell "|".toList = none) ∧
    (recordAll (fun _ => []) (List.replicate 100 "a".toList)).bind
      (fun shell => runShell_pass true shell "ls".toList) = none := by
  have hfull : ∀ (forkOk : Bool) (rows : Nat → List Char) (ls : List (List Char))
      (input : List Char), input.head? ≠ some '!' → input ≠ "history".toList →
      ls.length = 100 →
        (recordAll rows ls).bind (fun shell => runShell_pass forkOk shell input) = none := by
    intro forkOk rows ls input h1 h2 hK
    rw [recordAll_of_le rows ls (by omega)]
    simp only [Option.some_bind]
    unfold runShell_pass
    rw [if_pos ⟨h1, h2⟩, add_history_full]
    · rfl
    · unfold storeOf MAX_HISTORY_LENGTH
      simp only
      omega
  refine ⟨?_, ?_, runShell_pass_records, ?_, hfull, ?_,
    hfull true _ _ _ (by decide) (by decide) (by simp)⟩
  · intro shell rest
    have hg : ¬ (('!' :: rest).head? ≠ some '!' ∧ ('!' :: rest) ≠ "history".toList) := by
      simp
    have hpass : runShell_pass true shell ('!' :: rest) =
        runShell_replay true shell ('!' :: rest) := by
      unfold runShell_pass
      rw [if_neg hg]
      simp only [Option.some_bind, runShell_branch_replay]
    rw [hpass]
    exact runShell_replay_shell shell _
  · intro forkOk shell
    have hg : ¬ ("history".toList.head? ≠ some '!' ∧ "history".toList ≠ "history".toList) := by
      simp
    unfold runShell_pass
    rw [if_neg hg]
    have hb : runShell_branch "history".toList = Branch.history := by decide
    simp only [Option.some_bind, hb]
    rfl
  · intro forkOk rows ls input h1 h2 h3 hK
    refine ⟨storeOf rows ls, recordAll_of_le rows ls (by omega), ?_, ?_⟩
    · rw [runShell_pass_records forkOk _ input h1 h2 h3, add_history_storeOf rows ls input hK,
        recordAll_of_le rows (ls ++ [input]) (by simp; omega)]
    · rw [recordAll_of_le rows (ls ++ [input]) (by simp; omega)]
      simp only [Option.map_some', retained_storeOf]
  · intro forkOk shell
    unfold runShell_pass
    have hb : runShell_branch "|".toList = Branch.pipeline := by decide
    have hg : "|".toList.head? ≠ some '!' ∧ "|".toList ≠ "history".toList := by decide
    rw [if_pos hg]
    cases add_history shell "|".toList with
    | none => rfl
    | some shell1 =>
      simp only [Option.some_bind, hb]

/-! ## Pipelines -/

theorem pipesOf_succ (env : PipeEnv) (m : Nat) :
    pipesOf env (m + 1) = pipesOf env m ++ [(env.pipeFds m).getD (0, 0)] := by
  simp [pipesOf, List.range_succ]

theorem pipeLoop_ok (env : PipeEnv) (N : Nat)
    (hp : ∀ j, j + 1 < N → (env.pipeFds j).isSome = true) :
    ∀ (fuel i : Nat), N - 1 ≤ i + fuel → i ≤ N - 1 →
      pipeLoop env (N : Int) fuel i (pipesOf env i) = (true, pipesOf env (N - 1)) := by
  intro fuel
  induction fuel with
  | zero =>
    intro i h1 h2
    have : i = N - 1 := by omega
    subst this
    rfl
  | succ fuel ih =>
    intro i h1 h2
    simp only [pipeLoop]
    by_cases hi : (i : Int) < (N : Int) - 1
    · rw [if_pos hi]
      have hiN : i + 1 < N := by omega
      have hsome := hp i hiN
      cases hfd : env.pipeFds i with
      | none => rw [hfd] at hsome; cases hsome
      | some q =>
        simp only
        have hq : pipesOf env i ++ [q] = pipesOf env (i + 1) := by
          rw [pipesOf_succ, hfd]
          rfl
        rw [hq]
        exact ih (i + 1) (by omega) (by omega)
    · rw [if_neg hi]
      have : i = N - 1 := by omega
      subst this
      rfl

theorem forkLoop_ok (env : PipeEnv) (pipes : List (Int × Int)) (N : Nat)
    (commands : List (List Char)) (hf : ∀ i, i < N → env.forkOk i = true) :
    ∀ (fuel i : Nat), N ≤ i + fuel → i ≤ N →
      forkLoop env pipes (N : Int) commands fuel i
          ((List.range i).map (childCalls pipes (N : Int) commands)) =
        (true, (List.range N).map (childCalls pipes (N : Int) commands)) := by
  intro fuel
  induction fuel with
  | zero =>
    intro i h1 h2
    have : i = N := by omega
    subst this
    rfl
  | succ fuel ih =>
    intro i h1 h2
    simp only [forkLoop]
    by_cases hi : (i : Int) < (N : Int)
    · rw [if_pos hi, if_pos (hf i (by omega))]
      have hq : (List.range i).map (childCalls pipes (N : Int) commands) ++
          [childCalls pipes (N : Int) commands i] =
          (List.range (i + 1)).map (childCalls pipes (N : Int) commands) := by
        simp [List.range_succ]
      rw [hq]
      exact ih (i + 1) (by omega) (by omega)
    · rw [if_neg hi]
      have : i = N := by omega
      subst this
      rfl

/-- The run of `execute_piped_commands` when every `pipe` and every `fork` succeeds. -/
theorem execute_piped_commands_ok (env : PipeEnv) (commands : List (List Char)) (N : Nat)
    (hN : 2 ≤ N) (hp : ∀ j, j + 1 < N → (env.pipeFds j).isSome = true)
    (hf : ∀ i, i < N → env.forkOk i = true) :
    execute_piped_commands env commands (N : Int) =
      { ret := 0,
        parent := (pipesOf env (N - 1)).map (fun q => Syscall.pipe q.1 q.2) ++
          (List.range N).map Syscall.fork ++ closeAllLoop (pipesOf env (N - 1)) (N - 1) ++
          List.replicate N Syscall.wait,
        children := (List.range N).map (childCalls (pipesOf env (N - 1)) (N : Int) commands) } := by
  unfold execute_piped_commands
  have h2 : ¬ ((N : Int) < 2) := by omega
  have hn1 : ((N : Int) - 1).toNat = N - 1 := by omega
  have hn : ((N : Int)).toNat = N := by omega
  rw [if_neg h2, hn1, hn]
  have hpl := pipeLoop_ok env N hp (N - 1) 0 (by omega) (by omega)
  have hp0 : pipesOf env 0 = [] := rfl
  rw [hp0] at hpl
  rw [hpl]
  simp only
  have hfl := forkLoop_ok env (pipesOf env (N - 1)) N commands hf N 0 (by omega) (by omega)
  simp only [List.range_zero, List.map_nil] at hfl
  rw [hfl]
  simp

/-- C17, as stated, fails: in a two-stage pipeline whose final stage exits with status 3,
`execute_piped_commands` returns 0, and so does `handlePipes`. -/
theorem pipeline_status_counterexample :
    ({ pipeFds := fun j => some (3 + 2 * (j : Int), 4 + 2 * (j : Int)),
       forkOk := fun _ => true, exitStatus := fun i => if i = 1 then 3 else 0 } : PipeEnv).exitStatus
        1 = 3 ∧
    (execute_piped_commands
        { pipeFds := fun j => some (3 + 2 * (j : Int), 4 + 2 * (j : Int)),
          forkOk := fun _ => true, exitStatus := fun i => if i = 1 then 3 else 0 }
        ["true".toList, "exit 3".toList] 2).ret = 0 ∧
    (execute_piped_commands
        { pipeFds := fun j => some (3 + 2 * (j : Int), 4 + 2 * (j : Int)),
          forkOk := fun _ => true, exitStatus := fun i => if i = 1 then 3 else 0 }
        ["true".toList, "exit 3".toList] 2).children.length = 2 ∧
    handlePipes
        { pipeFds := fun j => some (3 + 2 * (j : Int), 4 + 2 * (j : Int)),
          forkOk := fun _ => true, exitStatus := fun i => if i = 1 then 3 else 0 }
        "true | exit 3".toList = (0, ["true ".toList, " exit 3".toList]) := by
  decide

theorem handlePipesLoop_ok (env : PipeEnv)
    (hp : ∀ j, j < MAX_PIPED_COMMANDS → (env.pipeFds j).isSome = true)
    (hf : ∀ i, i < MAX_PIPED_COMMANDS → env.forkOk i = true) :
    ∀ (fuel : Nat) (token : Option (List Char)) (rest : List Char) (num_childs : Nat)
      (spawned : List (List Char)),
      (handlePipesLoop env fuel token rest num_childs spawned).1 = 0 := by
  intro fuel
  induction fuel with
  | zero => intro token rest num_childs spawned; rfl
  | succ fuel ih =>
    intro token rest num_childs spawned
    cases token with
    | none => rfl
    | some t =>
      simp only [handlePipesLoop]
      by_cases hn : num_childs < MAX_PIPED_COMMANDS
      · rw [if_pos hn]
        have hsome := hp num_childs hn
        cases hfd : env.pipeFds num_childs with
        | none => rw [hfd] at hsome; cases hsome
        | some q =>
          simp only
          rw [if_pos (hf num_childs hn)]
          exact ih _ _ _ _
      · rw [if_neg hn]

/-- C17, amended: for every pipeline of `N >= 2` stages in which every `pipe` and `fork`
succeeds, `execute_piped_commands` returns 0 whatever the exit statuses of the stages are,
and so does `handlePipes`; the exit status of the final stage is not reported. -/
theorem pipeline_returns_zero (env : PipeEnv) (commands : List (List Char)) (N : Nat)
    (command : List Char) (hN : 2 ≤ N)
    (hp : ∀ j, (env.pipeFds j).isSome = true) (hf : ∀ i, env.forkOk i = true) :
    (∀ status : Nat → Int,
      (execute_piped_commands { env with exitStatus := status } commands (N : Int)).ret = 0) ∧
    (∀ status : Nat → Int, (handlePipes { env with exitStatus := status } command).1 = 0) := by
  constructor
  · intro status
    rw [execute_piped_commands_ok { env with exitStatus := status } commands N hN
      (fun j _ => hp j) (fun i _ => hf i)]
  · intro status
    exact handlePipesLoop_ok { env with exitStatus := status } (fun j _ => hp j)
      (fun i _ => hf i) _ _ _ _ _

theorem pipeline_returns_zero_witness :
    (2 : Nat) ≤ 3 ∧
      (execute_piped_commands
        { pipeFds := fun j => some (3 + 2 * (j : Int), 4 + 2 * (j : Int)),
          forkOk := fun _ => true, exitStatus := fun _ => 1 }
        ["ls".toList, "sort".toList, "wc".toList] ((3 : Nat) : Int)).ret = 0 :=
  ⟨by decide,
    (pipeline_returns_zero
      { pipeFds := fun j => some (3 + 2 * (j : Int), 4 + 2 * (j : Int)),
        forkOk := fun _ => true, exitStatus := fun _ => 0 }
      ["ls".toList, "sort".toList, "wc".toList] 3 [] (by decide) (fun _ => rfl)
      (fun _ => rfl)).1 (fun _ => 1)⟩

/-! ## Descriptors of a pipeline child -/

theorem freshEnds_of_childStart (pipes : List (Int × Int)) (N : Nat) (t : Int → Option Stream)
    (h : ChildStart pipes N t) : FreshEnds pipes N := by
  obtain ⟨h0, h1, hp⟩ := h
  constructor
  · intro j k hj hk he
    have a := (hp j hj).1
    have b := (hp k hk).1
    rw [he, b] at a
    exact (Stream.pipeRead.inj (Option.some.inj a)).symm
  · intro j k hj hk he
    have a := (hp j hj).2
    have b := (hp k hk).2
    rw [he, b] at a
    exact (Stream.pipeWrite.inj (Option.some.inj a)).symm
  · intro j k hj hk he
    have a := (hp j hj).1
    have b := (hp k hk).2
    rw [he, b] at a
    cases a
  · intro j hj
    have a := (hp j hj).1
    constructor
    · intro he
      rw [he, h0] at a
      cases a
    · intro he
      rw [he, h1] at a
      cases a
  · intro j hj
    have a := (hp j hj).2
    constructor
    · intro he
      rw [he, h0] at a
      cases a
    · intro he
      rw [he, h1] at a
      cases a

theorem applyCalls_append (t : Int → Option Stream) (a b : List Syscall) :
    applyCalls t (a ++ b) = applyCalls (applyCalls t a) b := by
  simp [applyCalls, List.foldl_append]

theorem applyCalls_cons (t : Int → Option Stream) (c : Syscall) (l : List Syscall) :
    applyCalls t (c :: l) = applyCalls (applyCall t c) l := rfl

/-- A descriptor that no call closes and no `dup2` targets keeps what it refers to. -/
theorem applyCalls_frame (fd : Int) :
    ∀ (calls : List Syscall) (t : Int → Option Stream),
      (∀ c ∈ calls, c ≠ Syscall.close fd ∧ ∀ old, c ≠ Syscall.dup2 old fd) →
      applyCalls t calls fd = t fd := by
  intro calls
  induction calls with
  | nil => intro t _; rfl
  | cons c l ih =>
    intro t h
    rw [applyCalls_cons, ih _ (fun c1 hc1 => h c1 (List.mem_cons_of_mem _ hc1))]
    have hc := h c (List.mem_cons_self _ _)
    cases c with
    | dup2 oldfd newfd =>
      have hne : fd ≠ newfd := by
        intro he
        exact hc.2 oldfd (by rw [he])
      simp only [applyCall]
      cases t oldfd with
      | none => rfl
      | some r => simp [hne]
    | close fd0 =>
      have hne : fd ≠ fd0 := by
        intro he
        exact hc.1 (by rw [he])
      simp [applyCall, hne]
    | pipe a b => rfl
    | pipeFailed => rfl
    | fork k => rfl
    | forkFailed => rfl
    | wait => rfl
    | execvp args => rfl

/-- A closed descriptor that no `dup2` targets stays closed. -/
theorem applyCalls_none (fd : Int) :
    ∀ (calls : List Syscall) (t : Int → Option Stream), t fd = none →
      (∀ c ∈ calls, ∀ old, c ≠ Syscall.dup2 old fd) → applyCalls t calls fd = none := by
  intro calls
  induction calls with
  | nil => intro t h _; exact h
  | cons c l ih =>
    intro t ht h
    rw [applyCalls_cons]
    apply ih _ _ (fun c1 hc1 => h c1 (List.mem_cons_of_mem _ hc1))
    have hc := h c (List.mem_cons_self _ _)
    cases c with
    | dup2 oldfd newfd =>
      have hne : fd ≠ newfd := by
        intro he
        exact hc oldfd (by rw [he])
      simp only [applyCall]
      cases t oldfd with
      | none => exact ht
      | some r => simp [hne, ht]
    | close fd0 =>
      simp only [applyCall]
      split <;> simp [ht]
    | pipe a b => exact ht
    | pipeFailed => exact ht
    | fork k => exact ht
    | forkFailed => exact ht
    | wait => exact ht
    | execvp args => exact ht

/-- A descriptor that some call closes and no `dup2` targets ends up closed. -/
theorem applyCalls_closed (fd : Int) :
    ∀ (calls : List Syscall) (t : Int → Option Stream),
      (∀ c ∈ calls, ∀ old, c ≠ Syscall.dup2 old fd) → Syscall.close fd ∈ calls →
      applyCalls t calls fd = none := by
  intro calls
  induction calls with
  | nil => intro t _ h; cases h
  | cons c l ih =>
    intro t h hmem
    have hl : ∀ c1 ∈ l, ∀ old, c1 ≠ Syscall.dup2 old fd :=
      fun c1 hc1 => h c1 (List.mem_cons_of_mem _ hc1)
    rw [applyCalls_cons]
    rcases List.mem_cons.1 hmem with he | hin
    · apply applyCalls_none fd l _ _ hl
      rw [← he]
      simp [applyCall]
    · exact ih _ hl hin

theorem mem_closeOthersLoop (pipes : List (Int × Int)) (i : Int) (c : Syscall) :
    ∀ m, c ∈ closeOthersLoop pipes i m →
      ∃ k, k < m ∧ (c = Syscall.close (readEnd pipes k) ∨ c = Syscall.close (writeEnd pipes k)) := by
  intro m
  induction m with
  | zero => intro h; cases h
  | succ m ih =>
    intro h
    simp only [closeOthersLoop, List.mem_append] at h
    rcases h with (h | h) | h
    · obtain ⟨k, hk, hc⟩ := ih h
      exact ⟨k, by omega, hc⟩
    · split at h
      · rw [List.mem_singleton] at h
        exact ⟨m, by omega, Or.inl h⟩
      · cases h
    · split at h
      · rw [List.mem_singleton] at h
        exact ⟨m, by omega, Or.inr h⟩
      · cases h

theorem close_read_mem_closeOthersLoop (pipes : List (Int × Int)) (i : Int) (k : Nat)
    (hk : (k : Int) ≠ i - 1) :
    ∀ m, k < m → Syscall.close (readEnd pipes k) ∈ closeOthersLoop pipes i m := by
  intro m
  induction m with
  | zero => intro h; omega
  | succ m ih =>
    intro h
    simp only [closeOthersLoop, List.mem_append]
    by_cases hkm : k = m
    · subst hkm
      left; right
      rw [if_pos hk]
      exact List.mem_singleton.2 rfl
    · left; left
      exact ih (by omega)

theorem close_write_mem_closeOthersLoop (pipes : List (Int × Int)) (i : Int) (k : Nat)
    (hk : (k : Int) ≠ i) :
    ∀ m, k < m → Syscall.close (writeEnd pipes k) ∈ closeOthersLoop pipes i m := by
  intro m
  induction m with
  | zero => intro h; omega
  | succ m ih =>
    intro h
    simp only [closeOthersLoop, List.mem_append]
    by_cases hkm : k = m
    · subst hkm
      right
      rw [if_pos hk]
      exact List.mem_singleton.2 rfl
    · left; left
      exact ih (by omega)

theorem count_close_read_closeOthersLoop (pipes : List (Int × Int)) (N : Nat)
    (hfresh : FreshEnds pipes N) (i : Int) (j : Nat) (hj : j + 1 < N) :
    ∀ m, m + 1 ≤ N →
      (closeOthersLoop pipes i m).count (Syscall.close (readEnd pipes j)) =
        if j < m ∧ (j : Int) ≠ i - 1 then 1 else 0 := by
  intro m
  induction m with
  | zero => intro _; simp [closeOthersLoop]
  | succ m ih =>
    intro hm
    have hmN : m + 1 < N := by omega
    simp only [closeOthersLoop, List.count_append]
    rw [ih (by omega)]
    have hw : (if (m : Int) ≠ i then [Syscall.close (writeEnd pipes m)] else []).count
        (Syscall.close (readEnd pipes j)) = 0 := by
      have hne := hfresh.rd_ne_wr j m hj hmN
      split
      · rw [List.count_singleton]
        simp [Ne.symm hne]
      · rfl
    rw [hw]
    by_cases hjm : j = m
    · subst hjm
      by_cases hji : (j : Int) ≠ i - 1
      · rw [if_pos hji, if_neg (by omega), if_pos ⟨by omega, hji⟩, List.count_singleton]
        simp
      · rw [if_neg hji, if_neg (by omega), if_neg (fun h => hji h.2)]
        rfl
    · have hr : (if (m : Int) ≠ i - 1 then [Syscall.close (readEnd pipes m)] else []).count
          (Syscall.close (readEnd pipes j)) = 0 := by
        have hne : readEnd pipes m ≠ readEnd pipes j :=
          fun he => hjm (hfresh.rd_inj m j hmN hj he).symm
        split
        · rw [List.count_singleton]
          simp [hne]
        · rfl
      rw [hr]
      by_cases hc : j < m ∧ (j : Int) ≠ i - 1
      · rw [if_pos hc, if_pos ⟨by omega, hc.2⟩]
      · rw [if_neg hc, if_neg (by omega)]

theorem count_close_write_closeOthersLoop (pipes : List (Int × Int)) (N : Nat)
    (hfresh : FreshEnds pipes N) (i : Int) (j : Nat) (hj : j + 1 < N) :
    ∀ m, m + 1 ≤ N →
      (closeOthersLoop pipes i m).count (Syscall.close (writeEnd pipes j)) =
        if j < m ∧ (j : Int) ≠ i then 1 else 0 := by
  intro m
  induction m with
  | zero => intro _; simp [closeOthersLoop]
  | succ m ih =>
    intro hm
    have hmN : m + 1 < N := by omega
    simp only [closeOthersLoop, List.count_append]
    rw [ih (by omega)]
    have hr : (if (m : Int) ≠ i - 1 then [Syscall.close (readEnd pipes m)] else []).count
        (Syscall.close (writeEnd pipes j)) = 0 := by
      have hne := hfresh.rd_ne_wr m j hmN hj
      split
      · rw [List.count_singleton]
        simp [hne]
      · rfl
    rw [hr]
    by_cases hjm : j = m
    · subst hjm
      by_cases hji : (j : Int) ≠ i
      · rw [if_pos hji, if_neg (by omega), if_pos ⟨by omega, hji⟩, List.count_singleton]
        simp
      · rw [if_neg hji, if_neg (by omega), if_neg (fun h => hji h.2)]
        rfl
    · have hw : (if (m : Int) ≠ i then [Syscall.close (writeEnd pipes m)] else []).count
          (Syscall.close (writeEnd pipes j)) = 0 := by
        have hne : writeEnd pipes m ≠ writeEnd pipes j :=
          fun he => hjm (hfresh.wr_inj m j hmN hj he).symm
        split
        · rw [List.count_singleton]
          simp [hne]
        · rfl
      rw [hw]
      by_cases hc : j < m ∧ (j : Int) ≠ i
      · rw [if_pos hc, if_pos ⟨by omega, hc.2⟩]
      · rw [if_neg hc, if_neg (by omega)]

theorem count_close_closeAllLoop (pipes : List (Int × Int)) (N : Nat)
    (hfresh : FreshEnds pipes N) (j : Nat) (hj : j + 1 < N) :
    ∀ m, m + 1 ≤ N →
      (closeAllLoop pipes m).count (Syscall.close (readEnd pipes j)) = (if j < m then 1 else 0) ∧
      (closeAllLoop pipes m).count (Syscall.close (writeEnd pipes j)) =
        (if j < m then 1 else 0) := by
  intro m
  induction m with
  | zero => intro _; simp [closeAllLoop]
  | succ m ih =>
    intro hm
    have hmN : m + 1 < N := by omega
    obtain ⟨ih1, ih2⟩ := ih (by omega)
    simp only [closeAllLoop, List.count_append, List.count_cons, List.count_nil, ih1, ih2,
      beq_iff_eq, Syscall.close.injEq]
    have h1 := hfresh.rd_ne_wr j m hj hmN
    have h2 := hfresh.rd_ne_wr m j hmN hj
    by_cases hjm : j = m
    · subst hjm
      simp [h1, h1.symm]
    · have h3 : readEnd pipes m ≠ readEnd pipes j :=
        fun he => hjm (hfresh.rd_inj m j hmN hj he).symm
      have h4 : writeEnd pipes m ≠ writeEnd pipes j :=
        fun he => hjm (hfresh.wr_inj m j hmN hj he).symm
      have h5 : (j < m + 1) = (j < m) := by
        apply propext
        omega
      simp [h1.symm, h2, h3, h4, h5]

theorem closeOthersLoop_frame (pipes : List (Int × Int)) (N : Nat) (i : Int) (fd : Int)
    (hfd : ∀ k, k + 1 < N → fd ≠ readEnd pipes k ∧ fd ≠ writeEnd pipes k)
    (t : Int → Option Stream) :
    applyCalls t (closeOthersLoop pipes i (N - 1)) fd = t fd := by
  apply applyCalls_frame
  intro c hc
  obtain ⟨k, hk, hck⟩ := mem_closeOthersLoop pipes i c (N - 1) hc
  have hk1 := hfd k (by omega)
  rcases hck with h | h
  · subst h
    exact ⟨fun he => hk1.1 (Syscall.close.inj he).symm, fun old he => by cases he⟩
  · subst h
    exact ⟨fun he => hk1.2 (Syscall.close.inj he).symm, fun old he => by cases he⟩

theorem mem_childSetup (pipes : List (Int × Int)) (N i : Nat) (hi : i < N) (c : Syscall)
    (hc : c ∈ childSetup pipes (N : Int) i) :
    (∃ x, c = Syscall.dup2 x 0) ∨ (∃ x, c = Syscall.dup2 x 1) ∨
      ∃ k, k + 1 < N ∧
        (c = Syscall.close (readEnd pipes k) ∨ c = Syscall.close (writeEnd pipes k)) := by
  unfold childSetup at hc
  have hn1 : ((N : Int) - 1).toNat = N - 1 := by omega
  rw [hn1] at hc
  simp only [List.mem_append] at hc
  rcases hc with (h | h) | h
  · split at h
    · simp only [List.mem_cons, List.mem_singleton, List.not_mem_nil, or_false] at h
      rcases h with h | h
      · exact Or.inl ⟨_, h⟩
      · exact Or.inr (Or.inr ⟨i - 1, by omega, Or.inl h⟩)
    · cases h
  · split at h
    · simp only [List.mem_cons, List.mem_singleton, List.not_mem_nil, or_false] at h
      rcases h with h | h
      · exact Or.inr (Or.inl ⟨_, h⟩)
      · exact Or.inr (Or.inr ⟨i, by omega, Or.inr h⟩)
    · cases h
  · obtain ⟨k, hk, hck⟩ := mem_closeOthersLoop pipes i c (N - 1) h
    exact Or.inr (Or.inr ⟨k, by omega, hck⟩)

theorem childSetup_no_dup2 (pipes : List (Int × Int)) (N i : Nat) (hi : i < N) (fd : Int)
    (h0 : fd ≠ 0) (h1 : fd ≠ 1) :
    ∀ c ∈ childSetup pipes (N : Int) i, ∀ old, c ≠ Syscall.dup2 old fd := by
  intro c hc old he
  subst he
  rcases mem_childSetup pipes N i hi _ hc with ⟨x, hx⟩ | ⟨x, hx⟩ | ⟨k, -, hx | hx⟩
  · exact h0 (Syscall.dup2.inj hx).2
  · exact h1 (Syscall.dup2.inj hx).2
  · cases hx
  · cases hx

theorem close_read_mem_childSetup (pipes : List (Int × Int)) (N i j : Nat) (hj : j + 1 < N) :
    Syscall.close (readEnd pipes j) ∈ childSetup pipes (N : Int) i := by
  unfold childSetup
  have hn1 : ((N : Int) - 1).toNat = N - 1 := by omega
  rw [hn1]
  simp only [List.mem_append]
  by_cases hji : (j : Int) = (i : Int) - 1
  · left; left
    have hi0 : i > 0 := by omega
    have hij : i - 1 = j := by omega
    rw [if_pos hi0, hij]
    simp
  · right
    exact close_read_mem_closeOthersLoop pipes i j hji (N - 1) (by omega)

theorem close_write_mem_childSetup (pipes : List (Int × Int)) (N i j : Nat) (hj : j + 1 < N) :
    Syscall.close (writeEnd pipes j) ∈ childSetup pipes (N : Int) i := by
  unfold childSetup
  have hn1 : ((N : Int) - 1).toNat = N - 1 := by omega
  rw [hn1]
  simp only [List.mem_append]
  by_cases hji : (j : Int) = (i : Int)
  · left; right
    have hij : i = j := by omega
    have hlt : (i : Int) < (N : Int) - 1 := by omega
    rw [if_pos hlt, hij]
    simp
  · right
    exact close_write_mem_closeOthersLoop pipes i j hji (N - 1) (by omega)

theorem childSetup_count (pipes : List (Int × Int)) (N i : Nat) (hi : i < N)
    (hfresh : FreshEnds pipes N) (j : Nat) (hj : j + 1 < N) :
    (childSetup pipes (N : Int) i).count (Syscall.close (readEnd pipes j)) = 1 ∧
    (childSetup pipes (N : Int) i).count (Syscall.close (writeEnd pipes j)) = 1 := by
  unfold childSetup
  have hn1 : ((N : Int) - 1).toNat = N - 1 := by omega
  rw [hn1]
  simp only [List.count_append]
  rw [count_close_read_closeOthersLoop pipes N hfresh i j hj (N - 1) (by omega),
    count_close_write_closeOthersLoop pipes N hfresh i j hj (N - 1) (by omega)]
  have hAr : (if i > 0 then
        [Syscall.dup2 (readEnd pipes (i - 1)) 0, Syscall.close (readEnd pipes (i - 1))]
      else []).count (Syscall.close (readEnd pipes j)) =
      if (j : Int) = (i : Int) - 1 then 1 else 0 := by
    by_cases hi0 : i > 0
    · rw [if_pos hi0]
      by_cases hji : (j : Int) = (i : Int) - 1
      · have hij : i - 1 = j := by omega
        rw [if_pos hji, hij]
        simp [List.count_cons]
      · have hne : readEnd pipes (i - 1) ≠ readEnd pipes j := by
          intro he
          have := hfresh.rd_inj (i - 1) j (by omega) hj he
          omega
        rw [if_neg hji]
        simp [List.count_cons, hne]
    · rw [if_neg hi0, if_neg (by omega)]
      rfl
  have hBr : (if (i : Int) < (N : Int) - 1 then
        [Syscall.dup2 (writeEnd pipes i) 1, Syscall.close (writeEnd pipes i)]
      else []).count (Syscall.close (readEnd pipes j)) = 0 := by
    split
    · have hne := hfresh.rd_ne_wr j i hj (by omega)
      simp [List.count_cons, Ne.symm hne]
    · rfl
  have hAw : (if i > 0 then
        [Syscall.dup2 (readEnd pipes (i - 1)) 0, Syscall.close (readEnd pipes (i - 1))]
      else []).count (Syscall.close (writeEnd pipes j)) = 0 := by
    split
    · have hne := hfresh.rd_ne_wr (i - 1) j (by omega) hj
      simp [List.count_cons, hne]
    · rfl
  have hBw : (if (i : Int) < (N : Int) - 1 then
        [Syscall.dup2 (writeEnd pipes i) 1, Syscall.close (writeEnd pipes i)]
      else []).count (Syscall.close (writeEnd pipes j)) =
      if (j : Int) = (i : Int) then 1 else 0 := by
    by_cases hlt : (i : Int) < (N : Int) - 1
    · rw [if_pos hlt]
      by_cases hji : (j : Int) = (i : Int)
      · have hij : i = j := by omega
        rw [if_pos hji, hij]
        simp [List.count_cons]
      · have hne : writeEnd pipes i ≠ writeEnd pipes j := by
          intro he
          have := hfresh.wr_inj i j (by omega) hj he
          omega
        rw [if_neg hji]
        simp [List.count_cons, hne]
    · rw [if_neg hlt, if_neg (by omega)]
      rfl
  rw [hAr, hBr, hAw, hBw]
  constructor
  · split_ifs <;> omega
  · split_ifs <;> omega

theorem childSetup_stdin (pipes : List (Int × Int)) (N i : Nat) (hi : i < N)
    (t0 : Int → Option Stream) (h0 : ChildStart pipes N t0) :
    applyCalls t0 (childSetup pipes (N : Int) i) 0 =
      some (if i > 0 then Stream.pipeRead (i - 1) else Stream.inheritedInput) := by
  have hfresh := freshEnds_of_childStart pipes N t0 h0
  unfold childSetup
  have hn1 : ((N : Int) - 1).toNat = N - 1 := by omega
  rw [hn1, applyCalls_append, applyCalls_append,
    closeOthersLoop_frame pipes N i 0
      (fun k hk => ⟨(hfresh.rd_ne_std k hk).1.symm, (hfresh.wr_ne_std k hk).1.symm⟩)]
  have hB : ∀ t : Int → Option Stream,
      applyCalls t (if (i : Int) < (N : Int) - 1 then
          [Syscall.dup2 (writeEnd pipes i) 1, Syscall.close (writeEnd pipes i)]
        else []) 0 = t 0 := by
    intro t
    apply applyCalls_frame
    intro c hc
    split at hc
    · rename_i hlt
      have hw := (hfresh.wr_ne_std i (by omega)).1
      simp only [List.mem_cons, List.mem_singleton, List.not_mem_nil, or_false] at hc
      rcases hc with hc | hc
      · subst hc
        exact ⟨fun he => (by cases he), fun old he => (by cases he)⟩
      · subst hc
        exact ⟨fun he => hw (Syscall.close.inj he), fun old he => by cases he⟩
    · cases hc
  rw [hB]
  by_cases hi0 : i > 0
  · rw [if_pos hi0, if_pos hi0]
    have hr := (h0.2.2 (i - 1) (by omega)).1
    have hne := (hfresh.rd_ne_std (i - 1) (by omega)).1
    simp [applyCalls, applyCall, hr, Ne.symm hne]
  · rw [if_neg hi0, if_neg hi0]
    exact h0.1

theorem childSetup_stdout (pipes : List (Int × Int)) (N i : Nat) (hi : i < N)
    (t0 : Int → Option Stream) (h0 : ChildStart pipes N t0) :
    applyCalls t0 (childSetup pipes (N : Int) i) 1 =
      some (if i + 1 < N then Stream.pipeWrite i else Stream.inheritedOutput) := by
  have hfresh := freshEnds_of_childStart pipes N t0 h0
  unfold childSetup
  have hn1 : ((N : Int) - 1).toNat = N - 1 := by omega
  rw [hn1, applyCalls_append, applyCalls_append,
    closeOthersLoop_frame pipes N i 1
      (fun k hk => ⟨(hfresh.rd_ne_std k hk).2.symm, (hfresh.wr_ne_std k hk).2.symm⟩)]
  have hA : ∀ fd : Int, fd ≠ 0 → (i > 0 → fd ≠ readEnd pipes (i - 1)) →
      applyCalls t0 (if i > 0 then
          [Syscall.dup2 (readEnd pipes (i - 1)) 0, Syscall.close (readEnd pipes (i - 1))]
        else []) fd = t0 fd := by
    intro fd hfd0 hfdr
    apply applyCalls_frame
    intro c hc
    split at hc
    · rename_i hi0
      simp only [List.mem_cons, List.mem_singleton, List.not_mem_nil, or_false] at hc
      rcases hc with hc | hc
      · subst hc
        exact ⟨fun he => (by cases he), fun old he => hfd0 (Syscall.dup2.inj he).2.symm⟩
      · subst hc
        exact ⟨fun he => hfdr hi0 (Syscall.close.inj he).symm, fun old he => by cases he⟩
    · cases hc
  by_cases hlt : (i : Int) < (N : Int) - 1
  · have hiN : i + 1 < N := by omega
    rw [if_pos hlt, if_pos hiN]
    have hw := (h0.2.2 i hiN).2
    have hne := (hfresh.wr_ne_std i hiN)
    have hAw := hA (writeEnd pipes i) hne.1
      (fun hi0 he => hfresh.rd_ne_wr (i - 1) i (by omega) hiN he.symm)
    simp only [applyCalls, List.foldl_cons, List.foldl_nil] at hAw ⊢
    simp only [applyCall, hAw, hw]
    simp [Ne.symm hne.2]
  · have hiN : ¬ i + 1 < N := by omega
    rw [if_neg hlt, if_neg hiN]
    have := hA 1 (by decide) (fun hi0 => (hfresh.rd_ne_std (i - 1) (by omega)).2.symm)
    simp only [applyCalls, List.foldl_nil] at this ⊢
    rw [this]
    exact h0.2.1

/-- Child `i` of an `N`-stage pipeline is wired as the pipeline asks. -/
theorem childCalls_wired (pipes : List (Int × Int)) (N i : Nat) (hi : i < N)
    (commands : List (List Char)) (t0 : Int → Option Stream) (h0 : ChildStart pipes N t0) :
    ChildWired pipes N i t0 (childCalls pipes (N : Int) commands i) := by
  have hfresh := freshEnds_of_childStart pipes N t0 h0
  have hexec : ∀ fd, applyCalls t0 (childCalls pipes (N : Int) commands i) fd =
      applyCalls t0 (childSetup pipes (N : Int) i) fd := by
    intro fd
    unfold childCalls
    rw [applyCalls_append]
    rfl
  have hcount : ∀ c : Syscall, (∀ args, c ≠ Syscall.execvp args) →
      (childCalls pipes (N : Int) commands i).count c =
        (childSetup pipes (N : Int) i).count c := by
    intro c hc
    unfold childCalls
    rw [List.count_append, List.count_singleton]
    have : (Syscall.execvp (tokenise_command (commands.getD i [])).2 == c) = false := by
      rw [beq_eq_false_iff_ne]
      exact fun he => hc _ he.symm
    rw [this]
    rfl
  refine ⟨?_, ?_, ?_⟩
  · rw [hexec]
    exact childSetup_stdin pipes N i hi t0 h0
  · rw [hexec]
    exact childSetup_stdout pipes N i hi t0 h0
  · intro j hj
    have hc := childSetup_count pipes N i hi hfresh j hj
    refine ⟨?_, ?_, ?_, ?_⟩
    · rw [hexec]
      exact applyCalls_closed _ _ _
        (childSetup_no_dup2 pipes N i hi _ (hfresh.rd_ne_std j hj).1 (hfresh.rd_ne_std j hj).2)
        (close_read_mem_childSetup pipes N i j hj)
    · rw [hexec]
      exact applyCalls_closed _ _ _
        (childSetup_no_dup2 pipes N i hi _ (hfresh.wr_ne_std j hj).1 (hfresh.wr_ne_std j hj).2)
        (close_write_mem_childSetup pipes N i j hj)
    · rw [hcount _ (fun args he => by cases he)]
      exact hc.1
    · rw [hcount _ (fun args he => by cases he)]
      exact hc.2

theorem mem_closeAllLoop (pipes : List (Int × Int)) (c : Syscall) :
    ∀ m, c ∈ closeAllLoop pipes m → ∃ fd, c = Syscall.close fd := by
  intro m
  induction m with
  | zero => intro h; cases h
  | succ m ih =>
    intro h
    simp only [closeAllLoop, List.mem_append, List.mem_cons, List.mem_singleton,
      List.not_mem_nil, or_false] at h
    rcases h with h | h | h
    · exact ih h
    · exact ⟨_, h⟩
    · exact ⟨_, h⟩

/-- C18: when every `pipe` and `fork` of an `N`-stage pipeline (`N >= 2`) succeeds,
`execute_piped_commands` creates exactly `N - 1` pipes and `N` children; in child `i`
descriptor 0 is the read end of pipe `i - 1` (the inherited input for `i = 0`) and
descriptor 1 is the write end of pipe `i` (the inherited output for `i = N - 1`); and each of
the `2 (N - 1)` pipe descriptors is closed by exactly one `close` call in every child, which
leaves it closed, and by exactly one `close` call in the calling process. -/
theorem execute_piped_commands_wiring (env : PipeEnv) (commands : List (List Char)) (N : Nat)
    (hN : 2 ≤ N) (hp : ∀ j, j + 1 < N → (env.pipeFds j).isSome = true)
    (hf : ∀ i, i < N → env.forkOk i = true)
    (t0 : Int → Option Stream) (h0 : ChildStart (pipesOf env (N - 1)) N t0) :
    (execute_piped_commands env commands (N : Int)).parent.countP isPipeCall = N - 1 ∧
    (execute_piped_commands env commands (N : Int)).children.length = N ∧
    (∀ i, i < N →
      ChildWired (pipesOf env (N - 1)) N i t0
        ((execute_piped_commands env commands (N : Int)).children.getD i [])) ∧
    (∀ j, j + 1 < N →
      (execute_piped_commands env commands (N : Int)).parent.count
          (Syscall.close (readEnd (pipesOf env (N - 1)) j)) = 1 ∧
      (execute_piped_commands env commands (N : Int)).parent.count
          (Syscall.close (writeEnd (pipesOf env (N - 1)) j)) = 1) := by
  have hfresh := freshEnds_of_childStart _ N t0 h0
  rw [execute_piped_commands_ok env commands N hN hp hf]
  simp only
  have hnotclose1 : ∀ fd, Syscall.close fd ∉
      (pipesOf env (N - 1)).map (fun q => Syscall.pipe q.1 q.2) := by
    intro fd hmem
    obtain ⟨q, -, hq⟩ := List.mem_map.1 hmem
    cases hq
  have hnotclose2 : ∀ fd, Syscall.close fd ∉ (List.range N).map Syscall.fork := by
    intro fd hmem
    obtain ⟨q, -, hq⟩ := List.mem_map.1 hmem
    cases hq
  have hnotclose3 : ∀ fd, Syscall.close fd ∉ List.replicate N Syscall.wait := by
    intro fd hmem
    have := List.eq_of_mem_replicate hmem
    cases this
  refine ⟨?_, ?_, ?_, ?_⟩
  · rw [List.countP_append, List.countP_append, List.countP_append]
    have h1 : ((pipesOf env (N - 1)).map (fun q => Syscall.pipe q.1 q.2)).countP isPipeCall =
        N - 1 := by
      have hlen : ((pipesOf env (N - 1)).map (fun q => Syscall.pipe q.1 q.2)).length = N - 1 := by
        simp [pipesOf]
      have hall : ((pipesOf env (N - 1)).map (fun q => Syscall.pipe q.1 q.2)).countP isPipeCall =
          ((pipesOf env (N - 1)).map (fun q => Syscall.pipe q.1 q.2)).length := by
        apply List.countP_eq_length.2
        intro c hc
        obtain ⟨q, -, rfl⟩ := List.mem_map.1 hc
        rfl
      rw [hall, hlen]
    have h2 : ((List.range N).map Syscall.fork).countP isPipeCall = 0 := by
      apply List.countP_eq_zero.2
      intro c hc
      obtain ⟨q, -, rfl⟩ := List.mem_map.1 hc
      simp [isPipeCall]
    have h3 : (closeAllLoop (pipesOf env (N - 1)) (N - 1)).countP isPipeCall = 0 := by
      apply List.countP_eq_zero.2
      intro c hc
      obtain ⟨fd, rfl⟩ := mem_closeAllLoop _ c _ hc
      simp [isPipeCall]
    have h4 : (List.replicate N Syscall.wait).countP isPipeCall = 0 := by
      apply List.countP_eq_zero.2
      intro c hc
      have := List.eq_of_mem_replicate hc
      subst this
      simp [isPipeCall]
    rw [h1, h2, h3, h4]
    rfl
  · simp
  · intro i hi
    have hget : ((List.range N).map
        (childCalls (pipesOf env (N - 1)) (N : Int) commands)).getD i [] =
        childCalls (pipesOf env (N - 1)) (N : Int) commands i := by
      rw [List.getD_eq_getElem?_getD, List.getElem?_map, List.getElem?_range hi]
      rfl
    rw [hget]
    exact childCalls_wired _ N i hi commands t0 h0
  · intro j hj
    have hc := count_close_closeAllLoop _ N hfresh j hj (N - 1) (by omega)
    simp only [List.count_append, List.count_eq_zero_of_not_mem (hnotclose1 _),
      List.count_eq_zero_of_not_mem (hnotclose2 _), List.count_eq_zero_of_not_mem (hnotclose3 _),
      hc.1, hc.2]
    have hlt : j < N - 1 := by omega
    simp [hlt]

theorem execute_piped_commands_wiring_witness :
    (2 : Nat) ≤ 2 ∧
      ChildWired
        (pipesOf { pipeFds := fun j => some (3 + 2 * (j : Int), 4 + 2 * (j : Int)),
                   forkOk := fun _ => true, exitStatus := fun _ => 0 } (2 - 1)) 2 1
        (fun fd => if fd = 0 then some Stream.inheritedInput
          else if fd = 1 then some Stream.inheritedOutput
          else if fd = 3 then some (Stream.pipeRead 0)
          else if fd = 4 then some (Stream.pipeWrite 0) else none)
        ((execute_piped_commands
          { pipeFds := fun j => some (3 + 2 * (j : Int), 4 + 2 * (j : Int)),
            forkOk := fun _ => true, exitStatus := fun _ => 0 }
          ["ls".toList, "wc".toList] ((2 : Nat) : Int)).children.getD 1 []) :=
  ⟨by decide,
    (execute_piped_commands_wiring
      { pipeFds := fun j => some (3 + 2 * (j : Int), 4 + 2 * (j : Int)),
        forkOk := fun _ => true, exitStatus := fun _ => 0 }
      ["ls".toList, "wc".toList] 2 (by decide) (fun _ _ => rfl) (fun _ _ => rfl)
      (fun fd => if fd = 0 then some Stream.inheritedInput
        else if fd = 1 then some Stream.inheritedOutput
        else if fd = 3 then some (Stream.pipeRead 0)
        else if fd = 4 then some (Stream.pipeWrite 0) else none)
      ⟨by decide, by decide, by
        intro j hj
        have hj0 : j = 0 := by omega
        subst hj0
        decide⟩).2.2.1 1 (by decide)⟩

/-! ## Redirection and command execution -/

/-- C19: evaluation of the code on the command `ls > a > /no/b` when `open` succeeds for `a`
and fails for `/no/b`. The function returns `-1` from inside its loop, before the restoring
`dup2` calls at its end, and standard output still refers to the file `a`. -/
theorem handleRedirection_error_path :
    (handleRedirection
        { stdout_backup := 3, stderr_backup := 4,
          openFd := fun path => if path = "a".toList then 5 else -1,
          dup2Ok := fun _ => true }
        { out := Target.inherited, err := Target.inherited } "ls > a > /no/b".toList).ret = -1 ∧
    (handleRedirection
        { stdout_backup := 3, stderr_backup := 4,
          openFd := fun path => if path = "a".toList then 5 else -1,
          dup2Ok := fun _ => true }
        { out := Target.inherited, err := Target.inherited }
        "ls > a > /no/b".toList).streams.out = Target.file "a".toList := by
  decide

/-- C20: evaluation of the code on the command `sleep 5 &`. The last character is compared
with the address of the literal `"&"`, which is no character code, so the background branch
is not taken: the `&` stays in the command handed to `sh -c`, and the function waits for
that child and returns its exit status. -/
theorem executeCommand_not_background :
    backgroundTest
        { ampLiteral := 4210704, forkOk := fun _ => true, exitStatus := fun _ => 0,
          glob := fun _ => none,
          redir := { stdout_backup := 3, stderr_backup := 4, openFd := fun _ => 5,
                     dup2Ok := fun _ => true } }
        "sleep 5 &".toList = false ∧
    (executeCommand
        { ampLiteral := 4210704, forkOk := fun _ => true, exitStatus := fun _ => 0,
          glob := fun _ => none,
          redir := { stdout_backup := 3, stderr_backup := 4, openFd := fun _ => 5,
                     dup2Ok := fun _ => true } }
        { out := Target.inherited, err := Target.inherited } "sleep 5 &".toList).events =
      [ExecEvent.spawn "sleep 5 &".toList, ExecEvent.wait 0] ∧
    (executeCommand
        { ampLiteral := 4210704, forkOk := fun _ => true, exitStatus := fun _ => 0,
          glob := fun _ => none,
          redir := { stdout_backup := 3, stderr_backup := 4, openFd := fun _ => 5,
                     dup2Ok := fun _ => true } }
        { out := Target.inherited, err := Target.inherited } "sleep 5 &".toList).events ≠
      [ExecEvent.spawn "sleep 5 ".toList] := by
  decide

/-! ## The step budget of the redirection loop is enough -/

theorem redirectionLoop_none (env : RedirEnv) (fuel : Nat) (rest : List Char)
    (st : RedirState) : redirectionLoop env fuel none rest st = (none, st) := by
  cases fuel <;> rfl

/-- With a token in hand, any budget above the length of the remaining text gives the same
result. -/
theorem redirectionLoop_fuel (env : RedirEnv) :
    ∀ (fuel1 fuel2 : Nat) (t : List Char) (rest : List Char) (st : RedirState),
      rest.length < fuel1 → rest.length < fuel2 →
      redirectionLoop env fuel1 (some t) rest st = redirectionLoop env fuel2 (some t) rest st := by
  intro fuel1
  induction fuel1 with
  | zero => intro fuel2 t rest st h; omega
  | succ f1 ih =>
    intro fuel2 t rest st h1 h2
    obtain ⟨f2, rfl⟩ : ∃ f2, fuel2 = f2 + 1 := ⟨fuel2 - 1, by omega⟩
    have hnext : ∀ (r : List Char) (st1 : RedirState), r.length < f1 + 1 → r.length < f2 + 1 →
        redirectionLoop env f1 ((strtok [' '] r).map Prod.fst)
            (match strtok [' '] r with
              | some q => q.2
              | none => []) st1 =
          redirectionLoop env f2 ((strtok [' '] r).map Prod.fst)
            (match strtok [' '] r with
              | some q => q.2
              | none => []) st1 := by
      intro r st1 hr1 hr2
      rcases strtok_space_spec r with h | ⟨t1, r1, e1, -, hlen, -⟩
      · rw [h.1]
        simp only [Option.map_none']
        rw [redirectionLoop_none, redirectionLoop_none]
      · rw [e1]
        simp only [Option.map_some']
        exact ih f2 t1 r1 st1 (by omega) (by omega)
    simp only [redirectionLoop]
    split
    · rcases strtok_space_spec rest with h | ⟨t1, r1, e1, -, hlen, -⟩
      · rw [h.1]
        simp only
        rw [redirectionLoop_none, redirectionLoop_none]
      · rw [e1]
        simp only
        split
        · rfl
        · split
          · exact hnext r1 _ (by omega) (by omega)
          · rfl
    · split
      · rcases strtok_space_spec rest with h | ⟨t1, r1, e1, -, hlen, -⟩
        · rw [h.1]
          simp only
          rw [redirectionLoop_none, redirectionLoop_none]
        · rw [e1]
          simp only
          split
          · rfl
          · split
            · exact hnext r1 _ (by omega) (by omega)
            · rfl
      · exact hnext rest st (by omega) (by omega)

/-- The loop of `tokenise_command` stops by its own bound on `num_arg`, so every budget that
covers the passes left up to that bound gives the same result. -/
theorem tokeniseLoop_fuel :
    ∀ (fuel1 fuel2 : Nat) (token : Option (List Char)) (rest : List Char) (num_arg : Nat)
      (tokens : List (List Char)),
      MAX_ARGUMENT_LENGTH - 1 - num_arg ≤ fuel1 → MAX_ARGUMENT_LENGTH - 1 - num_arg ≤ fuel2 →
      tokeniseLoop fuel1 token rest num_arg tokens =
        tokeniseLoop fuel2 token rest num_arg tokens := by
  intro fuel1
  induction fuel1 with
  | zero =>
    intro fuel2 token rest num_arg tokens h1 _
    have hn : ¬ num_arg < MAX_ARGUMENT_LENGTH - 1 := by omega
    cases fuel2 with
    | zero => rfl
    | succ f2 => cases token <;> simp [tokeniseLoop, hn]
  | succ f1 ih =>
    intro fuel2 token rest num_arg tokens h1 h2
    cases fuel2 with
    | zero =>
      have hn : ¬ num_arg < MAX_ARGUMENT_LENGTH - 1 := by omega
      cases token <;> simp [tokeniseLoop, hn]
    | succ f2 =>
      cases token with
      | none => rfl
      | some t =>
        simp only [tokeniseLoop]
        split
        · exact ih f2 _ _ _ _ (by omega) (by omega)
        · rfl

/-- The loop of `handlePipes` stops by its own bound on `num_childs`. -/
theorem handlePipesLoop_fuel (env : PipeEnv) :
    ∀ (fuel1 fuel2 : Nat) (token : Option (List Char)) (rest : List Char) (num_childs : Nat)
      (spawned : List (List Char)),
      MAX_PIPED_COMMANDS - num_childs ≤ fuel1 → MAX_PIPED_COMMANDS - num_childs ≤ fuel2 →
      handlePipesLoop env fuel1 token rest num_childs spawned =
        handlePipesLoop env fuel2 token rest num_childs spawned := by
  intro fuel1
  induction fuel1 with
  | zero =>
    intro fuel2 token rest num_childs spawned h1 _
    have hn : ¬ num_childs < MAX_PIPED_COMMANDS := by omega
    cases fuel2 with
    | zero => rfl
    | succ f2 => cases token <;> simp [handlePipesLoop, hn]
  | succ f1 ih =>
    intro fuel2 token rest num_childs spawned h1 h2
    cases fuel2 with
    | zero =>
      have hn : ¬ num_childs < MAX_PIPED_COMMANDS := by omega
      cases token <;> simp [handlePipesLoop, hn]
    | succ f2 =>
      cases token with
      | none => rfl
      | some t =>
        simp only [handlePipesLoop]
        split
        · split
          · rfl
          · split
            · exact ih f2 _ _ _ _ (by omega) (by omega)
            · rfl
        · rfl

/-! ## Wildcards without a match -/

/-- C23: the capacity computed by `buildCommandArgumentArray` does not always cover the
terminating NULL. For `cat <` the only stage has one stored argument (`k = 1`, the list
`argv` holds the stored arguments without the NULL) while the capacity is `n = 1`, so
`k + 1 ≤ n` fails and `argv[1] = NULL` lies outside the block; for a lone `<` the capacity is
`0`, not positive. -/
theorem buildCommandArgumentArray_capacity_short :
    (separateCommands ["cat", "<"] (fun _ => initialiseCommand)).code = 1 ∧
    argvCapacity ((separateCommands ["cat", "<"] (fun _ => initialiseCommand)).command 0) = 1 ∧
    ((separateCommands ["cat", "<"] (fun _ => initialiseCommand)).command 0).argv =
      [some "cat"] ∧
    ¬ ((((separateCommands ["cat", "<"] (fun _ => initialiseCommand)).command 0).argv.length : Int)
        + 1 ≤
      argvCapacity ((separateCommands ["cat", "<"] (fun _ => initialiseCommand)).command 0)) ∧
    (separateCommands ["<"] (fun _ => initialiseCommand)).code = 1 ∧
    argvCapacity ((separateCommands ["<"] (fun _ => initialiseCommand)).command 0) = 0 := by
  decide

/-! ## More stages than `MAX_NUM_COMMANDS` -/

theorem manyCommands_length (n : Nat) : (manyCommands n).length = 2 * n := by
  simp [manyCommands]

theorem manyCommands_getElem? (n j : Nat) :
    (manyCommands n)[j]? =
      if j < 2 * n then some (if j % 2 = 0 then "a" else seqSep) else none := by
  unfold manyCommands
  by_cases hj : j < 2 * n
  · rw [List.getElem?_map, List.getElem?_range hj, if_pos hj]
    rfl
  · rw [if_neg hj]
    exact List.getElem?_eq_none (by simpa using hj)

theorem separatorAt_manyCommands (n j : Nat) :
    separatorAt (manyCommands n) (j : Int) = true ↔ j < 2 * n ∧ j % 2 = 1 := by
  rw [separatorAt_iff, manyCommands_getElem?]
  constructor
  · rintro ⟨t, ht, hsep⟩
    by_cases hj : j < 2 * n
    · rw [if_pos hj] at ht
      by_cases hpar : j % 2 = 0
      · rw [if_pos hpar] at ht
        cases ht
        exact absurd hsep (by decide)
      · exact ⟨hj, by omega⟩
    · rw [if_neg hj] at ht
      cases ht
  · rintro ⟨hj, hpar⟩
    refine ⟨seqSep, ?_, by decide⟩
    rw [if_pos hj, if_neg (by omega)]

theorem sepsBelow_manyCommands (n i : Nat) (hi : i ≤ 2 * n) :
    sepsBelow (manyCommands n) i = (List.range (i / 2)).map (fun k => 2 * k + 1) := by
  induction i with
  | zero => simp [sepsBelow]
  | succ i ih =>
    rw [sepsBelow_succ, ih (by omega)]
    by_cases hpar : i % 2 = 1
    · rw [if_pos ((separatorAt_manyCommands n i).2 ⟨by omega, hpar⟩)]
      have h2 : (i + 1) / 2 = i / 2 + 1 := by omega
      have h3 : 2 * (i / 2) + 1 = i := by omega
      rw [h2, List.range_succ, List.map_append, List.map_singleton, h3]
    · have hno : ¬ separatorAt (manyCommands n) (i : Int) = true := fun h =>
        hpar ((separatorAt_manyCommands n i).1 h).2
      rw [if_neg hno]
      have h2 : (i + 1) / 2 = i / 2 := by omega
      rw [h2]

theorem withTerminator_manyCommands (n : Nat) (hn : 0 < n) :
    withTerminator (manyCommands n) = manyCommands n := by
  unfold withTerminator
  rw [if_pos]
  rw [manyCommands_length]
  exact (separatorAt_manyCommands n (2 * n - 1)).2 ⟨by omega, by omega⟩

theorem sepIndices_manyCommands (n : Nat) (hn : 0 < n) :
    sepIndices (withTerminator (manyCommands n)) = (List.range n).map (fun k => 2 * k + 1) := by
  rw [withTerminator_manyCommands n hn]
  unfold sepIndices
  rw [manyCommands_length, sepsBelow_manyCommands n (2 * n) (le_refl _)]
  have h : 2 * n / 2 = n := by omega
  rw [h]

theorem manyCommands_not_adjacent (n : Nat) : ¬ adjacentSeparators (manyCommands n) := by
  rintro ⟨j, _, h1, h2⟩
  have a := ((separatorAt_manyCommands n j).1 h1).2
  have b := ((separatorAt_manyCommands n (j + 1)).1 h2).2
  omega

theorem manyCommands_getLast? (n : Nat) (hn : 0 < n) :
    (manyCommands n).getLast? = some seqSep := by
  rw [List.getLast?_eq_getElem?, manyCommands_length, manyCommands_getElem?,
    if_pos (by omega), if_neg (by omega)]

theorem separateCommands_manyCommands_code (n : Nat) (hn : 0 < n)
    (command : Nat → Command) :
    (separateCommands (manyCommands n) command).code = (n : Int) := by
  have hne : manyCommands n ≠ [] := by
    intro h
    have hl := manyCommands_length n
    rw [h] at hl
    simp at hl
    omega
  have h0 : separatorAt (manyCommands n) 0 = false := by
    cases hs : separatorAt (manyCommands n) 0
    · rfl
    · have := ((separatorAt_manyCommands n 0).1 (by simpa using hs)).2
      omega
  rcases separateCommands_cases (manyCommands n) command hne h0 with
    ⟨hadj, _⟩ | ⟨_, hlast, _⟩ | ⟨_, _, s, hinv, hcode, _, _⟩
  · exact absurd hadj (manyCommands_not_adjacent n)
  · rw [manyCommands_getLast? n hn] at hlast
    exact absurd hlast (by decide)
  · rw [hcode, hinv.hc]
    have h := sepIndices_manyCommands n hn
    unfold sepIndices at h
    rw [h]
    simp

theorem separateCommands_manyCommands_stage (n : Nat) (command : Nat → Command) (k : Nat)
    (hk : k < n) :
    ((separateCommands (manyCommands n) command).command k).first = 2 * (k : Int) ∧
    ((separateCommands (manyCommands n) command).command k).last = 2 * (k : Int) ∧
    ((separateCommands (manyCommands n) command).command k).sep = some seqSep := by
  have hn : 0 < n := by omega
  have hpos : 0 < (separateCommands (manyCommands n) command).code := by
    rw [separateCommands_manyCommands_code n hn command]
    exact_mod_cast hn
  have hidx := sepIndices_manyCommands n hn
  have hget : ∀ j, j < n → (sepIndices (withTerminator (manyCommands n))).getD j 0 = 2 * j + 1 := by
    intro j hj
    rw [hidx, List.getD_eq_getElem?_getD, List.getElem?_map, List.getElem?_range hj]
    rfl
  obtain ⟨hf, hl, hs, _⟩ := separateCommands_stage_fields (manyCommands n) command hpos k
    (by rw [hidx]; simpa using hk)
  rw [hget k hk] at hl hs
  refine ⟨?_, ?_, ?_⟩
  · rw [hf]
    unfold stageStart
    by_cases hk0 : k = 0
    · rw [if_pos hk0, hk0]
      rfl
    · rw [if_neg hk0, hget (k - 1) (by omega)]
      push_cast
      omega
  · rw [hl]
    push_cast
    omega
  · rw [hs, withTerminator_manyCommands n hn, tokenAt_natCast, manyCommands_getElem?,
      if_pos (by omega), if_neg (by omega)]

theorem separateCommands_code_ne_neg_one (token : List String) (command : Nat → Command) :
    (separateCommands token command).code ≠ -1 := by
  by_cases hne : token = []
  · rw [hne, separateCommands_nil]
    show (0 : Int) ≠ -1
    decide
  · cases h0 : separatorAt token 0
    · rcases separateCommands_cases token command hne h0 with
        ⟨_, hc⟩ | ⟨_, _, hc⟩ | ⟨_, _, s, _, hc, _, _⟩
      · rw [hc]
        decide
      · rw [hc]
        decide
      · rw [hc]
        omega
    · rw [separateCommands_leading token command hne h0]
      show (-3 : Int) ≠ -1
      decide

/-- C22: `separateCommands` has no capacity check. It never returns `-1`; on the sequence of
`1001` one-word commands `a ; a ; ... a ;` (one more stage than `MAX_NUM_COMMANDS`) it
returns `1001` and writes the slot `command[1000]`, which lies past an array of
`MAX_NUM_COMMANDS` elements. -/
theorem separateCommands_no_capacity_check :
    (∀ (token : List String) (command : Nat → Command),
      (separateCommands token command).code ≠ -1) ∧
    MAX_NUM_COMMANDS < 1001 ∧
    (manyCommands 1001).length = 2002 ∧
    (separateCommands (manyCommands 1001) (fun _ => initialiseCommand)).code = 1001 ∧
    ((separateCommands (manyCommands 1001) (fun _ => initialiseCommand)).command
      MAX_NUM_COMMANDS).first = 2000 ∧
    ((separateCommands (manyCommands 1001) (fun _ => initialiseCommand)).command
      MAX_NUM_COMMANDS).last = 2000 ∧
    ((separateCommands (manyCommands 1001) (fun _ => initialiseCommand)).command
      MAX_NUM_COMMANDS).sep = some seqSep ∧
    initialiseCommand.sep = none := by
  have hstage := separateCommands_manyCommands_stage 1001 (fun _ => initialiseCommand)
    MAX_NUM_COMMANDS (by decide)
  refine ⟨separateCommands_code_ne_neg_one, by decide, manyCommands_length 1001,
    separateCommands_manyCommands_code 1001 (by decide) _, ?_, ?_, hstage.2.2, rfl⟩
  · rw [hstage.1]
    rfl
  · rw [hstage.2.1]
    rfl

/-! ## The exit path of `buildCommandArgumentArray` -/

theorem argvCapacity_buildCommandArgumentArray (token : List String) (cp : Command) :
    argvCapacity (buildCommandArgumentArray token cp) = argvCapacity cp := rfl

theorem resolveLoopRun_some (token : List String) (nCommands : Nat) :
    ∀ (fuel i : Nat) (command : Nat → Command),
      (∀ k, i ≤ k → k < nCommands →
        reallocArgv (argvCapacity (searchRedirection token (command k))) = true) →
      resolveLoopRun token nCommands fuel i command =
        some (resolveLoop token nCommands fuel i command) := by
  intro fuel
  induction fuel with
  | zero =>
    intro i command _
    rfl
  | succ fuel ih =>
    intro i command h
    simp only [resolveLoopRun, resolveLoop]
    by_cases hi : i < nCommands
    · rw [if_pos hi, if_pos hi]
      simp only [buildCommandArgumentArrayRun, h i (le_refl _) hi, if_true]
      apply ih
      intro k hk hkn
      have hne : k ≠ i := by omega
      simp only [setCommand, if_neg hne]
      exact h k (by omega) hkn
    · rw [if_neg hi, if_neg hi]

theorem resolveLoopRun_none (token : List String) (nCommands : Nat) :
    ∀ (fuel i : Nat) (command : Nat → Command), nCommands ≤ i + fuel →
      (∃ k, i ≤ k ∧ k < nCommands ∧
        reallocArgv (argvCapacity (searchRedirection token (command k))) = false) →
      resolveLoopRun token nCommands fuel i command = none := by
  intro fuel
  induction fuel with
  | zero =>
    intro i command hf h
    obtain ⟨k, hk, hkn, _⟩ := h
    omega
  | succ fuel ih =>
    intro i command hf h
    obtain ⟨k, hk, hkn, hbad⟩ := h
    simp only [resolveLoopRun]
    have hi : i < nCommands := by omega
    rw [if_pos hi]
    simp only [buildCommandArgumentArrayRun]
    by_cases hok : reallocArgv (argvCapacity (searchRedirection token (command i))) = true
    · simp only [hok, if_true]
      apply ih _ _ (by omega)
      have hne : k ≠ i := by
        intro he
        rw [he, hok] at hbad
        cases hbad
      refine ⟨k, by omega, hkn, ?_⟩
      simp only [setCommand, if_neg hne]
      exact hbad
    · simp [hok]

theorem scanLoop_some (token : List String) (nTokens : Nat) :
    ∀ (fuel i : Nat) (s : ScanState) (r : Int),
      (scanLoop token nTokens fuel i s).1 = some r → r = -2 := by
  intro fuel
  induction fuel with
  | zero =>
    intro i s r h
    simp [scanLoop] at h
  | succ fuel ih =>
    intro i s r h
    simp only [scanLoop] at h
    split_ifs at h
    · simp only [Option.some.injEq] at h
      exact h.symm
    · exact ih _ _ _ h
    · exact ih _ _ _ h

theorem separateCommandsRun_scan (token : List String) (command : Nat → Command)
    (hne : token ≠ []) (h0 : separatorAt token 0 = false) :
    separateCommandsRun token command =
      match scanLoop (withTerminator token) (withTerminator token).length
          (withTerminator token).length 0
          { first := 0, last := 0, c := 0, command := command } with
      | (some r, s) => some { code := r, token := withTerminator token, command := s.command }
      | (none, s) =>
        if tokenAt (withTerminator token) s.last = some pipeSep then
          some { code := -4, token := withTerminator token, command := s.command }
        else
          (resolveLoopRun (withTerminator token) s.c s.c 0 s.command).map
            (fun resolved =>
              { code := s.c, token := withTerminator token, command := resolved }) := by
  have hlen : token.length ≠ 0 := by
    intro h
    exact hne (List.length_eq_zero.1 h)
  unfold separateCommandsRun withTerminator
  simp only [hlen, if_false, h0, Bool.false_eq_true]
  by_cases hl : separatorAt token ((token.length - 1 : Nat) : Int) = true
  · simp only [hl, if_true]
  · simp only [hl, if_false, List.length_append, List.length_singleton, Bool.false_eq_true]

/-- A run of `separateCommands` either returns what `separateCommands` describes, and then no
stage has a capacity of `0` or less, or it ends in `exit(1)`, and then some stage has. -/
theorem separateCommandsRun_spec (token : List String) (command : Nat → Command) :
    (separateCommandsRun token command = some (separateCommands token command) ∧
      ¬ ∃ k : Nat, (k : Int) < (separateCommands token command).code ∧
        argvCapacity ((separateCommands token command).command k) ≤ 0) ∨
    (separateCommandsRun token command = none ∧
      ∃ k : Nat, (k : Int) < (separateCommands token command).code ∧
        argvCapacity ((separateCommands token command).command k) ≤ 0) := by
  by_cases hne : token = []
  · subst hne
    left
    refine ⟨rfl, ?_⟩
    rintro ⟨k, hk, _⟩
    rw [separateCommands_nil] at hk
    simp only at hk
    omega
  by_cases h0 : separatorAt token 0 = true
  · left
    rw [separateCommands_leading token command hne h0]
    refine ⟨?_, ?_⟩
    · unfold separateCommandsRun
      have hlen : token.length ≠ 0 := fun h => hne (List.length_eq_zero.1 h)
      simp only [hlen, if_false, h0, if_true]
    · rintro ⟨k, hk, _⟩
      simp only at hk
      omega
  have h0f : separatorAt token 0 = false := by simpa using h0
  rw [separateCommandsRun_scan token command hne h0f, separateCommands_scan token command hne h0f]
  rcases hscan : scanLoop (withTerminator token) (withTerminator token).length
      (withTerminator token).length 0 { first := 0, last := 0, c := 0, command := command }
    with ⟨r, s⟩
  cases r with
  | some r =>
    left
    have hr : r = -2 := scanLoop_some _ _ _ _ _ r (by rw [hscan])
    refine ⟨rfl, ?_⟩
    rintro ⟨k, hk, _⟩
    simp only at hk
    omega
  | none =>
    simp only
    by_cases hpipe : tokenAt (withTerminator token) s.last = some pipeSep
    · left
      rw [if_pos hpipe, if_pos hpipe]
      refine ⟨rfl, ?_⟩
      rintro ⟨k, hk, _⟩
      simp only at hk
      omega
    · rw [if_neg hpipe, if_neg hpipe]
      simp only
      have hcap : ∀ k : Nat, k < s.c →
          argvCapacity (resolveLoop (withTerminator token) s.c s.c 0 s.command k) =
            argvCapacity (searchRedirection (withTerminator token) (s.command k)) := by
        intro k hk
        rw [resolveLoop_apply _ _ _ _ _ _ (by omega), if_pos ⟨Nat.zero_le _, hk⟩]
        rfl
      by_cases hbad : ∃ k, 0 ≤ k ∧ k < s.c ∧
          reallocArgv (argvCapacity (searchRedirection (withTerminator token) (s.command k))) =
            false
      · right
        rw [resolveLoopRun_none _ _ _ _ _ (by omega) hbad]
        refine ⟨rfl, ?_⟩
        obtain ⟨k, -, hk, hk2⟩ := hbad
        refine ⟨k, by exact_mod_cast hk, ?_⟩
        rw [hcap k hk]
        simpa [reallocArgv] using hk2
      · left
        rw [resolveLoopRun_some]
        · refine ⟨rfl, ?_⟩
          rintro ⟨k, hk, hk2⟩
          have hk1 : k < s.c := by exact_mod_cast hk
          rw [hcap k hk1] at hk2
          exact hbad ⟨k, Nat.zero_le _, hk1, by simpa [reallocArgv] using hk2⟩
        · intro k _ hk
          by_contra hc
          exact hbad ⟨k, Nat.zero_le _, hk, by simpa using hc⟩

/-- C5: the code of a call that returns classifies the sequence: it is `0` exactly for the
empty sequence, positive exactly for a well-formed one (non-empty, no control operator in
front, no two adjacent, no `|` at the end), and otherwise `-2`, `-3` or `-4`. But a
well-formed sequence does not always get a code: the run ends in `exit(1)` exactly when some
stage has an argument capacity of `0` or less, and that is so for the well-formed sequences
`<` and `< x >`, for which `searchRedirection` takes the path from the terminating `;`. -/
theorem separateCommandsRun_classifies :
    (∀ (token : List String) (command : Nat → Command) (out : Outcome),
      separateCommandsRun token command = some out →
        (out.code = 0 ↔ token = []) ∧
        (0 < out.code ↔
          (token ≠ [] ∧ separatorAt token 0 = false ∧ ¬ adjacentSeparators token ∧
            token.getLast? ≠ some "|")) ∧
        (out.code = 0 ∨ 0 < out.code ∨ out.code = -2 ∨ out.code = -3 ∨ out.code = -4)) ∧
    (∀ (token : List String) (command : Nat → Command),
      separateCommandsRun token command = none ↔
        ∃ k : Nat, (k : Int) < (separateCommands token command).code ∧
          argvCapacity ((separateCommands token command).command k) ≤ 0) ∧
    ((["<"] : List String) ≠ [] ∧ separatorAt ["<"] 0 = false ∧ ¬ adjacentSeparators ["<"] ∧
      (["<"] : List String).getLast? ≠ some "|") ∧
    argvCapacity (searchRedirection ["<", ";"]
      (fillCommandStructure initialiseCommand 0 1 (some ";"))) = 0 ∧
    separateCommandsRun ["<"] (fun _ => initialiseCommand) = none ∧
    separateCommandsRun ["<", "x", ">"] (fun _ => initialiseCommand) = none ∧
    (separateCommandsRun ["<", "x"] (fun _ => initialiseCommand)).map Outcome.code =
      some 1 := by
  refine ⟨?_, ?_, by decide, by decide, Option.isNone_iff_eq_none.1 (by decide),
    Option.isNone_iff_eq_none.1 (by decide), by decide⟩
  · intro token command out hout
    rcases separateCommandsRun_spec token command with ⟨h, -⟩ | ⟨h, -⟩
    · rw [h] at hout
      cases hout
      exact separateCommands_code_classifies token command
    · rw [h] at hout
      cases hout
  · intro token command
    rcases separateCommandsRun_spec token command with ⟨h, hno⟩ | ⟨h, hyes⟩
    · rw [h]
      exact ⟨fun hc => (by cases hc), fun hc => absurd hc hno⟩
    · rw [h]
      exact ⟨fun _ => hyes, fun _ => rfl⟩

end Shell
